import Mathlib

/-!
Verification of the version-aware catalog resolution engine of
`auto_intersphinx` (files `src/auto_intersphinx/catalog.py` and
`src/auto_intersphinx/__init__.py`).

The Python code is shallowly embedded:

* Python `dict`s are modelled as insertion-ordered association lists
  (`List (κ × ν)`) together with operations `dget`/`dset`/`dupdate`/… that
  mirror CPython dictionary semantics (a `d[k] = v` on an existing key keeps
  the key's position and original key object, and only replaces the value;
  otherwise the pair is appended).  Well-formedness (`DictWF`) states that the
  keys are pairwise distinct, which is an invariant of every real Python dict.
* `packaging.version.Version` is modelled by `PyVersion` together with the
  recursive-descent parser `pep440Parse` for the anchored, case-insensitive
  `VERSION_PATTERN` regular expression (the same pattern is compiled by
  `catalog.py` as `PEP440_RE`, so `Version(k)` succeeds exactly when
  `PEP440_RE.match(k)` does).  The parser works on the lower-cased,
  whitespace-stripped character list; for the alternation groups of the
  pattern (`a|b|c|rc|alpha|beta|pre|preview`, `post|rev|r`) first-longest
  match is used, which coincides with the backtracking search of the regex
  engine on this grammar because no shorter alternative can ever lead to an
  overall match when a longer one is available.
* The comparison key of `packaging.version._cmpkey` is modelled by `cmpkey`
  taking values in a lexicographic product of linearly ordered types;
  `Version.__eq__`/`__lt__` compare these keys.
-/

namespace AutoIntersphinx

/-! ## Python dictionaries as insertion-ordered association lists -/

/-- Membership test of a key, `k in d` for a Python dict. -/
def dmem {κ ν : Type} (eq : κ → κ → Bool) (d : List (κ × ν)) (k : κ) : Bool :=
  d.any fun p => eq p.fst k

/-- `d.get(k)` for a Python dict: the value stored under `k`, if any. -/
def dget {κ ν : Type} (eq : κ → κ → Bool) (d : List (κ × ν)) (k : κ) : Option ν :=
  (d.find? fun p => eq p.fst k).map Prod.snd

/-- `d.get(k, dflt)` for a Python dict. -/
def dgetD {κ ν : Type} (eq : κ → κ → Bool) (d : List (κ × ν)) (k : κ) (dflt : ν) : ν :=
  (dget eq d k).getD dflt

/-- `d[k] = v` for a Python dict: replace in place when the key is present
(keeping the stored key object and its position), append otherwise. -/
def dset {κ ν : Type} (eq : κ → κ → Bool) (d : List (κ × ν)) (k : κ) (v : ν) :
    List (κ × ν) :=
  if dmem eq d k then d.map (fun p => if eq p.fst k then (p.fst, v) else p)
  else d ++ [(k, v)]

/-- `d.update(e)` for Python dicts: `d[k] = v` for every item of `e` in order. -/
def dupdate {κ ν : Type} (eq : κ → κ → Bool) (d e : List (κ × ν)) : List (κ × ν) :=
  e.foldl (fun acc p => dset eq acc p.fst p.snd) d

/-- `list(d.keys())` for a Python dict (iteration order = insertion order). -/
def dkeys {κ ν : Type} (d : List (κ × ν)) : List κ :=
  d.map Prod.fst

/-- `d.setdefault(k, v)`: insert `k ↦ v` only when `k` is absent. -/
def dsetdefault {κ ν : Type} (eq : κ → κ → Bool) (d : List (κ × ν)) (k : κ) (v : ν) :
    List (κ × ν) :=
  if dmem eq d k then d else d ++ [(k, v)]

/-- Well-formedness of the association-list model of a Python dict: keys are
pairwise distinct (w.r.t. the key equality in use).  Every real Python dict
satisfies this. -/
def DictWF {κ ν : Type} (eq : κ → κ → Bool) (d : List (κ × ν)) : Prop :=
  (dkeys d).Pairwise fun a b => eq a b = false

/-- Key equality used for `str`-keyed dictionaries. -/
def seq (a b : String) : Bool := a == b

/-! ## `packaging.version.Version`: parsing

`PEP440_RE` in `catalog.py` is `^\s*VERSION_PATTERN\s*$` compiled with
`VERBOSE | IGNORECASE`, exactly the pattern used by the
`packaging.version.Version` constructor, so a label is accepted by one iff by
the other. -/

/-- The characters matched by `\s` in a CPython `str` regular expression. -/
def isPyWhitespace (c : Char) : Bool :=
  c.toNat = 0x20 || c.toNat = 0x9 || c.toNat = 0xa || c.toNat = 0xd ||
  c.toNat = 0xb || c.toNat = 0xc ||
  (0x1c ≤ c.toNat && c.toNat ≤ 0x1f) || c.toNat = 0x85 || c.toNat = 0xa0 ||
  c.toNat = 0x1680 || (0x2000 ≤ c.toNat && c.toNat ≤ 0x200a) ||
  c.toNat = 0x2028 || c.toNat = 0x2029 || c.toNat = 0x202f ||
  c.toNat = 0x205f || c.toNat = 0x3000

/-- Strip the `\s*` anchors at both ends of the pattern. -/
def trimPyWs (cs : List Char) : List Char :=
  ((cs.dropWhile isPyWhitespace).reverse.dropWhile isPyWhitespace).reverse

/-- Longest run of ASCII digits at the head of the input (`[0-9]+`, greedy),
with the remaining input. -/
def spanDigits : List Char → List Char × List Char
  | [] => ([], [])
  | c :: cs =>
    if c.isDigit then
      let r := spanDigits cs
      (c :: r.fst, r.snd)
    else ([], c :: cs)

/-- Numeric value of a run of ASCII digits (Python `int(...)`, so leading
zeros are immaterial). -/
def digitsToNat (ds : List Char) : Nat :=
  ds.foldl (fun a c => 10 * a + (c.toNat - 48)) 0

/-- The `(?:\.[0-9]+)*` sub-pattern of the release segment: a greedy run of
`.N` groups.  Structural recursion on a fuel bound; every step consumes at
least two characters, so the `length + 1` fuel supplied by `parseDotGroups`
never runs out. -/
def parseDotGroupsF : Nat → List Char → List Nat × List Char
  | 0, cs => ([], cs)
  | fuel + 1, cs =>
    match cs with
    | '.' :: rest =>
      (match spanDigits rest with
       | ([], _) => ([], '.' :: rest)
       | (d :: ds, rest2) =>
         let r := parseDotGroupsF fuel rest2
         (digitsToNat (d :: ds) :: r.fst, r.snd))
    | other => ([], other)

/-- The `(?:\.[0-9]+)*` sub-pattern with sufficient fuel. -/
def parseDotGroups (cs : List Char) : List Nat × List Char :=
  parseDotGroupsF (cs.length + 1) cs

/-- Consume one optional separator character (`[-_\.]?`, greedy). -/
def skipSep : List Char → List Char
  | '-' :: cs => cs
  | '_' :: cs => cs
  | '.' :: cs => cs
  | cs => cs

/-- If `lit` is an initial segment of `cs`, return the rest of `cs`. -/
def dropLit : List Char → List Char → Option (List Char)
  | [], cs => some cs
  | l :: ls, c :: cs => if c = l then dropLit ls cs else none
  | _ :: _, [] => none

/-- Alternatives of the pre-release letter group
(`a|b|c|rc|alpha|beta|pre|preview`), listed longest first, paired with the
normalised letter of `packaging.version._parse_letter_version`
(`alpha → a`, `beta → b`, `c`/`pre`/`preview → rc`).  Normalised letters are
encoded by their rank in the string order used by `_cmpkey`
(`"a" < "b" < "rc"`): `0 = a`, `1 = b`, `2 = rc`. -/
def PRE_LETTERS : List (List Char × Nat) :=
  [(['p','r','e','v','i','e','w'], 2), (['a','l','p','h','a'], 0),
   (['b','e','t','a'], 1), (['p','r','e'], 2), (['r','c'], 2),
   (['a'], 0), (['b'], 1), (['c'], 2)]

/-- Alternatives of the post-release letter group (`post|rev|r`), longest
first; all normalise to `post`. -/
def POST_LETTERS : List (List Char) :=
  [['p','o','s','t'], ['r','e','v'], ['r']]

/-- First alternative of `alts` that is an initial segment of `cs`. -/
def matchAlt {α : Type} (alts : List (List Char × α)) (cs : List Char) :
    Option (α × List Char) :=
  match alts with
  | [] => none
  | (lit, tag) :: rest =>
    match dropLit lit cs with
    | some r => some (tag, r)
    | none => matchAlt rest cs

/-- The parsed form of a PEP-440 version, as stored by
`packaging.version.Version`: epoch, release numbers, normalised pre-release
(letter code `0 = a`, `1 = b`, `2 = rc`, with its number), post-release
number, dev-release number and the normalised local segments (a numeric
segment is stored as an `Inl` number, any other as the `Inr` character
run). -/
structure PyVersion where
  epoch : Nat
  release : List Nat
  pre : Option (Nat × Nat)
  post : Option Nat
  dev : Option Nat
  localSegs : Option (List (Nat ⊕ List Char))
deriving DecidableEq, Repr

/-- The pre-release group `(?: [-_\.]? (a|b|c|rc|alpha|beta|pre|preview)
[-_\.]? [0-9]*? )?`: a missing number normalises to `0`
(`_parse_letter_version`).  Returns the group value (if the group matched)
and the remaining input. -/
def parsePre (cs : List Char) : Option (Nat × Nat) × List Char :=
  match matchAlt PRE_LETTERS (skipSep cs) with
  | some (code, cs2) =>
    let r := spanDigits (skipSep cs2)
    (some (code, digitsToNat r.fst), r.snd)
  | none => (none, cs)

/-- The post-release group: either `-N` (`post_n1`) or
`[-_\.]? (post|rev|r) [-_\.]? [0-9]*?`; a missing number normalises to `0`. -/
def parsePost (cs : List Char) : Option Nat × List Char :=
  match cs with
  | '-' :: rest =>
    match spanDigits rest with
    | (d :: ds, rest2) => (some (digitsToNat (d :: ds)), rest2)
    | ([], _) => parsePostLetter cs
  | _ => parsePostLetter cs
where
  /-- The letter alternative of the post-release group. -/
  parsePostLetter (cs : List Char) : Option Nat × List Char :=
    match matchAlt (POST_LETTERS.map fun l => (l, ())) (skipSep cs) with
    | some (_, cs2) =>
      let r := spanDigits (skipSep cs2)
      (some (digitsToNat r.fst), r.snd)
    | none => (none, cs)

/-- The dev-release group `(?: [-_\.]? dev [-_\.]? [0-9]*? )?`. -/
def parseDev (cs : List Char) : Option Nat × List Char :=
  match dropLit ['d','e','v'] (skipSep cs) with
  | some cs2 =>
    let r := spanDigits (skipSep cs2)
    (some (digitsToNat r.fst), r.snd)
  | none => (none, cs)

/-- Lower-case ASCII letter or digit: the `[a-z0-9]` class of the local
segment (the input was already lower-cased). -/
def isLocalChar (c : Char) : Bool :=
  c.isDigit || ('a' ≤ c && c ≤ 'z')

/-- Longest run of local-segment characters at the head of the input. -/
def spanLocal : List Char → List Char × List Char
  | [] => ([], [])
  | c :: cs =>
    if isLocalChar c then
      let r := spanLocal cs
      (c :: r.fst, r.snd)
    else ([], c :: cs)

/-- Normalisation of one local segment (`_parse_local_version`): an all-digit
segment becomes its numeric value, any other is kept as its characters. -/
def localSegValue (seg : List Char) : Nat ⊕ List Char :=
  if seg.all Char.isDigit then Sum.inl (digitsToNat seg) else Sum.inr seg

/-- The `(?:[-_\.][a-z0-9]+)*` tail of the local version.  Structural
recursion on a fuel bound; every step consumes at least two characters, so
the `length + 1` fuel supplied by `parseLocalTail` never runs out. -/
def parseLocalTailF : Nat → List Char → List (Nat ⊕ List Char) × List Char
  | 0, cs => ([], cs)
  | fuel + 1, cs =>
    match cs with
    | c :: rest =>
      if c = '-' || c = '_' || c = '.' then
        match spanLocal rest with
        | ([], _) => ([], c :: rest)
        | (d :: ds, rest2) =>
          let r := parseLocalTailF fuel rest2
          (localSegValue (d :: ds) :: r.fst, r.snd)
      else ([], c :: rest)
    | [] => ([], [])

/-- The `(?:[-_\.][a-z0-9]+)*` tail with sufficient fuel. -/
def parseLocalTail (cs : List Char) : List (Nat ⊕ List Char) × List Char :=
  parseLocalTailF (cs.length + 1) cs

/-- The optional local version group `(?:\+(?P<local>[a-z0-9]+(?:[-_\.][a-z0-9]+)*))?`.
Returns `none` when the remaining input cannot be consumed (which makes the
whole match fail, since nothing else may consume a `+`). -/
def parseLocal (cs : List Char) : Option (Option (List (Nat ⊕ List Char)) × List Char) :=
  match cs with
  | '+' :: rest =>
    match spanLocal rest with
    | ([], _) => none
    | (d :: ds, rest2) =>
      let r := parseLocalTail rest2
      some (some (localSegValue (d :: ds) :: r.fst), r.snd)
  | other => some (none, other)

/-- The anchored `VERSION_PATTERN` match on a lower-cased,
whitespace-stripped character list. -/
def parseVersionChars (cs0 : List Char) : Option PyVersion :=
  -- leading `v?`
  let cs := match cs0 with | 'v' :: r => r | _ => cs0
  -- epoch `(?:(?P<epoch>[0-9]+)!)?` and release `[0-9]+(?:\.[0-9]+)*`
  match spanDigits cs with
  | ([], _) => none
  | (d :: ds, r1) =>
    let epochRel : Option (Nat × Nat × List Char) :=
      match r1 with
      | '!' :: r2 =>
        match spanDigits r2 with
        | ([], _) => none
        | (e :: es, r3) => some (digitsToNat (d :: ds), digitsToNat (e :: es), r3)
      | _ => some (0, digitsToNat (d :: ds), r1)
    match epochRel with
    | none => none
    | some (epoch, rel0, r4) =>
      let rel := parseDotGroups r4
      let preR := parsePre rel.snd
      let postR := parsePost preR.snd
      let devR := parseDev postR.snd
      match parseLocal devR.snd with
      | none => none
      | some (localv, rest) =>
        if rest = [] then
          some ⟨epoch, rel0 :: rel.fst, preR.fst, postR.fst, devR.fst, localv⟩
        else none

/-- `packaging.version.Version(s)`, returning `none` on `InvalidVersion`;
equivalently a match of `PEP440_RE` (`catalog.py`, line 34) against `s`. -/
def pep440Parse (s : String) : Option PyVersion :=
  parseVersionChars ((trimPyWs s.data).map Char.toLower)

/-! ## `packaging.version._cmpkey`: the comparison key

Python compares `Version` objects through a tuple
`(epoch, release, pre, post, dev, local)` where the infinities of
`packaging._structures` are modelled by `WithBot`/`WithTop` and tuple/string
comparison by lexicographic orders.  The pre-release letter strings compare
as `"a" < "b" < "rc"`, matching the numeric codes `0 < 1 < 2`. -/

/-- Key of the pre-release component: `NegativeInfinity` when only a
dev-release is present, `Infinity` when there is no pre-release, otherwise
the (letter, number) pair. -/
abbrev PreKey := WithBot (WithTop (Lex (Nat × Nat)))

/-- One normalised local segment as compared by `_cmpkey`: numeric segments
become `(i, "")`, others `(NegativeInfinity, segment)`. -/
abbrev LocalSeg := Lex (WithBot Nat × List Char)

/-- The full comparison key tuple of `_cmpkey`. -/
abbrev CmpKey :=
  Lex (Nat × Lex (List Nat × Lex (PreKey ×
    Lex ((WithBot Nat) × Lex ((WithTop Nat) × WithBot (List LocalSeg))))))

/-- Trailing zeros of the release tuple are dropped before comparison. -/
def dropTrailingZeros (l : List Nat) : List Nat :=
  (l.reverse.dropWhile fun n => n == 0).reverse

/-- The `pre` component of `_cmpkey`. -/
def preKey (v : PyVersion) : PreKey :=
  match v.pre with
  | some (l, n) => (((toLex (l, n) : Lex (Nat × Nat)) : WithTop (Lex (Nat × Nat))) : PreKey)
  | none =>
    if v.post = none && v.dev ≠ none then (⊥ : PreKey)
    else ((⊤ : WithTop (Lex (Nat × Nat))) : PreKey)

/-- The `post` component of `_cmpkey` (`NegativeInfinity` when absent). -/
def postKey (v : PyVersion) : WithBot Nat :=
  match v.post with
  | some n => (n : WithBot Nat)
  | none => ⊥

/-- The `dev` component of `_cmpkey` (`Infinity` when absent). -/
def devKey (v : PyVersion) : WithTop Nat :=
  match v.dev with
  | some n => (n : WithTop Nat)
  | none => ⊤

/-- The `local` component of `_cmpkey` (`NegativeInfinity` when absent). -/
def localKey (v : PyVersion) : WithBot (List LocalSeg) :=
  match v.localSegs with
  | none => ⊥
  | some segs =>
    ((segs.map fun s =>
      match s with
      | Sum.inl n => (toLex ((n : WithBot Nat), ([] : List Char)) : LocalSeg)
      | Sum.inr cs => (toLex ((⊥ : WithBot Nat), cs) : LocalSeg)) : List LocalSeg)

/-- `packaging.version._cmpkey` for a parsed version. -/
def cmpkey (v : PyVersion) : CmpKey :=
  toLex (v.epoch, toLex (dropTrailingZeros v.release, toLex (preKey v,
    toLex (postKey v, toLex (devKey v, localKey v)))))

/-- `Version.__le__`: comparison via `_cmpkey`. -/
def vle (a b : PyVersion) : Prop := cmpkey a ≤ cmpkey b

/-- `Version.__lt__`: comparison via `_cmpkey`. -/
def vlt (a b : PyVersion) : Prop := cmpkey a < cmpkey b

/-- `Version.__eq__` (used for dictionary-key collisions): equality of
comparison keys, e.g. `Version("1.0") == Version("1.0.0")`. -/
def veq (a b : PyVersion) : Bool := decide (cmpkey a = cmpkey b)

instance : DecidableRel vle := fun a b =>
  inferInstanceAs (Decidable (cmpkey a ≤ cmpkey b))

instance : DecidableRel vlt := fun a b =>
  inferInstanceAs (Decidable (cmpkey a < cmpkey b))

instance : IsTotal PyVersion vle := ⟨fun a b => le_total (cmpkey a) (cmpkey b)⟩

instance : IsTrans PyVersion vle := ⟨fun _ _ _ h h' => le_trans h h'⟩

/-- Key equality for the `{_string2version(k): k}` dictionary of
`_prepare_versions`, whose keys are `Version | None`: `None == None`, and
versions compare by `veq`. -/
def oveq : Option PyVersion → Option PyVersion → Bool
  | none, none => true
  | some a, some b => veq a b
  | _, _ => false

/-- `Version.is_prerelease`: a dev- or pre-release component is present. -/
def isPrerelease (v : PyVersion) : Bool := v.dev.isSome || v.pre.isSome

/-- `Version.is_devrelease`: a dev-release component is present. -/
def isDevrelease (v : PyVersion) : Bool := v.dev.isSome

/-! ## `Version.public`: the canonical string (without local segment) -/

/-- Decimal digits of `n`, most significant first (`str(n)` in Python). -/
def natToCharsAux : Nat → Nat → List Char
  | 0, _ => []
  | fuel + 1, n => if n = 0 then [] else natToCharsAux fuel (n / 10) ++ [Char.ofNat (48 + n % 10)]

/-- `str(n)` for a natural number. -/
def natToChars (n : Nat) : List Char :=
  if n = 0 then ['0'] else natToCharsAux (n + 1) n

/-- `".".join(...)` over rendered members. -/
def joinDot : List (List Char) → List Char
  | [] => []
  | [x] => x
  | x :: xs => x ++ '.' :: joinDot xs

/-- The normalised pre-release letter for a letter code. -/
def letterChars : Nat → List Char
  | 0 => ['a']
  | 1 => ['b']
  | _ => ['r', 'c']

/-- `Version.public`: `str(version)` truncated before any `+`, i.e. epoch,
release, pre-, post- and dev-release segments in canonical spelling. -/
def publicStr (v : PyVersion) : String :=
  ⟨(if v.epoch ≠ 0 then natToChars v.epoch ++ ['!'] else []) ++
   joinDot (v.release.map natToChars) ++
   (match v.pre with
    | some (l, n) => letterChars l ++ natToChars n
    | none => []) ++
   (match v.post with
    | some n => '.' :: 'p' :: 'o' :: 's' :: 't' :: natToChars n
    | none => []) ++
   (match v.dev with
    | some n => '.' :: 'd' :: 'e' :: 'v' :: natToChars n
    | none => [])⟩

/-! ## `_string2version`, `_reorder_versions` and `_prepare_versions` -/

/-- `".x" in s` (Python substring containment). -/
def hasDotX : List Char → Bool
  | '.' :: 'x' :: _ => true
  | _ :: cs => hasDotX cs
  | [] => false

/-- `s.replace(".x", "")`: remove every (left-to-right, non-overlapping)
occurrence of the substring `".x"`. -/
def replaceDotX : List Char → List Char
  | '.' :: 'x' :: cs => replaceDotX cs
  | c :: cs => c :: replaceDotX cs
  | [] => []

/-- `_string2version` (catalog.py line 525): strip `".x"` occurrences, then
parse; `None` on an invalid version. -/
def string2version (v : String) : Option PyVersion :=
  pep440Parse ⟨replaceDotX v.data⟩

/-- A version dictionary: Python `dict[str, str]` mapping labels to URLs. -/
abbrev VMap := List (String × String)

/-- The labels `_reorder_versions` always places first, in order. -/
def PROTECTED : List String := ["latest", "main", "master", "stable"]

/-- Python `a or b` on `str | None` operands: `b` when `a` is falsy
(`None` or the empty string). -/
def pyOr (a : Option String) (b : String) : String :=
  match a with
  | some s => if s = "" then b else s
  | none => b

/-- `_reorder_versions` (catalog.py line 56): protected labels first, then
one representative label per parseable version in decreasing version order,
then everything else in insertion order.  `sorted(keys, reverse=True)` is
modelled as the reverse of the ascending sort, which agrees with Python's
stable descending sort because dictionary keys are pairwise non-equal.
The inner `vdict[...]` subscripts cannot fail (the keys looked up are keys
of `vdict`), so they are modelled with default `""`. -/
def reorder_versions (vdict : VMap) : VMap :=
  let retval : VMap := PROTECTED.foldl (fun acc key =>
    if dmem seq vdict key then dset seq acc key (dgetD seq vdict key "") else acc) []
  -- version_map = {Version(k): k for k in vdict if k not in protected and PEP440_RE.match(k)}
  let version_map : List (PyVersion × String) :=
    (dkeys vdict).foldl (fun acc k =>
      if PROTECTED.contains k then acc
      else
        match pep440Parse k with
        | some ver => dset veq acc ver k
        | none => acc) []
  let sortedKeys := (List.insertionSort vle (dkeys version_map)).reverse
  let retval := sortedKeys.foldl (fun acc ver =>
    let label := dgetD veq version_map ver ""
    dset seq acc label (dgetD seq vdict label "")) retval
  -- retval.update({k: v for k, v in vdict.items() if k not in retval})
  dupdate seq retval (vdict.filter fun p => !(dmem seq retval p.fst))

/-- `_prepare_versions` (catalog.py line 552): ensure `latest`/`stable`
entries and augment parseable labels with canonical synonyms.  As in
`reorder_versions`, inner subscripts that cannot fail carry default `""`. -/
def prepare_versions (versions : VMap) : VMap :=
  if versions = [] then versions
  else
    -- version_map = {_string2version(k): k for k in versions.keys()}
    let version_map : List (Option PyVersion × String) :=
      (dkeys versions).foldl (fun acc k => dset oveq acc (string2version k) k) []
    -- sorted_versions = sorted([k for k in version_map.keys() if k is not None])
    let sorted_versions := List.insertionSort vle ((dkeys version_map).filterMap id)
    match sorted_versions.getLast? with
    | some latest =>
      -- retval["latest"] = versions.get("latest", versions[version_map[latest]])
      let latestLabel := dgetD oveq version_map (some latest) ""
      let retval : VMap := dset seq [] "latest"
        (dgetD seq versions "latest" (dgetD seq versions latestLabel ""))
      let stable_versions := sorted_versions.filter fun k =>
        !(isPrerelease k || isDevrelease k)
      let stable := stable_versions.getLastD latest
      let stableLabel := dgetD oveq version_map (some stable) ""
      let retval := dset seq retval "stable"
        (dgetD seq versions "stable" (dgetD seq versions stableLabel ""))
      -- for k in reversed(sorted_versions): fill in remaining versions and synonyms
      sorted_versions.reverse.foldl (fun acc k =>
        let label := dgetD oveq version_map (some k) ""
        let url := dgetD seq versions label ""
        let acc := dset seq acc label url
        if hasDotX label.data then
          dset seq acc ⟨replaceDotX label.data⟩ url
        else if publicStr k ≠ label then
          dset seq acc (publicStr k) url
        else acc) retval
    | none =>
      -- no parseable numbers: only aliases; Python `or` chains
      let latestVal := pyOr (dget seq versions "latest") (pyOr (dget seq versions "stable")
        (pyOr (dget seq versions "master") (pyOr (dget seq versions "main") "")))
      let stableVal := pyOr (dget seq versions "stable") (pyOr (dget seq versions "latest")
        (pyOr (dget seq versions "master") (pyOr (dget seq versions "main") "")))
      dset seq (dset seq [] "latest" latestVal) "stable" stableVal

/-! ## The `Catalog` class

`Catalog._data` is a `dict[str, dict[str, dict[str, str]]]`: package name ↦
`{"versions": {label: URL}, "sources": {source kind: external name}}`.
The network-facing `docurls_from_*` functions are modelled as oracle
parameters (`fetchEnv`, `fetchRtd`, `fetchPypi`): each update operation
receives the mapping such a call would return. -/

/-- Update the value stored under `k` in place (a Python mutation of the
object `d[k]`); no effect when `k` is absent. -/
def dmodify {κ ν : Type} (eq : κ → κ → Bool) (d : List (κ × ν)) (k : κ) (f : ν → ν) :
    List (κ × ν) :=
  d.map fun p => if eq p.fst k then (p.fst, f p.snd) else p

/-- The value of one package entry: a dict with `versions`/`sources` keys. -/
abbrev PackageDictionaryType := List (String × VMap)

/-- `Catalog._data`. -/
abbrev CatalogData := List (String × PackageDictionaryType)

/-- `Catalog._ensure_defaults` (catalog.py line 310). -/
def ensure_defaults (data : CatalogData) (pkg : String) : CatalogData :=
  let data := dsetdefault seq data pkg [("versions", []), ("sources", [])]
  dmodify seq data pkg fun entry =>
    dsetdefault seq (dsetdefault seq entry "versions" []) "sources" []

/-- Lines 349–354 (and their twins at 384–389 and 430–435) of `catalog.py`:
merge a non-empty fetched mapping into `versions`, reorder, record the
looked-up name under `sources[sourceKey]`, and report whether anything was
found.  The `self[pkg]["versions"]` subscripts cannot fail after
`_ensure_defaults` and are modelled with default `[]`. -/
def apply_fetched (data : CatalogData) (pkg : String) (fetched : VMap)
    (sourceKey n : String) : CatalogData × Bool :=
  if fetched.isEmpty then (data, false)
  else
    (dmodify seq data pkg (fun entry =>
      let entry := dset seq entry "versions"
        (reorder_versions (dupdate seq (dgetD seq entry "versions" []) fetched))
      dmodify seq entry "sources" fun ss => dset seq ss sourceKey n), true)

/-- `Catalog.update_versions_from_environment` (catalog.py line 316). -/
def update_versions_from_environment (fetchEnv : String → VMap)
    (data : CatalogData) (pkg : String) (name : Option String) : CatalogData × Bool :=
  let data := ensure_defaults data pkg
  let n := pyOr name pkg
  apply_fetched data pkg (fetchEnv n) "environment" n

/-- `Catalog.update_versions_from_rtd` (catalog.py line 356). -/
def update_versions_from_rtd (fetchRtd : String → VMap)
    (data : CatalogData) (pkg : String) (name : Option String) : CatalogData × Bool :=
  let data := ensure_defaults data pkg
  let n := pyOr name pkg
  apply_fetched data pkg (fetchRtd n) "readthedocs" n

/-- `Catalog.update_versions_from_pypi` (catalog.py line 391). -/
def update_versions_from_pypi (fetchPypi : String → Int → VMap)
    (data : CatalogData) (pkg : String) (name : Option String)
    (max_entries : Int) : CatalogData × Bool :=
  let data := ensure_defaults data pkg
  let n := pyOr name pkg
  apply_fetched data pkg (fetchPypi n max_entries) "pypi" n

/-- The `names` argument of `Catalog.update_versions`: source kind ↦
(package ↦ external name or the explicit skip marker `None`). -/
abbrev NamesDict := List (String × List (String × Option String))

/-- The inner `for action in order` loop of `Catalog.update_versions`
(catalog.py lines 489–512) for one package, with its `break` on a hit when
`keep_going` is unset.  Returns the catalog data and the accumulated log of
`(source, name)` per-source update invocations; an unrecognised source name
raises `RuntimeError` (modelled as `Except.error`). -/
def update_versions_inner (fetchEnv fetchRtd : String → VMap)
    (fetchPypi : String → Int → VMap) (names : NamesDict)
    (pypi_max_entries : Int) (keep_going : Bool) (pkg : String) :
    List String → CatalogData × List (String × String) →
    Except String (CatalogData × List (String × String))
  | [], st => .ok st
  | action :: rest, (data, log) =>
    if action == "environment" then
      match dgetD seq (dgetD seq names action []) pkg (some pkg) with
      | some n =>
        let r := update_versions_from_environment fetchEnv data pkg (some n)
        let st := (r.fst, log ++ [(action, n)])
        if r.snd && !keep_going then .ok st
        else update_versions_inner fetchEnv fetchRtd fetchPypi names
          pypi_max_entries keep_going pkg rest st
      | none => update_versions_inner fetchEnv fetchRtd fetchPypi names
          pypi_max_entries keep_going pkg rest (data, log)
    else if action == "readthedocs" then
      match dgetD seq (dgetD seq names action []) pkg (some pkg) with
      | some n =>
        let r := update_versions_from_rtd fetchRtd data pkg (some n)
        let st := (r.fst, log ++ [(action, n)])
        if r.snd && !keep_going then .ok st
        else update_versions_inner fetchEnv fetchRtd fetchPypi names
          pypi_max_entries keep_going pkg rest st
      | none => update_versions_inner fetchEnv fetchRtd fetchPypi names
          pypi_max_entries keep_going pkg rest (data, log)
    else if action == "pypi" then
      match dgetD seq (dgetD seq names action []) pkg (some pkg) with
      | some n =>
        let r := update_versions_from_pypi fetchPypi data pkg (some n) pypi_max_entries
        let st := (r.fst, log ++ [(action, n)])
        if r.snd && !keep_going then .ok st
        else update_versions_inner fetchEnv fetchRtd fetchPypi names
          pypi_max_entries keep_going pkg rest st
      | none => update_versions_inner fetchEnv fetchRtd fetchPypi names
          pypi_max_entries keep_going pkg rest (data, log)
    else .error ("Unrecognized source: " ++ action)

/-- `Catalog.update_versions` (catalog.py line 437). -/
def update_versions (fetchEnv fetchRtd : String → VMap)
    (fetchPypi : String → Int → VMap) (pkgs : List String) (order : List String)
    (names : NamesDict) (pypi_max_entries : Int) (keep_going : Bool)
    (data : CatalogData) :
    Except String (CatalogData × List (String × String)) :=
  pkgs.foldlM
    (fun st pkg =>
      update_versions_inner fetchEnv fetchRtd fetchPypi names pypi_max_entries
        keep_going pkg order st)
    (data, [])

/-- The `names` dictionary built by `Catalog.self_update` (catalog.py lines
517–520): `names[src][pkg] = info["sources"].get(src)` for every package and
the three source kinds.  The `info["sources"]` subscript cannot fail for
entries produced by the update operations and is modelled with default `[]`. -/
def self_update_names (data : CatalogData) : NamesDict :=
  data.foldl
    (fun ns p =>
      ["environment", "readthedocs", "pypi"].foldl
        (fun ns src =>
          dmodify seq ns src fun inner =>
            dset seq inner p.fst (dget seq (dgetD seq p.snd "sources" []) src))
        ns)
    [("environment", []), ("readthedocs", []), ("pypi", [])]

/-- `Catalog.self_update` (catalog.py line 514): rebuild `names` from the
recorded sources and run `update_versions` with its default `order`,
`pypi_max_entries = 0` and `keep_going = False`. -/
def self_update (fetchEnv fetchRtd : String → VMap)
    (fetchPypi : String → Int → VMap) (data : CatalogData) :
    Except String (CatalogData × List (String × String)) :=
  update_versions fetchEnv fetchRtd fetchPypi (dkeys data)
    ["environment", "readthedocs", "pypi"] (self_update_names data) 0 false data

/-! ## The `LookupCatalog` class -/

/-- The `_version_map` built by `LookupCatalog.reset` (catalog.py line 653):
package name ↦ `_prepare_versions(catalog[pkg]["versions"])`.  The
`["versions"]` subscript is modelled with default `[]`. -/
def lookup_version_map (data : CatalogData) : List (String × VMap) :=
  data.foldl
    (fun acc p => dset seq acc p.fst (prepare_versions (dgetD seq p.snd "versions" [])))
    []

/-- The `_package_map` built by `LookupCatalog.reset` (catalog.py lines
656–659): each package maps to itself, then every recorded source name maps
to the package (later packages overwrite colliding aliases). -/
def lookup_package_map (data : CatalogData) : List (String × String) :=
  data.foldl
    (fun acc p =>
      let acc := dset seq acc p.fst p.fst
      dupdate seq acc ((dgetD seq p.snd "sources" []).map fun q => (q.snd, p.fst)))
    []

/-- `LookupCatalog.get` (catalog.py line 661).  `version` is `str | None`
(`None in d` is `False` for a `str`-keyed dict); a Python `KeyError` is
modelled as `Except.error`. -/
def lookup_get (data : CatalogData) (pkg : String) (version : Option String)
    (dflt : Option String) : Except String (Option String) :=
  let pmap := lookup_package_map data
  let vmap := lookup_version_map data
  if !(dmem seq pmap pkg) then .ok dflt
  else
    match dget seq vmap pkg with
    | none => .error "KeyError"      -- `self._version_map[pkg]` raises
    | some vm =>
      if !(match version with | some vs => dmem seq vm vs | none => false) then .ok dflt
      else
        -- return self._version_map[self._package_map[pkg]][version]
        match dget seq pmap pkg with
        | none => .error "KeyError"
        | some canonical =>
          match dget seq vmap canonical with
          | none => .error "KeyError"
          | some vm2 =>
            match version with
            | none => .error "KeyError"
            | some vs =>
              match dget seq vm2 vs with
              | none => .error "KeyError"
              | some url => .ok (some url)

/-! ## The resolution driver (`__init__.py`)

Diagnostics are modelled structurally: one constructor per `logger.…` call
site of `_add_index` and `populate_intersphinx_mapping`, carrying the values
interpolated into the message (so "the diagnostic names both values" is a
statement about the constructor's arguments). -/

/-- One emitted diagnostic. -/
inductive Diag where
  /-- `logger.info` at line 95: repeated identical setting of a mapping. -/
  | infoRepeated (name : String)
  /-- `logger.error` at line 106: conflicting reset of a mapping entry,
  naming the current and the new value. -/
  | errorConflict (name curr newval : String)
  /-- `logger.warning` at line 172: package in user catalog, version not. -/
  | warningVersionMissing (pkg : String) (version : Option String)
  /-- `logger.info` at line 188: package in builtin catalog, version not. -/
  | infoVersionMissing (pkg : String) (version : Option String)
  /-- `logger.info` at line 206: package not installed in the environment. -/
  | infoNotEnvironment (pkg : String)
  /-- `logger.info` at line 226: package not on readthedocs.org. -/
  | infoNotRtd (pkg : String)
  /-- `logger.info` at line 246: package not on pypi.org. -/
  | infoNotPypi (pkg : String)
  /-- `logger.error` at line 265: no stage resolved the package. -/
  | errorUnresolved (name : String)
deriving DecidableEq, Repr

/-- The `intersphinx_mapping` dictionary: name ↦ (URL, objects-inv name). -/
abbrev IMap := List (String × (String × Option String))

/-- `curr`/`newval` composition inside `_add_index` (lines 98–104): ensure a
trailing slash, then append the inventory name (`objects.inv` when the
stored name is `None` or empty).  `endswith("/")` for a one-character suffix
is the last-character test. -/
def withObjectsInv (addr : String) (inv : Option String) : String :=
  let a := match addr.data.getLast? with
    | some c => if c = '/' then addr else addr ++ "/"
    | none => addr ++ "/"
  a ++ pyOr inv "objects.inv"

/-- `_add_index` (`__init__.py` line 68): register a new index, ignore an
identical repetition with an info message, refuse a conflicting one with an
error naming both values; never raises. -/
def add_index (m : IMap) (name addr : String) (objects_inv : Option String) :
    IMap × List Diag :=
  match dget seq m name with
  | none => (dset seq m name (addr, objects_inv), [])
  | some (curAddr, curInv) =>
    if curAddr == addr && curInv == objects_inv then
      (m, [Diag.infoRepeated name])
    else
      (m, [Diag.errorConflict name (withObjectsInv curAddr curInv)
            (withObjectsInv addr objects_inv)])

/-- Events observable by the driver: catalog lookups and fetcher
invocations. -/
inductive FetchEvent where
  /-- A `user_lookup.get(p, v)` call. -/
  | userLookup (pkg : String) (version : Option String)
  /-- A `builtin_lookup.get(p, v)` call. -/
  | builtinLookup (pkg : String) (version : Option String)
  /-- A `user_catalog.update_versions_from_environment(p, None)` call. -/
  | fetchEnv (pkg : String)
  /-- A `user_catalog.update_versions_from_rtd(p, None)` call. -/
  | fetchRtd (pkg : String)
  /-- A `user_catalog.update_versions_from_pypi(p, None, 0)` call. -/
  | fetchPypi (pkg : String)
deriving DecidableEq, Repr

/-- State threaded through the per-package loop of
`populate_intersphinx_mapping`. -/
structure DriverState where
  /-- The `intersphinx_mapping` being populated. -/
  mapping : IMap
  /-- `user_catalog._data` (mutated by the fetch stages). -/
  user : CatalogData
  /-- Diagnostics emitted so far. -/
  diags : List Diag
  /-- Lookup/fetch events so far. -/
  events : List FetchEvent
deriving Repr

/-- The body of the `for k in config.auto_intersphinx_packages` loop of
`populate_intersphinx_mapping` (`__init__.py` lines 162–276) for one
requested `(p, v)` pair.  `user_lookup.reset()` after each catalog mutation
is implicit: `lookup_get` is computed from the current catalog data. -/
def process_package (builtin : CatalogData) (fetchEnv fetchRtd : String → VMap)
    (fetchPypi : String → Int → VMap) (st : DriverState) (p : String)
    (v : Option String) : Except String DriverState := do
  -- stage 1: user catalog
  let st := { st with events := st.events ++ [FetchEvent.userLookup p v] }
  match ← lookup_get st.user p v none with
  | some addr =>
    let r := add_index st.mapping p addr none
    return { st with mapping := r.fst, diags := st.diags ++ r.snd }
  | none =>
  let st := { st with diags := st.diags ++
    (if dmem seq st.user p then [Diag.warningVersionMissing p v] else []) }
  -- stage 2: builtin catalog
  let st := { st with events := st.events ++ [FetchEvent.builtinLookup p v] }
  match ← lookup_get builtin p v none with
  | some addr =>
    let r := add_index st.mapping p addr none
    return { st with mapping := r.fst, diags := st.diags ++ r.snd }
  | none =>
  let st := { st with diags := st.diags ++
    (if dmem seq builtin p then [Diag.infoVersionMissing p v] else []) }
  -- stage 3: current environment
  let st := { st with
    user := (update_versions_from_environment fetchEnv st.user p none).fst,
    events := st.events ++ [FetchEvent.fetchEnv p, FetchEvent.userLookup p v] }
  match ← lookup_get st.user p v none with
  | some addr =>
    let r := add_index st.mapping p addr none
    return { st with mapping := r.fst, diags := st.diags ++ r.snd }
  | none =>
  let st := { st with diags := st.diags ++ [Diag.infoNotEnvironment p] }
  -- stage 4: readthedocs.org
  let st := { st with
    user := (update_versions_from_rtd fetchRtd st.user p none).fst,
    events := st.events ++ [FetchEvent.fetchRtd p, FetchEvent.userLookup p v] }
  match ← lookup_get st.user p v none with
  | some addr =>
    let r := add_index st.mapping p addr none
    return { st with mapping := r.fst, diags := st.diags ++ r.snd }
  | none =>
  let st := { st with diags := st.diags ++ [Diag.infoNotRtd p] }
  -- stage 5: pypi.org (max_entries = 0)
  let st := { st with
    user := (update_versions_from_pypi fetchPypi st.user p none 0).fst,
    events := st.events ++ [FetchEvent.fetchPypi p, FetchEvent.userLookup p v] }
  match ← lookup_get st.user p v none with
  | some addr =>
    let r := add_index st.mapping p addr none
    return { st with mapping := r.fst, diags := st.diags ++ r.snd }
  | none =>
  let st := { st with diags := st.diags ++ [Diag.infoNotPypi p] }
  -- terminal diagnostic (lines 260–276)
  let name := match v with
    | some vv => p ++ "@" ++ vv
    | none => p
  return { st with diags := st.diags ++ [Diag.errorUnresolved name] }

/-- Normalisation of one requested entry (line 163):
`p, v = k if isinstance(k, (tuple, list)) else (k, "stable")`. -/
def normalize_request : String ⊕ (String × Option String) → String × Option String
  | Sum.inl k => (k, some "stable")
  | Sum.inr kv => kv

/-- The package loop of `populate_intersphinx_mapping` over all requested
entries. -/
def populate_loop (builtin : CatalogData) (fetchEnv fetchRtd : String → VMap)
    (fetchPypi : String → Int → VMap)
    (pkgs : List (String ⊕ (String × Option String))) (st : DriverState) :
    Except String DriverState :=
  pkgs.foldlM
    (fun st k =>
      let pv := normalize_request k
      process_package builtin fetchEnv fetchRtd fetchPypi st pv.fst pv.snd)
    st

/-! ## `Catalog.dumps` / `Catalog.loads`: the JSON round trip

`dumps` is `json.dumps(self._data, indent=2)` and `loads` is
`json.loads(contents)`.  The catalog data is a nested string dictionary, so
the JSON fragment involved has only objects and strings; `PyJson` and the
parser below model exactly that fragment of the CPython `json` module
(`ensure_ascii=True` escaping, strict scanning, whitespace skipping around
structural tokens).  Lone surrogate halves — representable in a Python
`str` but not in a Lean `Char` — make the model parser fail; they never
occur in `dumps` output. -/

/-- JSON values of the fragment produced by `Catalog.dumps`. -/
inductive PyJson where
  /-- A JSON string. -/
  | str : String → PyJson
  /-- A JSON object (a Python dict: insertion-ordered, unique keys). -/
  | obj : List (String × PyJson) → PyJson
deriving Repr

/-- Structural equality of JSON values (Python `==` on the loaded data). -/
def pyJsonBeq : PyJson → PyJson → Bool
  | .str a, .str b => a == b
  | .obj a, .obj b => pyJsonMembersBeq a b
  | _, _ => false
where
  /-- Member-list equality. -/
  pyJsonMembersBeq : List (String × PyJson) → List (String × PyJson) → Bool
  | [], [] => true
  | (ka, va) :: ma, (kb, vb) :: mb =>
    ka == kb && pyJsonBeq va vb && pyJsonMembersBeq ma mb
  | _, _ => false

instance : BEq PyJson := ⟨pyJsonBeq⟩

/-- Size measure used as parser fuel bound. -/
def jsize : PyJson → Nat
  | .str _ => 1
  | .obj ms => 1 + msize ms
where
  /-- Size of an object member list. -/
  msize : List (String × PyJson) → Nat
  | [] => 0
  | (_, v) :: ms => 1 + jsize v + msize ms

/-- Key uniqueness at every object level (true of data that was ever a
Python dict). -/
def jsonWFb : PyJson → Bool
  | .str _ => true
  | .obj ms => membersWFb ms
where
  /-- Well-formedness of an object member list. -/
  membersWFb : List (String × PyJson) → Bool
  | [] => true
  | (k, v) :: ms => !(ms.any fun q => q.fst == k) && jsonWFb v && membersWFb ms

/-- Two-space indentation at nesting `level` (`json.dumps(..., indent=2)`). -/
def jIndent (level : Nat) : List Char := List.replicate (2 * level) ' '

/-- Lowercase hexadecimal digit character. -/
def hexDigitChar (n : Nat) : Char :=
  if n < 10 then Char.ofNat (48 + n) else Char.ofNat (87 + n)

/-- The four hex digits of a `\uXXXX` escape. -/
def hex4 (n : Nat) : List Char :=
  [hexDigitChar (n / 4096 % 16), hexDigitChar (n / 256 % 16),
   hexDigitChar (n / 16 % 16), hexDigitChar (n % 16)]

/-- `json.dumps` escaping of one character (`ensure_ascii=True`): named
escapes, literal ASCII in `0x20`–`0x7e`, `\uXXXX` otherwise, surrogate
pairs above `0xFFFF`. -/
def escapeChar (c : Char) : List Char :=
  if c = '"' then ['\\', '"']
  else if c = '\\' then ['\\', '\\']
  else if c.toNat = 8 then ['\\', 'b']
  else if c.toNat = 9 then ['\\', 't']
  else if c.toNat = 10 then ['\\', 'n']
  else if c.toNat = 12 then ['\\', 'f']
  else if c.toNat = 13 then ['\\', 'r']
  else if 0x20 ≤ c.toNat && c.toNat ≤ 0x7e then [c]
  else if c.toNat < 0x10000 then '\\' :: 'u' :: hex4 c.toNat
  else
    ('\\' :: 'u' :: hex4 (0xd800 + (c.toNat - 0x10000) / 0x400)) ++
    ('\\' :: 'u' :: hex4 (0xdc00 + (c.toNat - 0x10000) % 0x400))

/-- Escaped rendering of all characters of a string body. -/
def escAll (l : List Char) : List Char :=
  l.foldr (fun c acc => escapeChar c ++ acc) []

/-- `json.dumps` rendering of a string, quotes included. -/
def renderJString (s : String) : List Char :=
  '"' :: (escAll s.data ++ ['"'])

mutual

/-- `json.dumps(value, indent=2)` at nesting `level`. -/
def renderJson (level : Nat) : PyJson → List Char
  | .str s => renderJString s
  | .obj [] => ['{', '}']
  | .obj (m :: ms) =>
    '{' :: '\n' :: (renderMembers level (m :: ms) ++ '\n' :: (jIndent level ++ ['}']))

/-- The members of a non-empty object, joined by `",\n"`, each able as
`<indent>"key": <value>`. -/
def renderMembers (level : Nat) : List (String × PyJson) → List Char
  | [] => []
  | [(k, v)] =>
    jIndent (level + 1) ++ (renderJString k ++ ':' :: ' ' :: renderJson (level + 1) v)
  | (k, v) :: ms =>
    (jIndent (level + 1) ++ (renderJString k ++ ':' :: ' ' :: renderJson (level + 1) v)) ++
    ',' :: '\n' :: renderMembers level ms

end

/-- `Catalog._data` viewed as the JSON value `json.loads` returns for it. -/
def catalogJson (data : CatalogData) : PyJson :=
  .obj (data.map fun p =>
    (p.fst, .obj (p.snd.map fun q =>
      (q.fst, .obj (q.snd.map fun r => (r.fst, .str r.snd))))))

/-- `Catalog.dumps` (catalog.py line 283): `json.dumps(self._data, indent=2)`. -/
def catalog_dumps (data : CatalogData) : String :=
  ⟨renderJson 0 (catalogJson data)⟩

/-- The whitespace characters `json.loads` skips around tokens. -/
def skipJWs : List Char → List Char
  | c :: cs =>
    if c = ' ' || c = '\t' || c = '\n' || c = '\r' then skipJWs cs else c :: cs
  | [] => []

/-- Value of one hexadecimal digit (case-insensitive). -/
def hexVal (c : Char) : Option Nat :=
  if '0' ≤ c && c ≤ '9' then some (c.toNat - 48)
  else if 'a' ≤ c && c ≤ 'f' then some (c.toNat - 87)
  else if 'A' ≤ c && c ≤ 'F' then some (c.toNat - 55)
  else none

/-- Reading four hexadecimal digits (the `XXXX` of a `\uXXXX` escape). -/
def readHex4 : List Char → Option (Nat × List Char)
  | a :: b :: c :: d :: rest =>
    match hexVal a, hexVal b, hexVal c, hexVal d with
    | some x, some y, some z, some w => some (((x * 16 + y) * 16 + z) * 16 + w, rest)
    | _, _, _, _ => none
  | _ => none

/-- Decoding a `\u` escape (the backslash and `u` already consumed): a high
surrogate must be followed by an escaped low surrogate, and the pair is
combined into one code point.  The lone-surrogate results representable in
Python but not in `Char` are mapped to failure. -/
def parseUEscape (rest2 : List Char) : Option (Nat × List Char) :=
  match readHex4 rest2 with
  | none => none
  | some (n, rest3) =>
    if 0xdc00 ≤ n ∧ n ≤ 0xdfff then none
    else if 0xd800 ≤ n ∧ n ≤ 0xdbff then
      match rest3 with
      | s1 :: s2 :: rest3' =>
        if s1 = '\\' ∧ s2 = 'u' then
          match readHex4 rest3' with
          | some (m, rest4) =>
            if 0xdc00 ≤ m ∧ m ≤ 0xdfff then
              some (0x10000 + (n - 0xd800) * 0x400 + (m - 0xdc00), rest4)
            else none
          | none => none
        else none
      | _ => none
    else some (n, rest3)

/-- The string scanner of `json.loads` after an opening quote: returns the
decoded characters and the input after the closing quote.  Strict mode:
raw control characters are rejected. -/
def parseJStringBodyF : Nat → List Char → Option (List Char × List Char)
  | 0, _ => none
  | fuel + 1, cs =>
    match cs with
    | [] => none
    | c :: rest =>
      if c = '"' then some ([], rest)
      else if c = '\\' then
        match rest with
        | [] => none
        | e :: rest2 =>
          if e = '"' then
            (parseJStringBodyF fuel rest2).map fun r => ('"' :: r.fst, r.snd)
          else if e = '\\' then
            (parseJStringBodyF fuel rest2).map fun r => ('\\' :: r.fst, r.snd)
          else if e = '/' then
            (parseJStringBodyF fuel rest2).map fun r => ('/' :: r.fst, r.snd)
          else if e = 'b' then
            (parseJStringBodyF fuel rest2).map fun r => (Char.ofNat 8 :: r.fst, r.snd)
          else if e = 'f' then
            (parseJStringBodyF fuel rest2).map fun r => (Char.ofNat 12 :: r.fst, r.snd)
          else if e = 'n' then
            (parseJStringBodyF fuel rest2).map fun r => ('\n' :: r.fst, r.snd)
          else if e = 'r' then
            (parseJStringBodyF fuel rest2).map fun r => (Char.ofNat 13 :: r.fst, r.snd)
          else if e = 't' then
            (parseJStringBodyF fuel rest2).map fun r => ('\t' :: r.fst, r.snd)
          else if e = 'u' then
            match parseUEscape rest2 with
            | some (n, rest3) =>
              (parseJStringBodyF fuel rest3).map fun r => (Char.ofNat n :: r.fst, r.snd)
            | none => none
          else none
      else if c.toNat < 0x20 then none
      else (parseJStringBodyF fuel rest).map fun r => (c :: r.fst, r.snd)

/-- The string scanner with sufficient fuel (every step consumes at least
one character). -/
def parseJStringBody (cs : List Char) : Option (List Char × List Char) :=
  parseJStringBodyF (cs.length + 1) cs

/-- `dict(pairs)`: the dictionary the object scanner builds from the parsed
pair list (later duplicate keys overwrite earlier values). -/
def objFromPairs (pairs : List (String × PyJson)) : List (String × PyJson) :=
  pairs.foldl (fun d p => dset seq d p.fst p.snd) []

mutual

/-- One JSON value, fuel-bounded (the fuel only limits nesting/member
recursion; `json_loads` supplies enough for any input). -/
def parseJValue : Nat → List Char → Option (PyJson × List Char)
  | 0, _ => none
  | fuel + 1, cs =>
    match skipJWs cs with
    | [] => none
    | c :: rest =>
      if c = '"' then (parseJStringBody rest).map fun r => (.str ⟨r.fst⟩, r.snd)
      else if c = '{' then
        match skipJWs rest with
        | [] => none
        | c2 :: rest2 =>
          if c2 = '}' then some (.obj [], rest2)
          else
            (parseJMembers fuel (c2 :: rest2)).map fun r =>
              (.obj (objFromPairs r.fst), r.snd)
      else none

/-- The members of a non-empty object: `"key" : value` pairs separated by
commas, up to the closing brace. -/
def parseJMembers : Nat → List Char → Option (List (String × PyJson) × List Char)
  | 0, _ => none
  | fuel + 1, cs =>
    match skipJWs cs with
    | [] => none
    | c :: rest =>
      if c = '"' then
        match parseJStringBody rest with
        | none => none
        | some (key, rest2) =>
          match skipJWs rest2 with
          | [] => none
          | c2 :: rest3 =>
            if c2 = ':' then
              match parseJValue fuel rest3 with
              | none => none
              | some (v, rest4) =>
                match skipJWs rest4 with
                | [] => none
                | c3 :: rest5 =>
                  if c3 = ',' then
                    match parseJMembers fuel rest5 with
                    | none => none
                    | some (ms, rest6) => some ((⟨key⟩, v) :: ms, rest6)
                  else if c3 = '}' then some ([(⟨key⟩, v)], rest5)
                  else none
            else none
      else none

end

/-- `json.loads` (the fragment reachable from `Catalog.dumps` output):
parse one value, then require only whitespace to remain. -/
def json_loads (s : String) : Option PyJson :=
  match parseJValue (s.data.length + 1) s.data with
  | some (j, rest) => if skipJWs rest = [] then some j else none
  | none => none

/-! ## Observers used in theorem statements -/

/-- The `versions` dictionary recorded for `pkg` (empty when absent). -/
def catalog_versions (data : CatalogData) (pkg : String) : VMap :=
  dgetD seq (dgetD seq data pkg []) "versions" []

/-- The `sources` dictionary recorded for `pkg` (empty when absent). -/
def catalog_sources (data : CatalogData) (pkg : String) : VMap :=
  dgetD seq (dgetD seq data pkg []) "sources" []

/-- The version-keyed label dictionaries both `_reorder_versions` and
`_prepare_versions` build with a dict comprehension `{parse(k): k for k in
keys}`: shared form of the two folds. -/
def buildMap {κ : Type} (eqk : κ → κ → Bool) (f : String → Option κ)
    (ks : List String) : List (κ × String) :=
  ks.foldl (fun acc k =>
    match f k with
    | some key => dset eqk acc key k
    | none => acc) []

/-- The key ordering the specification claims for `_reorder_versions`:
protected labels first in the fixed order, then all non-protected
PEP-440-parseable labels of the input in strictly decreasing parsed-version
order, then the remaining labels in insertion order.  (This is the
specification predicate the counterexample refutes, written from the
specification text, not from the code.) -/
def specReorderOrdering (V : VMap) : Prop :=
  ∃ ks,
    dkeys (reorder_versions V)
      = (PROTECTED.filter fun k => dmem seq V k) ++ ks ++
        ((dkeys V).filter fun k =>
          !(PROTECTED.contains k) && !(pep440Parse k).isSome) ∧
    ks.Perm ((dkeys V).filter fun k =>
      !(PROTECTED.contains k) && (pep440Parse k).isSome) ∧
    ks.Pairwise fun a b => ∀ va vb, pep440Parse a = some va →
      pep440Parse b = some vb → vlt vb va


/-- The `version_map` dictionary of `_prepare_versions` (named form of the
fold inside `prepare_versions`, for use in lemma statements). -/
def prepVM (V : VMap) : List (Option PyVersion × String) :=
  (dkeys V).foldl (fun acc k => dset oveq acc (string2version k) k) []

/-- `sorted_versions` of `_prepare_versions`. -/
def prepSorted (V : VMap) : List PyVersion :=
  List.insertionSort vle ((dkeys (prepVM V)).filterMap id)

/-- One iteration of the version fill-in loop of `_prepare_versions`. -/
def prepStep (V : VMap) (vm : List (Option PyVersion × String)) (acc : VMap)
    (k : PyVersion) : VMap :=
  let label := dgetD oveq vm (some k) ""
  let url := dgetD seq V label ""
  let acc := dset seq acc label url
  if hasDotX label.data then dset seq acc ⟨replaceDotX label.data⟩ url
  else if publicStr k ≠ label then dset seq acc (publicStr k) url
  else acc

/-- The protected-label fold of `_reorder_versions` (named form for lemma
statements). -/
def protFold (V : VMap) : VMap :=
  PROTECTED.foldl (fun acc key =>
    if dmem seq V key then dset seq acc key (dgetD seq V key "") else acc) []

/-- The key function of the reorder `version_map` comprehension: protected
labels are skipped, everything else is parsed. -/
def reordParse (k : String) : Option PyVersion :=
  if PROTECTED.contains k then none else pep440Parse k

/-- The `version_map` dictionary of `_reorder_versions`. -/
def reordVM (V : VMap) : List (PyVersion × String) :=
  (dkeys V).foldl (fun acc k =>
    if PROTECTED.contains k then acc
    else
      match pep440Parse k with
      | some ver => dset veq acc ver k
      | none => acc) []

/-- `sorted(version_map.keys(), reverse=True)` of `_reorder_versions`. -/
def reordSorted (V : VMap) : List PyVersion :=
  (List.insertionSort vle (dkeys (reordVM V))).reverse

/-- One iteration of the release loop of `_reorder_versions`. -/
def reordStep (V : VMap) (vm : List (PyVersion × String)) (acc : VMap)
    (ver : PyVersion) : VMap :=
  let label := dgetD veq vm ver ""
  dset seq acc label (dgetD seq V label "")

/-! ## Lemmas about the dictionary model -/

theorem seq_iff {a b : String} : seq a b = true ↔ a = b := by
  simp [seq]

theorem seq_refl (a : String) : seq a a = true := by
  simp [seq]

theorem dget_cons {κ ν : Type} (eq : κ → κ → Bool) (p : κ × ν) (d : List (κ × ν))
    (k : κ) :
    dget eq (p :: d) k = if eq p.fst k then some p.snd else dget eq d k := by
  by_cases h : eq p.fst k <;> simp [dget, List.find?_cons, h]

theorem dmem_cons {κ ν : Type} (eq : κ → κ → Bool) (p : κ × ν) (d : List (κ × ν))
    (k : κ) :
    dmem eq (p :: d) k = (eq p.fst k || dmem eq d k) := by
  simp [dmem]

theorem dmem_iff_dget {κ ν : Type} (eq : κ → κ → Bool) (d : List (κ × ν)) (k : κ) :
    dmem eq d k = true ↔ (dget eq d k).isSome = true := by
  induction d with
  | nil => simp [dmem, dget]
  | cons p d ih =>
    rw [dmem_cons, dget_cons]
    by_cases h : eq p.fst k <;> simp [h, ih]

theorem dget_dset_self {κ ν : Type} (eq : κ → κ → Bool) (d : List (κ × ν))
    (k : κ) (v : ν) (href : eq k k = true) :
    dget eq (dset eq d k v) k = some v := by
  unfold dset
  by_cases h : dmem eq d k
  · simp only [h, if_true]
    unfold dmem at h
    simp only [List.any_eq_true, Bool.or_eq_true] at h
    induction d with
    | nil => simp at h
    | cons p d ih =>
      by_cases hp : eq p.fst k
      · simp [dget, List.find?_cons, hp]
      · simp only [List.map_cons, if_neg hp]
        rw [dget_cons]
        simp only [hp, if_false, Bool.false_eq_true]
        apply ih
        rcases h with ⟨x, hx, hxk⟩
        rcases List.mem_cons.mp hx with rfl | hx
        · exact absurd hxk hp
        · exact ⟨x, hx, hxk⟩
  · simp only [h, if_false, Bool.false_eq_true]
    induction d with
    | nil => simp [dget, List.find?, href]
    | cons p d ih =>
      rw [List.cons_append, dget_cons]
      rw [dmem_cons] at h
      simp only [Bool.or_eq_true, not_or] at h
      simp only [h.1, Bool.false_eq_true, if_false]
      exact ih (by simp [h.2])

theorem dget_dset_of_ne {κ ν : Type} (eq : κ → κ → Bool) (d : List (κ × ν))
    (k k' : κ) (v : ν) (h : ∀ x, eq x k = true → eq x k' = true → False)
    (href : eq k k = true) :
    dget eq (dset eq d k v) k' = dget eq d k' := by
  unfold dset
  by_cases hm : dmem eq d k
  · simp only [hm, if_true]
    clear hm
    induction d with
    | nil => simp [dget]
    | cons p d ih =>
      simp only [List.map_cons]
      rw [dget_cons, dget_cons]
      by_cases hp : eq p.fst k
      · simp only [hp, if_true]
        have hne : eq p.fst k' = false := by
          by_contra hc
          exact h p.fst hp (by revert hc; cases eq p.fst k' <;> simp)
        simp [hne, ih]
      · simp only [hp, if_false, Bool.false_eq_true]
        by_cases hq : eq p.fst k' <;> simp [hq, ih]
  · simp only [hm, if_false, Bool.false_eq_true]
    induction d with
    | nil =>
      have : eq k k' = false := by
        by_contra hc
        exact h k href (by revert hc; cases eq k k' <;> simp)
      simp [dget, List.find?, this]
    | cons p d ih =>
      rw [List.cons_append, dget_cons, dget_cons]
      rw [dmem_cons] at hm
      simp only [Bool.or_eq_true, not_or] at hm
      by_cases hp : eq p.fst k'
      · simp [hp]
      · simp only [hp, if_false, Bool.false_eq_true]
        exact ih (by simp [hm.2])

/-- Specialisation: distinct string keys do not disturb each other. -/
theorem dget_dset_ne_seq {ν : Type} (d : List (String × ν)) (k k' : String) (v : ν)
    (h : k' ≠ k) :
    dget seq (dset seq d k v) k' = dget seq d k' := by
  apply dget_dset_of_ne seq d k k' v _ (seq_refl k)
  intro x hx hx'
  rw [seq_iff] at hx hx'
  exact h (hx' ▸ hx ▸ rfl)

theorem dmem_dset_seq {ν : Type} (d : List (String × ν)) (k k' : String) (v : ν) :
    dmem seq (dset seq d k v) k' = (dmem seq d k' || seq k k') := by
  unfold dset
  by_cases hm : dmem seq d k
  · simp only [hm, if_true]
    have hk : ∀ e : List (String × ν),
        dmem seq (e.map fun p => if seq p.fst k then (p.fst, v) else p) k'
          = dmem seq e k' := by
      intro e
      induction e with
      | nil => rfl
      | cons p e ih =>
        simp only [List.map_cons]
        rw [dmem_cons, dmem_cons, ih]
        by_cases hp : seq p.fst k <;> simp [hp]
    rw [hk]
    by_cases he : seq k k'
    · rw [seq_iff] at he; subst he; simp [hm]
    · simp [he]
  · simp only [hm, if_false, Bool.false_eq_true]
    simp [dmem, List.any_append]

theorem dmem_dupdate_seq {ν : Type} (d e : List (String × ν)) (k : String) :
    dmem seq (dupdate seq d e) k = (dmem seq d k || dmem seq e k) := by
  induction e generalizing d with
  | nil => simp [dupdate, dmem]
  | cons p e ih =>
    unfold dupdate at ih ⊢
    simp only [List.foldl_cons]
    rw [ih, dmem_dset_seq, dmem_cons]
    by_cases hp : seq p.fst k
    · rw [seq_iff] at hp; subst hp; simp [seq_refl]
    · have : seq p.fst k = false := by revert hp; cases seq p.fst k <;> simp
      simp only [this]
      cases dmem seq d k <;> cases dmem seq e k <;> simp [seq]

theorem dkeys_dset {κ ν : Type} (eq : κ → κ → Bool) (d : List (κ × ν)) (k : κ) (v : ν) :
    dkeys (dset eq d k v) = if dmem eq d k then dkeys d else dkeys d ++ [k] := by
  unfold dset
  by_cases hm : dmem eq d k
  · simp only [hm, if_true]
    unfold dkeys
    rw [List.map_map]
    apply List.map_congr_left
    intro p _
    by_cases hp : eq p.fst k <;> simp [hp]
  · simp [hm, dkeys]

theorem dget_dmodify_self {κ ν : Type} (eq : κ → κ → Bool) (d : List (κ × ν))
    (k : κ) (f : ν → ν) :
    dget eq (dmodify eq d k f) k = (dget eq d k).map f := by
  induction d with
  | nil => rfl
  | cons p d ih =>
    unfold dmodify at ih ⊢
    simp only [List.map_cons]
    by_cases hp : eq p.fst k
    · simp only [hp, if_true]
      rw [dget_cons, dget_cons]
      simp [hp]
    · simp only [hp, if_false, Bool.false_eq_true]
      rw [dget_cons, dget_cons]
      simp only [hp, if_false, Bool.false_eq_true]
      exact ih

theorem dget_dmodify_ne_seq {ν : Type} (d : List (String × ν)) (k k' : String)
    (f : ν → ν) (h : k' ≠ k) :
    dget seq (dmodify seq d k f) k' = dget seq d k' := by
  induction d with
  | nil => rfl
  | cons p d ih =>
    unfold dmodify at ih ⊢
    simp only [List.map_cons]
    rw [dget_cons, dget_cons]
    by_cases hp : seq p.fst k
    · have hp' : seq p.fst k' = false := by
        rw [seq_iff] at hp
        subst hp
        revert h
        cases hh : seq p.fst k' <;> simp [seq_iff] at hh ⊢ <;> simp [hh]
      simp [hp, hp', ih]
    · simp only [hp, if_false, Bool.false_eq_true]
      by_cases hq : seq p.fst k' <;> simp [hq, ih]

theorem dmem_dmodify {κ ν : Type} (eq : κ → κ → Bool) (d : List (κ × ν)) (k k' : κ)
    (f : ν → ν) :
    dmem eq (dmodify eq d k f) k' = dmem eq d k' := by
  induction d with
  | nil => rfl
  | cons p d ih =>
    unfold dmodify at ih ⊢
    simp only [List.map_cons]
    rw [dmem_cons, dmem_cons, ih]
    by_cases hp : eq p.fst k <;> simp [hp]

theorem dget_dsetdefault_mem {κ ν : Type} (eq : κ → κ → Bool) (d : List (κ × ν))
    (k : κ) (v : ν) (h : dmem eq d k = true) :
    dsetdefault eq d k v = d := by
  simp [dsetdefault, h]

theorem dget_dsetdefault_ne_seq {ν : Type} (d : List (String × ν)) (k k' : String)
    (v : ν) (h : k' ≠ k) :
    dget seq (dsetdefault seq d k v) k' = dget seq d k' := by
  unfold dsetdefault
  by_cases hm : dmem seq d k
  · simp [hm]
  · simp only [hm, Bool.false_eq_true, if_false]
    clear hm
    induction d with
    | nil =>
      have : seq k k' = false := by
        cases hs : seq k k'
        · rfl
        · exact absurd (seq_iff.mp hs).symm h
      simp [dget, List.find?, this]
    | cons p d ih =>
      rw [List.cons_append, dget_cons, dget_cons]
      by_cases hp : seq p.fst k' <;> simp [hp, ih]

theorem dget_dsetdefault_self {κ ν : Type} (eq : κ → κ → Bool) (d : List (κ × ν))
    (k : κ) (v : ν) (href : eq k k = true) (h : dmem eq d k = false) :
    dget eq (dsetdefault eq d k v) k = some v := by
  simp only [dsetdefault, h, Bool.false_eq_true, if_false]
  induction d with
  | nil => simp [dget, List.find?, href]
  | cons p d ih =>
    rw [dmem_cons] at h
    simp only [Bool.or_eq_false_iff] at h
    rw [List.cons_append, dget_cons]
    simp only [h.1, Bool.false_eq_true, if_false]
    exact ih h.2

/-! ## C8: conflict handling in `_add_index` -/

/-- **C8** (confirmed): with a package already registered under URL `A`
(and inventory name `oA`), registering a different URL `B` leaves the
mapping untouched and emits exactly one error-severity diagnostic naming
both composed values; re-registering the identical value leaves the mapping
untouched and emits exactly one informational message.  `add_index` is a
total function, mirroring that `_add_index` never raises. -/
theorem C8_add_index_conflict (m : IMap) (name A B : String) (oA oB : Option String)
    (hcur : dget seq m name = some (A, oA)) (hne : B ≠ A) :
    add_index m name B oB
      = (m, [Diag.errorConflict name (withObjectsInv A oA) (withObjectsInv B oB)]) ∧
    add_index m name A oA = (m, [Diag.infoRepeated name]) := by
  have hAB : (A == B) = false := by
    cases hab : A == B
    · rfl
    · have heq : A = B := by simpa using hab
      exact absurd heq.symm hne
  constructor
  · unfold add_index
    rw [hcur]
    simp [hAB]
  · unfold add_index
    rw [hcur]
    simp

/-- Witness for C8 at a concrete mapping state. -/
theorem C8_add_index_conflict_witness :
    add_index [("numpy", ("https://a/", none))] "numpy" "https://b/" none
      = ([("numpy", ("https://a/", none))],
         [Diag.errorConflict "numpy" (withObjectsInv "https://a/" none)
           (withObjectsInv "https://b/" none)]) ∧
    add_index [("numpy", ("https://a/", none))] "numpy" "https://a/" none
      = ([("numpy", ("https://a/", none))], [Diag.infoRepeated "numpy"]) := by
  exact C8_add_index_conflict [("numpy", ("https://a/", none))] "numpy" "https://a/"
    "https://b/" none none (by rfl) (by decide)

/-! ## C2: `LookupCatalog.get` on a recorded source alias -/

/-- **C2** (code bug): on the catalog
`{pkg: {versions: {1.0: u}, sources: {pypi: alias}}}` the call
`get("alias", "1.0", default)` raises `KeyError` instead of resolving the
alias or returning the default: line 684 of `catalog.py` subscripts
`self._version_map[pkg]` with the *unresolved* name, although `_package_map`
contains the alias and both the docstring of `get` and `reset` promise alias
resolution.  The same catalog under the canonical name resolves fine, and a
name that is in neither map returns the default. -/
theorem C2_lookup_get_alias_raises :
    lookup_get [("pkg", [("versions", [("1.0", "u")]), ("sources", [("pypi", "alias")])])]
      "alias" (some "1.0") none = .error "KeyError" ∧
    lookup_get [("pkg", [("versions", [("1.0", "u")]), ("sources", [("pypi", "alias")])])]
      "pkg" (some "1.0") none = .ok (some "u") ∧
    lookup_get [("pkg", [("versions", [("1.0", "u")]), ("sources", [("pypi", "alias")])])]
      "absent" (some "1.0") (some "dflt") = .ok (some "dflt") := by
  refine ⟨by rfl, by rfl, by rfl⟩

/-! ## C6: the `latest` fallback chain without parseable labels -/

/-- **C6** (corrected), counterexample: the claim says the fallback chain
uses the *existing* `latest` entry whenever it is present, but Python `or`
skips a falsy (empty-string) entry: for `{latest: "", stable: "S"}` — a
mapping with no PEP-440-parseable label — the expansion maps `latest` to
`"S"`, not to the existing `""`. -/
theorem C6_fallback_counterexample :
    string2version "latest" = none ∧ string2version "stable" = none ∧
    dget seq (prepare_versions [("latest", ""), ("stable", "S")]) "latest" = some "S" ∧
    dget seq (prepare_versions [("latest", ""), ("stable", "S")]) "latest" ≠ some "" := by
  refine ⟨by rfl, by rfl, by rfl, by decide⟩

/-- Keys accumulated by the `{_string2version(k): k}` comprehension are all
`None` when no label parses. -/
theorem prepare_version_map_keys_none (ls : List String)
    (acc : List (Option PyVersion × String))
    (h1 : ∀ l ∈ ls, string2version l = none)
    (h2 : ∀ x ∈ dkeys acc, x = none) :
    ∀ x ∈ dkeys (ls.foldl (fun acc k => dset oveq acc (string2version k) k) acc),
      x = none := by
  induction ls generalizing acc with
  | nil => simpa using h2
  | cons l ls ih =>
    simp only [List.foldl_cons]
    apply ih
    · intro x hx
      exact h1 x (List.mem_cons_of_mem _ hx)
    · intro x hx
      rw [h1 l (List.mem_cons_self _ _)] at hx
      rw [dkeys_dset] at hx
      by_cases hm : dmem oveq acc none
      · rw [if_pos hm] at hx
        exact h2 x hx
      · rw [if_neg hm] at hx
        rcases List.mem_append.mp hx with hx | hx
        · exact h2 x hx
        · simpa using hx

/-- **C6** (amended): for every *non-empty* version mapping in which no
label parses, the expansion maps `latest` (resp. `stable`) to the first
*non-empty* value of the chain existing `latest` → `stable` → `master` →
`main` → `""` (resp. `stable` → `latest` → `master` → `main` → `""`); in
particular the numpy scenario `{stable: S, devdocs: D}` expands `latest`
to `S`. -/
theorem C6_fallback_amended (V : VMap) (hne : V ≠ [])
    (hnp : ∀ l ∈ dkeys V, string2version l = none) :
    dget seq (prepare_versions V) "latest"
      = some (pyOr (dget seq V "latest") (pyOr (dget seq V "stable")
          (pyOr (dget seq V "master") (pyOr (dget seq V "main") "")))) ∧
    dget seq (prepare_versions V) "stable"
      = some (pyOr (dget seq V "stable") (pyOr (dget seq V "latest")
          (pyOr (dget seq V "master") (pyOr (dget seq V "main") "")))) ∧
    dget seq (prepare_versions
        [("stable", "https://numpy.org/doc/stable/"), ("devdocs", "https://numpy.org/devdocs/")])
      "latest" = some "https://numpy.org/doc/stable/" := by
  refine ⟨?_, ?_, by rfl⟩ <;>
  · unfold prepare_versions
    rw [if_neg hne]
    have hkeys := prepare_version_map_keys_none (dkeys V) [] (by simpa using hnp)
      (by intro x hx; simp [dkeys] at hx)
    have hempty : ((dkeys ((dkeys V).foldl
        (fun acc k => dset oveq acc (string2version k) k) [])).filterMap id) = [] := by
      rw [List.filterMap_eq_nil_iff]
      intro a ha
      exact hkeys a ha
    simp only [hempty, List.insertionSort, List.getLast?_nil]
    first
      | rw [dget_dset_self seq _ "stable" _ (seq_refl _)]
      | rw [dget_dset_ne_seq _ "stable" "latest" _ (by decide),
          dget_dset_self seq _ "latest" _ (seq_refl _)]

/-- Witness for C6 (amended) at the numpy scenario input. -/
theorem C6_fallback_amended_witness :
    dget seq (prepare_versions
        [("stable", "https://numpy.org/doc/stable/"), ("devdocs", "https://numpy.org/devdocs/")])
      "latest" = some "https://numpy.org/doc/stable/" :=
  (C6_fallback_amended
    [("stable", "https://numpy.org/doc/stable/"), ("devdocs", "https://numpy.org/devdocs/")]
    (by decide) (by decide)).2.2

/-! ## C4: `self_update` and unset source names -/

/-- **C4** (corrected), counterexample: for a catalog with one package `p`
whose `sources` dictionary is empty, `self_update` issues *no* per-source
update at all (the update log is empty and the catalog is unchanged), even
though every fetcher here would return data: `self_update` records
`sources.get(src)` = `None` — the explicit skip marker of
`update_versions` — for unset sources, so they are skipped rather than
attempted under the package's own name as the claim demands. -/
theorem C4_self_update_counterexample :
    self_update (fun _ => [("9.9", "found")]) (fun _ => [("9.9", "found")])
        (fun _ _ => [("9.9", "found")])
        [("p", [("versions", [("1.0", "u")]), ("sources", [])])]
      = .ok ([("p", [("versions", [("1.0", "u")]), ("sources", [])])], []) := by rfl

/-! ## C7: the user catalog wins without consulting anything else -/

/-- **C7** (confirmed): when the requested version resolves in the user
catalog's lookup view, the driver passes the resolved URL to the mapping
registration and finishes the package after that single user-catalog
lookup: no builtin-catalog lookup, no fetcher invocation, no diagnostics,
and an untouched user catalog — whatever the builtin catalog or the
fetchers would have answered.  When the package was not yet in the
intersphinx mapping, it is now mapped to the user catalog's URL. -/
theorem C7_user_catalog_wins (builtin : CatalogData) (fetchEnv fetchRtd : String → VMap)
    (fetchPypi : String → Int → VMap) (st : DriverState) (p : String)
    (v : Option String) (addr : String)
    (hhit : lookup_get st.user p v none = .ok (some addr)) :
    process_package builtin fetchEnv fetchRtd fetchPypi st p v
      = .ok { mapping := (add_index st.mapping p addr none).fst,
              user := st.user,
              diags := st.diags ++ (add_index st.mapping p addr none).snd,
              events := st.events ++ [FetchEvent.userLookup p v] } ∧
    (dmem seq st.mapping p = false →
      dget seq (add_index st.mapping p addr none).fst p = some (addr, none)) := by
  constructor
  · unfold process_package
    simp only [hhit, bind, Except.bind, pure, Except.pure]
  · intro hnm
    unfold add_index
    have hnone : dget seq st.mapping p = none := by
      cases hg : dget seq st.mapping p with
      | none => rfl
      | some w =>
        have : dmem seq st.mapping p = true :=
          (dmem_iff_dget seq st.mapping p).mpr (by simp [hg])
        rw [this] at hnm
        exact absurd hnm (by simp)
    rw [hnone]
    exact dget_dset_self seq st.mapping p (addr, none) (seq_refl p)

/-- Witness for C7: a user catalog resolving `("pkg", "1.0")` to `"u"`
while the builtin catalog holds a different URL for the same package. -/
theorem C7_user_catalog_wins_witness :
    process_package [("pkg", [("versions", [("1.0", "other")]), ("sources", [])])]
        (fun _ => [("2.0", "x")]) (fun _ => [("2.0", "x")]) (fun _ _ => [("2.0", "x")])
        ⟨[], [("pkg", [("versions", [("1.0", "u")]), ("sources", [])])], [], []⟩
        "pkg" (some "1.0")
      = .ok { mapping := (add_index [] "pkg" "u" none).fst,
              user := [("pkg", [("versions", [("1.0", "u")]), ("sources", [])])],
              diags := [] ++ (add_index [] "pkg" "u" none).snd,
              events := [] ++ [FetchEvent.userLookup "pkg" (some "1.0")] } ∧
    (dmem seq ([] : IMap) "pkg" = false →
      dget seq (add_index [] "pkg" "u" none).fst "pkg" = some ("u", none)) := by
  exact C7_user_catalog_wins _ _ _ _
    ⟨[], [("pkg", [("versions", [("1.0", "u")]), ("sources", [])])], [], []⟩
    "pkg" (some "1.0") "u" (by rfl)

/-! ## C10: per-source updates never drop known versions -/

/-- `_ensure_defaults` does not change the recorded versions of `pkg`. -/
theorem ensure_defaults_versions (data : CatalogData) (pkg : String) :
    catalog_versions (ensure_defaults data pkg) pkg = catalog_versions data pkg := by
  unfold ensure_defaults catalog_versions
  by_cases hm : dmem seq data pkg
  · rw [dget_dsetdefault_mem seq data pkg _ hm]
    unfold dgetD
    rw [dget_dmodify_self]
    cases hg : dget seq data pkg with
    | none =>
      rw [dmem_iff_dget, hg] at hm
      exact absurd hm (by simp)
    | some entry =>
      simp only [Option.map_some', Option.getD_some]
      rw [dget_dsetdefault_ne_seq _ "sources" "versions" _ (by decide)]
      by_cases hv : dmem seq entry "versions"
      · rw [dget_dsetdefault_mem seq entry _ _ hv]
      · have hv' : dmem seq entry "versions" = false := by
          revert hv
          cases dmem seq entry "versions" <;> simp
        rw [dget_dsetdefault_self seq entry _ _ (seq_refl _) hv']
        have hg2 : dget seq entry "versions" = none := by
          cases hg2 : dget seq entry "versions" with
          | none => rfl
          | some w =>
            have : dmem seq entry "versions" = true :=
              (dmem_iff_dget seq entry "versions").mpr (by simp [hg2])
            rw [this] at hv'
            exact absurd hv' (by simp)
        rw [hg2]
        rfl
  · have hm' : dmem seq data pkg = false := by
      revert hm
      cases dmem seq data pkg <;> simp
    have hset : dget seq (dsetdefault seq data pkg [("versions", []), ("sources", [])]) pkg
        = some [("versions", []), ("sources", [])] :=
      dget_dsetdefault_self seq data pkg _ (seq_refl _) hm'
    unfold dgetD
    rw [dget_dmodify_self, hset]
    have hnone : dget seq data pkg = none := by
      cases hg : dget seq data pkg with
      | none => rfl
      | some w =>
        have : dmem seq data pkg = true :=
          (dmem_iff_dget seq data pkg).mpr (by simp [hg])
        rw [this] at hm'
        exact absurd hm' (by simp)
    rw [hnone]
    rfl

/-- After `_ensure_defaults`, the package is present. -/
theorem ensure_defaults_mem (data : CatalogData) (pkg : String) :
    dmem seq (ensure_defaults data pkg) pkg = true := by
  unfold ensure_defaults
  rw [dmem_dmodify]
  unfold dsetdefault
  by_cases hm : dmem seq data pkg
  · simpa [hm]
  · simp only [hm, Bool.false_eq_true, if_false]
    simp [dmem, List.any_append, seq_refl]

/-- Updating with the keys of `V` filtered against `R` keeps every key of
`V` in the result (line 77 of `catalog.py`). -/
theorem dupdate_filter_mem (R V : VMap) (k : String) (h : dmem seq V k = true) :
    dmem seq (dupdate seq R (V.filter fun p => !(dmem seq R p.fst))) k = true := by
  rw [dmem_dupdate_seq]
  by_cases hr : dmem seq R k
  · simp [hr]
  · have hr' : dmem seq R k = false := by
      revert hr
      cases dmem seq R k <;> simp
    simp only [hr', Bool.false_or]
    unfold dmem at h
    simp only [List.any_eq_true] at h
    rcases h with ⟨p, hp, hpk⟩
    unfold dmem
    simp only [List.any_eq_true]
    refine ⟨p, List.mem_filter.mpr ⟨hp, ?_⟩, hpk⟩
    show (!(dmem seq R p.fst)) = true
    rw [seq_iff.mp hpk, hr']
    rfl

/-- `_reorder_versions` keeps every key of its input. -/
theorem reorder_versions_mem (V : VMap) (k : String) (h : dmem seq V k = true) :
    dmem seq (reorder_versions V) k = true := by
  unfold reorder_versions
  exact dupdate_filter_mem _ V k h

/-- Versions recorded after a successful merge (lines 349–354 and twins). -/
theorem apply_fetched_versions (data : CatalogData) (pkg : String)
    (fetched : VMap) (srcKey n : String) (hne : fetched ≠ []) :
    catalog_versions (apply_fetched (ensure_defaults data pkg) pkg fetched srcKey n).fst pkg
      = reorder_versions (dupdate seq (catalog_versions data pkg) fetched) := by
  unfold apply_fetched
  rw [if_neg (by simpa [List.isEmpty_iff] using hne)]
  have hm := ensure_defaults_mem data pkg
  rw [dmem_iff_dget] at hm
  cases hg : dget seq (ensure_defaults data pkg) pkg with
  | none => rw [hg] at hm; simp at hm
  | some entry =>
    unfold catalog_versions dgetD
    rw [dget_dmodify_self, hg]
    simp only [Option.map_some', Option.getD_some]
    rw [dget_dmodify_ne_seq _ "sources" "versions" _ (by decide)]
    rw [dget_dset_self seq _ _ _ (seq_refl _)]
    have hrw : dgetD seq entry "versions" [] = catalog_versions data pkg := by
      have hv := ensure_defaults_versions data pkg
      unfold catalog_versions at hv
      unfold dgetD at hv ⊢
      rw [hg] at hv
      simpa using hv
    unfold dgetD at hrw
    rw [hrw]
    simp only [Option.getD_some]
    rfl

/-- **C10** (confirmed): each of the three per-source update operations
keeps every previously recorded version label of the package, and a fetcher
returning an empty mapping (soft fail) makes the operation return `False`
and leave the catalog entry untouched apart from `_ensure_defaults`
installing the empty `versions`/`sources` sub-dictionaries. -/
theorem C10_update_never_drops_versions (data : CatalogData) (pkg : String)
    (name : Option String) (fE fR : String → VMap) (fP : String → Int → VMap)
    (me : Int) :
    (∀ l, dmem seq (catalog_versions data pkg) l = true →
      dmem seq (catalog_versions
        (update_versions_from_environment fE data pkg name).fst pkg) l = true ∧
      dmem seq (catalog_versions
        (update_versions_from_rtd fR data pkg name).fst pkg) l = true ∧
      dmem seq (catalog_versions
        (update_versions_from_pypi fP data pkg name me).fst pkg) l = true) ∧
    (fE (pyOr name pkg) = [] →
      update_versions_from_environment fE data pkg name = (ensure_defaults data pkg, false)) ∧
    (fR (pyOr name pkg) = [] →
      update_versions_from_rtd fR data pkg name = (ensure_defaults data pkg, false)) ∧
    (fP (pyOr name pkg) me = [] →
      update_versions_from_pypi fP data pkg name me = (ensure_defaults data pkg, false)) := by
  have hsoft : ∀ (fetched : VMap) (src nm : String), fetched = [] →
      apply_fetched (ensure_defaults data pkg) pkg fetched src nm
        = (ensure_defaults data pkg, false) := by
    intro fetched src nm hf
    subst hf
    rfl
  have hkeep : ∀ (fetched : VMap) (src nm : String) (l : String),
      dmem seq (catalog_versions data pkg) l = true →
      dmem seq (catalog_versions
        (apply_fetched (ensure_defaults data pkg) pkg fetched src nm).fst pkg) l = true := by
    intro fetched src nm l hl
    by_cases hf : fetched = []
    · rw [hsoft fetched src nm hf]
      simpa [ensure_defaults_versions] using hl
    · rw [apply_fetched_versions data pkg fetched src nm hf]
      apply reorder_versions_mem
      rw [dmem_dupdate_seq, hl]
      rfl
  refine ⟨?_, ?_, ?_, ?_⟩
  · intro l hl
    exact ⟨hkeep _ _ _ l hl, hkeep _ _ _ l hl, hkeep _ _ _ l hl⟩
  · intro hf
    unfold update_versions_from_environment
    exact hsoft _ _ _ hf
  · intro hf
    unfold update_versions_from_rtd
    exact hsoft _ _ _ hf
  · intro hf
    unfold update_versions_from_pypi
    exact hsoft _ _ _ hf

/-- Witness for C10 at a concrete catalog: label `1.0` survives a
successful rtd fetch and an empty environment fetch returns `False`
without touching the entry. -/
theorem C10_update_never_drops_versions_witness :
    (dmem seq (catalog_versions
        [("p", [("versions", [("1.0", "u")]), ("sources", [])])] "p") "1.0" = true) ∧
    dmem seq (catalog_versions
      (update_versions_from_rtd (fun _ => [("2.0", "w")])
        [("p", [("versions", [("1.0", "u")]), ("sources", [])])] "p" none).fst "p")
      "1.0" = true ∧
    update_versions_from_environment (fun _ => [])
        [("p", [("versions", [("1.0", "u")]), ("sources", [])])] "p" none
      = (ensure_defaults [("p", [("versions", [("1.0", "u")]), ("sources", [])])] "p",
         false) := by
  refine ⟨by rfl, ?_, ?_⟩
  · exact ((C10_update_never_drops_versions
      [("p", [("versions", [("1.0", "u")]), ("sources", [])])] "p" none
      (fun _ => []) (fun _ => [("2.0", "w")]) (fun _ _ => []) 0).1 "1.0" (by rfl)).2.1
  · exact (C10_update_never_drops_versions
      [("p", [("versions", [("1.0", "u")]), ("sources", [])])] "p" none
      (fun _ => []) (fun _ => [("2.0", "w")]) (fun _ _ => []) 0).2.1 rfl

/-- Effect of one step of the `self_update` names loop on the inner
dictionary of a source kind that is present in `ns`. -/
theorem names_step_get (ns : NamesDict) (p : String × PackageDictionaryType)
    (he : dmem seq ns "environment" = true) (hr : dmem seq ns "readthedocs" = true)
    (hp : dmem seq ns "pypi" = true)
    (src : String)
    (hsrc : src = "environment" ∨ src = "readthedocs" ∨ src = "pypi") :
    dgetD seq
      (["environment", "readthedocs", "pypi"].foldl
        (fun ns src => dmodify seq ns src fun inner =>
          dset seq inner p.fst (dget seq (dgetD seq p.snd "sources" []) src)) ns)
      src []
      = dset seq (dgetD seq ns src [])
          p.fst (dget seq (dgetD seq p.snd "sources" []) src) := by
  simp only [List.foldl_cons, List.foldl_nil]
  have hget : ∀ (d : NamesDict) (s : String), dmem seq d s = true →
      ∃ inner, dget seq d s = some inner := by
    intro d s hm
    rw [dmem_iff_dget] at hm
    cases hg : dget seq d s
    · rw [hg] at hm; exact absurd hm (by simp)
    · exact ⟨_, rfl⟩
  rcases hsrc with rfl | rfl | rfl
  · rcases hget ns "environment" he with ⟨inner, hg⟩
    unfold dgetD
    rw [dget_dmodify_ne_seq _ "pypi" "environment" _ (by decide),
      dget_dmodify_ne_seq _ "readthedocs" "environment" _ (by decide),
      dget_dmodify_self, hg]
    simp
  · rcases hget ns "readthedocs" hr with ⟨inner, hg⟩
    unfold dgetD
    rw [dget_dmodify_ne_seq _ "pypi" "readthedocs" _ (by decide),
      dget_dmodify_self]
    rw [dget_dmodify_ne_seq _ "environment" "readthedocs" _ (by decide), hg]
    simp
  · rcases hget ns "pypi" hp with ⟨inner, hg⟩
    unfold dgetD
    rw [dget_dmodify_self]
    rw [dget_dmodify_ne_seq _ "readthedocs" "pypi" _ (by decide),
      dget_dmodify_ne_seq _ "environment" "pypi" _ (by decide), hg]
    simp

/-- One step of the names loop keeps the three source keys present. -/
theorem names_step_mem (ns : NamesDict) (p : String × PackageDictionaryType)
    (s : String) :
    dmem seq
      (["environment", "readthedocs", "pypi"].foldl
        (fun ns src => dmodify seq ns src fun inner =>
          dset seq inner p.fst (dget seq (dgetD seq p.snd "sources" []) src)) ns)
      s = dmem seq ns s := by
  simp only [List.foldl_cons, List.foldl_nil]
  rw [dmem_dmodify, dmem_dmodify, dmem_dmodify]

/-- Soundness and completeness of the `names` dictionary built by
`self_update` (catalog.py lines 517–520): a stored name comes from the
recorded `sources` of some catalog entry for that package, and every
catalog package has a binding for each of the three source kinds. -/
theorem self_update_names_spec (data : CatalogData) (src pkg : String) :
    (∀ v, dget seq (dgetD seq (self_update_names data) src []) pkg = some v →
      ∃ q, q ∈ data ∧ q.fst = pkg ∧
        dget seq (dgetD seq q.snd "sources" []) src = v) ∧
    ((src = "environment" ∨ src = "readthedocs" ∨ src = "pypi") →
      pkg ∈ dkeys data →
      dmem seq (dgetD seq (self_update_names data) src []) pkg = true) := by
  unfold self_update_names
  suffices haux : ∀ (L : List (String × PackageDictionaryType)) (ns : NamesDict),
      (∀ q ∈ L, q ∈ data) →
      dmem seq ns "environment" = true → dmem seq ns "readthedocs" = true →
      dmem seq ns "pypi" = true →
      (∀ v, dget seq (dgetD seq ns src []) pkg = some v →
        ∃ q, q ∈ data ∧ q.fst = pkg ∧ dget seq (dgetD seq q.snd "sources" []) src = v) →
      (∀ v, dget seq (dgetD seq (L.foldl
          (fun ns p => ["environment", "readthedocs", "pypi"].foldl
            (fun ns src => dmodify seq ns src fun inner =>
              dset seq inner p.fst (dget seq (dgetD seq p.snd "sources" []) src)) ns)
          ns) src []) pkg = some v →
        ∃ q, q ∈ data ∧ q.fst = pkg ∧ dget seq (dgetD seq q.snd "sources" []) src = v) ∧
      ((src = "environment" ∨ src = "readthedocs" ∨ src = "pypi") →
        (pkg ∈ dkeys L ∨ dmem seq (dgetD seq ns src []) pkg = true) →
        dmem seq (dgetD seq (L.foldl
          (fun ns p => ["environment", "readthedocs", "pypi"].foldl
            (fun ns src => dmodify seq ns src fun inner =>
              dset seq inner p.fst (dget seq (dgetD seq p.snd "sources" []) src)) ns)
          ns) src []) pkg = true) by
    have h := haux data [("environment", []), ("readthedocs", []), ("pypi", [])]
      (fun q hq => hq) (by rfl) (by rfl) (by rfl)
      (by
        intro v hv
        have h0 : dgetD seq
            [("environment", ([] : List (String × Option String))),
             ("readthedocs", []), ("pypi", [])] src [] = [] := by
          unfold dgetD dget
          rcases h1 : List.find? (fun p => seq p.fst src)
              [("environment", ([] : List (String × Option String))),
               ("readthedocs", []), ("pypi", [])] with _ | q
          · rw [h1]
            rfl
          · have hq := List.mem_of_find?_eq_some h1
            have hsnd : q.snd = [] := by
              rcases List.mem_cons.mp hq with rfl | hq
              · rfl
              · rcases List.mem_cons.mp hq with rfl | hq
                · rfl
                · rcases List.mem_cons.mp hq with rfl | hq
                  · rfl
                  · simp at hq
            rw [h1]
            simp [hsnd]
        rw [h0] at hv
        simp [dget] at hv)
    exact ⟨h.1, fun h1 h2 => h.2 h1 (Or.inl h2)⟩
  intro L
  induction L with
  | nil =>
    intro ns _ he hr hp hsound
    refine ⟨hsound, fun _ hm => ?_⟩
    rcases hm with hm | hm
    · simp [dkeys] at hm
    · exact hm
  | cons p L ih =>
    intro ns hsub he hr hp hsound
    simp only [List.foldl_cons]
    have hstep := fun hsrc => names_step_get ns p he hr hp src hsrc
    have he' := names_step_mem ns p "environment"
    have hr' := names_step_mem ns p "readthedocs"
    have hp' := names_step_mem ns p "pypi"
    rw [he] at he'; rw [hr] at hr'; rw [hp] at hp'
    have hsub' : ∀ q ∈ L, q ∈ data := fun q hq => hsub q (List.mem_cons_of_mem p hq)
    constructor
    · -- soundness after the step
      refine (ih _ hsub' he' hr' hp' ?_).1
      intro v hv
      by_cases hsrc : src = "environment" ∨ src = "readthedocs" ∨ src = "pypi"
      · rw [hstep hsrc] at hv
        by_cases hpk : pkg = p.fst
        · subst hpk
          rw [dget_dset_self seq _ _ _ (seq_refl _)] at hv
          exact ⟨p, hsub p (List.mem_cons_self p L), rfl, Option.some.inj hv⟩
        · rw [dget_dset_ne_seq _ _ _ _ (fun hh => hpk hh)] at hv
          exact hsound v hv
      · -- src is none of the three: the step does not touch its entry
        have : dgetD seq (["environment", "readthedocs", "pypi"].foldl
            (fun ns src => dmodify seq ns src fun inner =>
              dset seq inner p.fst (dget seq (dgetD seq p.snd "sources" []) src)) ns)
            src [] = dgetD seq ns src [] := by
          push_neg at hsrc
          simp only [List.foldl_cons, List.foldl_nil]
          unfold dgetD
          rw [dget_dmodify_ne_seq _ _ _ _ hsrc.2.2,
            dget_dmodify_ne_seq _ _ _ _ hsrc.2.1,
            dget_dmodify_ne_seq _ _ _ _ hsrc.1]
        rw [this] at hv
        exact hsound v hv
    · -- completeness after the step
      intro hsrc hm
      refine (ih _ hsub' he' hr' hp' ?_).2 hsrc ?_
      · intro v hv
        rw [hstep hsrc] at hv
        by_cases hpk : pkg = p.fst
        · subst hpk
          rw [dget_dset_self seq _ _ _ (seq_refl _)] at hv
          exact ⟨p, hsub p (List.mem_cons_self p L), rfl, Option.some.inj hv⟩
        · rw [dget_dset_ne_seq _ _ _ _ (fun hh => hpk hh)] at hv
          exact hsound v hv
      · rcases hm with hm | hm
        · have hm' : pkg ∈ p.fst :: dkeys L := hm
          rcases List.mem_cons.mp hm' with hm' | hm'
          · right
            rw [hstep hsrc]
            subst hm'
            rw [dmem_iff_dget, dget_dset_self seq _ _ _ (seq_refl _)]
            rfl
          · left
            exact hm'
        · right
          rw [hstep hsrc, dmem_dset_seq, hm]
          rfl

/-- Log entries appended by the per-package inner loop of
`update_versions`: each carries an action from `order` together with the
name produced by the `names` lookup — the stored name when a binding
exists, the package's own name otherwise. -/
theorem update_versions_inner_log (fE fR : String → VMap) (fP : String → Int → VMap)
    (names : NamesDict) (pme : Int) (kg : Bool) (pkg : String) :
    ∀ (order : List String) (st : CatalogData × List (String × String)) res,
      update_versions_inner fE fR fP names pme kg pkg order st = .ok res →
      ∀ e ∈ res.snd, e ∈ st.snd ∨
        (e.fst ∈ order ∧
          (dget seq (dgetD seq names e.fst []) pkg = some (some e.snd) ∨
           (dmem seq (dgetD seq names e.fst []) pkg = false ∧ e.snd = pkg))) := by
  intro order
  induction order with
  | nil =>
    intro st res hok e he
    unfold update_versions_inner at hok
    injection hok with hok
    subst hok
    exact Or.inl he
  | cons action rest ih =>
    rintro ⟨data, log⟩ res hok e he
    have step_analysis : ∀ (r : CatalogData × Bool) (n : String),
        dgetD seq (dgetD seq names action []) pkg (some pkg) = some n →
        (if r.snd && !kg then Except.ok (r.fst, log ++ [(action, n)])
         else update_versions_inner fE fR fP names pme kg pkg rest
           (r.fst, log ++ [(action, n)])) = .ok res →
        e ∈ log ∨ (e.fst ∈ action :: rest ∧
          (dget seq (dgetD seq names e.fst []) pkg = some (some e.snd) ∨
           (dmem seq (dgetD seq names e.fst []) pkg = false ∧ e.snd = pkg))) := by
      intro r n hname hok2
      have hjust : e = (action, n) →
          dget seq (dgetD seq names action []) pkg = some (some n) ∨
            (dmem seq (dgetD seq names action []) pkg = false ∧ n = pkg) := by
        intro _
        have hname' : (dget seq (dgetD seq names action []) pkg).getD (some pkg)
            = some n := hname
        cases hg : dget seq (dgetD seq names action []) pkg with
        | some w =>
          rw [hg] at hname'
          simp only [Option.getD_some] at hname'
          exact Or.inl (by rw [hname'])
        | none =>
          rw [hg] at hname'
          simp only [Option.getD_none] at hname'
          refine Or.inr ⟨?_, (Option.some.inj hname').symm⟩
          have hisnone : (dget seq (dgetD seq names action []) pkg).isSome = false := by
            rw [hg]
            rfl
          cases hmem : dmem seq (dgetD seq names action []) pkg
          · rfl
          · have h2 := (dmem_iff_dget seq (dgetD seq names action []) pkg).mp hmem
            rw [h2] at hisnone
            exact absurd hisnone (by simp)
      have hmem_case : e ∈ log ++ [(action, n)] →
          e ∈ log ∨ (e.fst ∈ action :: rest ∧
            (dget seq (dgetD seq names e.fst []) pkg = some (some e.snd) ∨
             (dmem seq (dgetD seq names e.fst []) pkg = false ∧ e.snd = pkg))) := by
        intro hm
        rcases List.mem_append.mp hm with hm | hm
        · exact Or.inl hm
        · have he2 : e = (action, n) := by simpa using hm
          refine Or.inr ⟨?_, ?_⟩
          · rw [he2]
            exact List.mem_cons_self _ _
          · have := hjust he2
            rw [he2]
            simpa using this
      by_cases hc : (r.snd && !kg) = true
      · rw [if_pos hc] at hok2
        injection hok2 with hok2
        subst hok2
        exact hmem_case he
      · rw [if_neg hc] at hok2
        rcases ih _ res hok2 e he with hm | ⟨h1, h2⟩
        · exact hmem_case hm
        · exact Or.inr ⟨List.mem_cons_of_mem _ h1, h2⟩
    unfold update_versions_inner at hok
    by_cases ha : action == "environment"
    · rw [if_pos ha] at hok
      have ha' : action = "environment" := by simpa using ha
      cases hname : dgetD seq (dgetD seq names action []) pkg (some pkg) with
      | some n =>
        rw [hname] at hok
        exact step_analysis _ n hname hok
      | none =>
        rw [hname] at hok
        rcases ih _ res hok e he with hm | ⟨h1, h2⟩
        · exact Or.inl hm
        · exact Or.inr ⟨List.mem_cons_of_mem _ h1, h2⟩
    · rw [if_neg ha] at hok
      by_cases hb : action == "readthedocs"
      · rw [if_pos hb] at hok
        cases hname : dgetD seq (dgetD seq names action []) pkg (some pkg) with
        | some n =>
          rw [hname] at hok
          exact step_analysis _ n hname hok
        | none =>
          rw [hname] at hok
          rcases ih _ res hok e he with hm | ⟨h1, h2⟩
          · exact Or.inl hm
          · exact Or.inr ⟨List.mem_cons_of_mem _ h1, h2⟩
      · rw [if_neg hb] at hok
        by_cases hc2 : action == "pypi"
        · rw [if_pos hc2] at hok
          cases hname : dgetD seq (dgetD seq names action []) pkg (some pkg) with
          | some n =>
            rw [hname] at hok
            exact step_analysis _ n hname hok
          | none =>
            rw [hname] at hok
            rcases ih _ res hok e he with hm | ⟨h1, h2⟩
            · exact Or.inl hm
            · exact Or.inr ⟨List.mem_cons_of_mem _ h1, h2⟩
        · rw [if_neg hc2] at hok
          cases hok

/-- Log entries of a whole `update_versions` run: each is justified by the
`names` lookup of one of the processed packages. -/
theorem update_versions_log (fE fR : String → VMap) (fP : String → Int → VMap)
    (order : List String) (names : NamesDict) (pme : Int) (kg : Bool) :
    ∀ (pkgs : List String) (st : CatalogData × List (String × String)) res,
      pkgs.foldlM (fun st pkg =>
        update_versions_inner fE fR fP names pme kg pkg order st) st = .ok res →
      ∀ e ∈ res.snd, e ∈ st.snd ∨
        ∃ pkg ∈ pkgs, e.fst ∈ order ∧
          (dget seq (dgetD seq names e.fst []) pkg = some (some e.snd) ∨
           (dmem seq (dgetD seq names e.fst []) pkg = false ∧ e.snd = pkg)) := by
  intro pkgs
  induction pkgs with
  | nil =>
    intro st res hok e he
    simp only [List.foldlM_nil] at hok
    injection hok with hok
    subst hok
    exact Or.inl he
  | cons pkg pkgs ih =>
    intro st res hok e he
    simp only [List.foldlM_cons] at hok
    cases hstep : update_versions_inner fE fR fP names pme kg pkg order st with
    | error m =>
      rw [hstep] at hok
      cases hok
    | ok st2 =>
      rw [hstep] at hok
      simp only [bind, Except.bind] at hok
      rcases ih st2 res hok e he with hm | ⟨pkg2, h1, h2⟩
      · rcases update_versions_inner_log fE fR fP names pme kg pkg order st st2 hstep
            e hm with hm2 | hm2
        · exact Or.inl hm2
        · exact Or.inr ⟨pkg, List.mem_cons_self _ _, hm2⟩
      · exact Or.inr ⟨pkg2, List.mem_cons_of_mem _ h1, h2⟩

/-- **C4** (amended): every per-source update that `self_update` issues is
for a source kind with a *recorded* external name of some catalog entry for
that package, and passes exactly the recorded name; in particular a source
whose name was never recorded is never attempted — `self_update` stores
the explicit skip marker (`None`) for it rather than falling back to the
package's own name. -/
theorem C4_self_update_amended (data : CatalogData) (fE fR : String → VMap)
    (fP : String → Int → VMap) (res : CatalogData × List (String × String))
    (hok : self_update fE fR fP data = .ok res) :
    ∀ e ∈ res.snd,
      (e.fst = "environment" ∨ e.fst = "readthedocs" ∨ e.fst = "pypi") ∧
      ∃ q, q ∈ data ∧ q.fst ∈ dkeys data ∧
        dget seq (dgetD seq q.snd "sources" []) e.fst = some e.snd := by
  intro e he
  unfold self_update update_versions at hok
  rcases update_versions_log fE fR fP ["environment", "readthedocs", "pypi"]
      (self_update_names data) 0 false (dkeys data) (data, []) res hok e he with
    hm | ⟨pkg, hpkg, horder, hjust⟩
  · simp at hm
  · have horder' : e.fst = "environment" ∨ e.fst = "readthedocs" ∨ e.fst = "pypi" := by
      rcases List.mem_cons.mp horder with h | h
      · exact Or.inl h
      · rcases List.mem_cons.mp h with h | h
        · exact Or.inr (Or.inl h)
        · rcases List.mem_cons.mp h with h | h
          · exact Or.inr (Or.inr h)
          · simp at h
    refine ⟨horder', ?_⟩
    rcases hjust with hst | ⟨habs, _⟩
    · rcases (self_update_names_spec data e.fst pkg).1 (some e.snd) hst with
        ⟨q, hq, hqf, hqs⟩
      exact ⟨q, hq, by rw [hqf]; exact hpkg, hqs⟩
    · have := (self_update_names_spec data e.fst pkg).2 horder' hpkg
      rw [this] at habs
      exact absurd habs (by simp)

/-- Witness for C4 (amended): a catalog whose only recorded source is
`readthedocs`; `self_update` issues exactly that lookup, with the recorded
name. -/
theorem C4_self_update_amended_witness :
    ("readthedocs" = "environment" ∨ "readthedocs" = "readthedocs" ∨
      "readthedocs" = "pypi") ∧
    ∃ q, q ∈ [("p", [("versions", ([] : VMap)), ("sources", [("readthedocs", "rtdname")])])] ∧
      q.fst ∈ dkeys [("p", [("versions", ([] : VMap)), ("sources", [("readthedocs", "rtdname")])])] ∧
      dget seq (dgetD seq q.snd "sources" []) "readthedocs" = some "rtdname" := by
  exact C4_self_update_amended
    [("p", [("versions", ([] : VMap)), ("sources", [("readthedocs", "rtdname")])])]
    (fun _ => []) (fun _ => []) (fun _ _ => [])
    ([("p", [("versions", ([] : VMap)), ("sources", [("readthedocs", "rtdname")])])],
      [("readthedocs", "rtdname")]) (by rfl) ("readthedocs", "rtdname") (by decide)

/-! ## C9: `loads (dumps C)` recovers the catalog -/

theorem skipJWs_space (cs : List Char) : skipJWs (' ' :: cs) = skipJWs cs := rfl

theorem skipJWs_newline (cs : List Char) : skipJWs ('\n' :: cs) = skipJWs cs := rfl

theorem skipJWs_replicate (n : Nat) (cs : List Char) :
    skipJWs (List.replicate n ' ' ++ cs) = skipJWs cs := by
  induction n with
  | zero => rfl
  | succ n ih =>
    rw [List.replicate_succ, List.cons_append, skipJWs_space, ih]

theorem skipJWs_indent (level : Nat) (cs : List Char) :
    skipJWs (jIndent level ++ cs) = skipJWs cs :=
  skipJWs_replicate (2 * level) cs

theorem skipJWs_not_ws (c : Char) (cs : List Char)
    (h : (c = ' ' || c = '\t' || c = '\n' || c = '\r') = false) :
    skipJWs (c :: cs) = c :: cs := by
  unfold skipJWs
  rw [h]
  simp

/-- `parseJValue` only looks at its input through `skipJWs`. -/
theorem parseJValue_congr (fuel : Nat) (cs1 cs2 : List Char)
    (h : skipJWs cs1 = skipJWs cs2) :
    parseJValue fuel cs1 = parseJValue fuel cs2 := by
  cases fuel with
  | zero => rfl
  | succ fuel =>
    unfold parseJValue
    rw [h]

/-- `parseJMembers` only looks at its input through `skipJWs`. -/
theorem parseJMembers_congr (fuel : Nat) (cs1 cs2 : List Char)
    (h : skipJWs cs1 = skipJWs cs2) :
    parseJMembers fuel cs1 = parseJMembers fuel cs2 := by
  cases fuel with
  | zero => rfl
  | succ fuel =>
    unfold parseJMembers
    rw [h]

theorem hexVal_hexDigitChar (d : Nat) (h : d < 16) :
    hexVal (hexDigitChar d) = some d := by
  interval_cases d <;> rfl

theorem hex4_cons (n : Nat) :
    hex4 n = hexDigitChar (n / 4096 % 16) :: hexDigitChar (n / 256 % 16) ::
      hexDigitChar (n / 16 % 16) :: hexDigitChar (n % 16) :: [] := rfl

/-- The character code reassembled from the four rendered hex digits. -/
theorem hex4_value (n : Nat) (h : n < 0x10000) :
    ((n / 4096 % 16 * 16 + n / 256 % 16) * 16 + n / 16 % 16) * 16 + n % 16 = n := by
  omega

/-- The scalar values a `Char` can hold (no surrogate halves). -/
theorem char_toNat_valid (c : Char) :
    c.toNat < 0xd800 ∨ (0xdfff < c.toNat ∧ c.toNat < 0x110000) := c.valid

/-- Scanner step for a literal (unescaped) character. -/
theorem parseJStringBodyF_plain (fuel : Nat) (c : Char) (rest : List Char)
    (h1 : c ≠ '"') (h2 : c ≠ '\\') (h3 : 0x20 ≤ c.toNat) :
    parseJStringBodyF (fuel + 1) (c :: rest)
      = (parseJStringBodyF fuel rest).map fun r => (c :: r.fst, r.snd) := by
  simp only [parseJStringBodyF]
  rw [if_neg h1, if_neg h2, if_neg (by omega)]

/-- `readHex4` reads back exactly the digits `hex4` printed. -/
theorem readHex4_hex4 (n : Nat) (rest : List Char) (h : n < 0x10000) :
    readHex4 (hex4 n ++ rest) = some (n, rest) := by
  rw [hex4_cons]
  simp [readHex4,
    hexVal_hexDigitChar (n / 4096 % 16) (by omega),
    hexVal_hexDigitChar (n / 256 % 16) (by omega),
    hexVal_hexDigitChar (n / 16 % 16) (by omega),
    hexVal_hexDigitChar (n % 16) (by omega),
    hex4_value n h]

/-- `parseUEscape` on a non-surrogate code unit. -/
theorem parseUEscape_plain (n : Nat) (rest : List Char)
    (hlt : n < 0x10000) (hlo : ¬(0xdc00 ≤ n ∧ n ≤ 0xdfff))
    (hhi : ¬(0xd800 ≤ n ∧ n ≤ 0xdbff)) :
    parseUEscape (hex4 n ++ rest) = some (n, rest) := by
  simp [parseUEscape, readHex4_hex4 n rest hlt, hlo, hhi]

/-- `parseUEscape` on the surrogate pair `ensure_ascii` prints for an
astral code point. -/
theorem parseUEscape_surrogate (n : Nat) (rest : List Char)
    (h1 : 0x10000 ≤ n) (h2 : n < 0x110000) :
    parseUEscape
      (hex4 (0xd800 + (n - 0x10000) / 0x400) ++
        ('\\' :: 'u' :: (hex4 (0xdc00 + (n - 0x10000) % 0x400) ++ rest)))
      = some (n, rest) := by
  have c1 : ¬(0xdc00 ≤ 0xd800 + (n - 0x10000) / 0x400 ∧
      0xd800 + (n - 0x10000) / 0x400 ≤ 0xdfff) := by omega
  have c2 : 0xd800 ≤ 0xd800 + (n - 0x10000) / 0x400 ∧
      0xd800 + (n - 0x10000) / 0x400 ≤ 0xdbff := by omega
  have c3 : 0xdc00 ≤ 0xdc00 + (n - 0x10000) % 0x400 ∧
      0xdc00 + (n - 0x10000) % 0x400 ≤ 0xdfff := by omega
  have harith : 0x10000 + (0xd800 + (n - 0x10000) / 0x400 - 0xd800) * 0x400 +
      (0xdc00 + (n - 0x10000) % 0x400 - 0xdc00) = n := by omega
  rw [parseUEscape, readHex4_hex4 (0xd800 + (n - 0x10000) / 0x400) _ (by omega)]
  simp only [c1, c2, if_neg c1, if_pos c2, and_self, if_true,
    readHex4_hex4 (0xdc00 + (n - 0x10000) % 0x400) rest (by omega), if_pos c3]
  exact congrArg (fun k => some (k, rest)) harith

/-- Scanner step for a `\u` escape, given the decoded code point. -/
theorem parseJStringBodyF_escU (fuel : Nat) (rest2 : List Char) (n : Nat)
    (rest3 : List Char) (h : parseUEscape rest2 = some (n, rest3)) :
    parseJStringBodyF (fuel + 1) ('\\' :: 'u' :: rest2)
      = (parseJStringBodyF fuel rest3).map fun r => (Char.ofNat n :: r.fst, r.snd) := by
  simp [parseJStringBodyF, h]

/-- Scanner step for a `\uXXXX` escape outside the surrogate ranges. -/
theorem parseJStringBodyF_u (fuel : Nat) (n : Nat) (rest : List Char)
    (hlt : n < 0x10000) (hlo : ¬(0xdc00 ≤ n ∧ n ≤ 0xdfff))
    (hhi : ¬(0xd800 ≤ n ∧ n ≤ 0xdbff)) :
    parseJStringBodyF (fuel + 1) (('\\' :: 'u' :: hex4 n) ++ rest)
      = (parseJStringBodyF fuel rest).map fun r => (Char.ofNat n :: r.fst, r.snd) := by
  have hsplit : ('\\' :: 'u' :: hex4 n) ++ rest = '\\' :: 'u' :: (hex4 n ++ rest) := by
    simp
  rw [hsplit, parseJStringBodyF_escU fuel (hex4 n ++ rest) n rest
    (parseUEscape_plain n rest hlt hlo hhi)]

/-- Scanner step for a surrogate-pair escape. -/
theorem parseJStringBodyF_surrogate (fuel : Nat) (n : Nat) (rest : List Char)
    (h1 : 0x10000 ≤ n) (h2 : n < 0x110000) :
    parseJStringBodyF (fuel + 1)
      (('\\' :: 'u' :: hex4 (0xd800 + (n - 0x10000) / 0x400)) ++
        (('\\' :: 'u' :: hex4 (0xdc00 + (n - 0x10000) % 0x400)) ++ rest))
      = (parseJStringBodyF fuel rest).map fun r => (Char.ofNat n :: r.fst, r.snd) := by
  have hsplit : (('\\' :: 'u' :: hex4 (0xd800 + (n - 0x10000) / 0x400)) ++
        (('\\' :: 'u' :: hex4 (0xdc00 + (n - 0x10000) % 0x400)) ++ rest))
      = '\\' :: 'u' :: (hex4 (0xd800 + (n - 0x10000) / 0x400) ++
          ('\\' :: 'u' :: (hex4 (0xdc00 + (n - 0x10000) % 0x400) ++ rest))) := by
    simp
  rw [hsplit, parseJStringBodyF_escU fuel _ n rest
    (parseUEscape_surrogate n rest h1 h2)]

/-- Scanner step across the escape `json.dumps` prints for one character:
decoding is a left inverse of `escapeChar`. -/
theorem parseJStringBodyF_escapeChar (fuel : Nat) (c : Char) (rest : List Char) :
    parseJStringBodyF (fuel + 1) (escapeChar c ++ rest)
      = (parseJStringBodyF fuel rest).map fun r => (c :: r.fst, r.snd) := by
  by_cases hq : c = '"'
  · subst hq; simp [escapeChar, parseJStringBodyF]
  by_cases hb : c = '\\'
  · subst hb; simp [escapeChar, parseJStringBodyF]
  by_cases h8 : c.toNat = 8
  · have hc : Char.ofNat 8 = c := by rw [← h8]; exact Char.ofNat_toNat c
    simp [escapeChar, hq, hb, h8, parseJStringBodyF]
    rw [hc]
  by_cases h9 : c.toNat = 9
  · have hc : Char.ofNat 9 = c := by rw [← h9]; exact Char.ofNat_toNat c
    simp [escapeChar, hq, hb, h8, h9, parseJStringBodyF, ← hc]
  by_cases h10 : c.toNat = 10
  · have hc : Char.ofNat 10 = c := by rw [← h10]; exact Char.ofNat_toNat c
    simp [escapeChar, hq, hb, h8, h9, h10, parseJStringBodyF, ← hc]
  by_cases h12 : c.toNat = 12
  · have hc : Char.ofNat 12 = c := by rw [← h12]; exact Char.ofNat_toNat c
    simp [escapeChar, hq, hb, h8, h9, h10, h12, parseJStringBodyF]
    rw [hc]
  by_cases h13 : c.toNat = 13
  · have hc : Char.ofNat 13 = c := by rw [← h13]; exact Char.ofNat_toNat c
    simp [escapeChar, hq, hb, h8, h9, h10, h12, h13, parseJStringBodyF]
    rw [hc]
  by_cases hascii : 0x20 ≤ c.toNat ∧ c.toNat ≤ 0x7e
  · have he : escapeChar c ++ rest = c :: rest := by
      simp [escapeChar, hq, hb, h8, h9, h10, h12, h13, hascii.1, hascii.2]
    rw [he]
    exact parseJStringBodyF_plain fuel c rest hq hb hascii.1
  by_cases hbmp : c.toNat < 0x10000
  · have hval := char_toNat_valid c
    have hlo : ¬(0xdc00 ≤ c.toNat ∧ c.toNat ≤ 0xdfff) := by omega
    have hhi : ¬(0xd800 ≤ c.toNat ∧ c.toNat ≤ 0xdbff) := by omega
    have he : escapeChar c ++ rest = ('\\' :: 'u' :: hex4 c.toNat) ++ rest := by
      simp [escapeChar, hq, hb, h8, h9, h10, h12, h13, hbmp, hascii]
    rw [he, parseJStringBodyF_u fuel c.toNat rest hbmp hlo hhi, Char.ofNat_toNat]
  · have hval := char_toNat_valid c
    have h1 : 0x10000 ≤ c.toNat := by omega
    have h2 : c.toNat < 0x110000 := by omega
    have he : escapeChar c ++ rest
        = ('\\' :: 'u' :: hex4 (0xd800 + (c.toNat - 0x10000) / 0x400)) ++
            (('\\' :: 'u' :: hex4 (0xdc00 + (c.toNat - 0x10000) % 0x400)) ++ rest) := by
      simp [escapeChar, hq, hb, h8, h9, h10, h12, h13, hbmp, hascii]
    rw [he, parseJStringBodyF_surrogate fuel c.toNat rest h1 h2, Char.ofNat_toNat]

/-- The string scanner undoes `escAll` up to the closing quote. -/
theorem parseJStringBodyF_escAll (l : List Char) : ∀ (fuel : Nat) (tail : List Char),
    l.length < fuel →
    parseJStringBodyF fuel (escAll l ++ '"' :: tail) = some (l, tail) := by
  induction l with
  | nil =>
    intro fuel tail hf
    match fuel, hf with
    | f + 1, _ => simp [escAll, parseJStringBodyF]
  | cons c l ih =>
    intro fuel tail hf
    match fuel, hf with
    | f + 1, hf =>
      have he : escAll (c :: l) ++ '"' :: tail
          = escapeChar c ++ (escAll l ++ '"' :: tail) := by
        simp [escAll]
      rw [he, parseJStringBodyF_escapeChar f c (escAll l ++ '"' :: tail),
        ih f tail (by simpa using Nat.lt_of_succ_lt_succ hf)]
      rfl

/-- Every escape is at least one character long. -/
theorem escapeChar_length (c : Char) : 1 ≤ (escapeChar c).length := by
  unfold escapeChar
  split_ifs <;> simp [hex4]

/-- Escaping never shortens a string. -/
theorem escAll_length (l : List Char) : l.length ≤ (escAll l).length := by
  induction l with
  | nil => simp [escAll]
  | cons c l ih =>
    have hc := escapeChar_length c
    simp only [escAll, List.foldr_cons, List.length_append, List.length_cons]
    have hl : l.length ≤ (escAll l).length := ih
    simp only [escAll] at hl
    omega

/-- The string scanner undoes `escAll` (with the fuel `parseJStringBody`
supplies). -/
theorem parseJStringBody_escAll (l : List Char) (tail : List Char) :
    parseJStringBody (escAll l ++ '"' :: tail) = some (l, tail) := by
  unfold parseJStringBody
  apply parseJStringBodyF_escAll
  have := escAll_length l
  simp
  omega

/-- Whitespace skipping is idempotent. -/
theorem skipJWs_idem (cs : List Char) : skipJWs (skipJWs cs) = skipJWs cs := by
  induction cs with
  | nil => rfl
  | cons c cs ih =>
    by_cases h : (c = ' ' || c = '\t' || c = '\n' || c = '\r') = true
    · have hstep : skipJWs (c :: cs) = skipJWs cs := by
        conv_lhs => unfold skipJWs
        rw [if_pos h]
      rw [hstep, ih]
    · have h' : (c = ' ' || c = '\t' || c = '\n' || c = '\r') = false :=
        Bool.eq_false_iff.mpr h
      rw [skipJWs_not_ws c cs h', skipJWs_not_ws c cs h']

/-- Setting a fresh key appends the pair. -/
theorem dset_notmem (acc : List (String × PyJson)) (k : String) (v : PyJson)
    (h : dmem seq acc k = false) :
    dset seq acc k v = acc ++ [(k, v)] := by
  unfold dset
  rw [h]
  rfl

/-- Folding `dset` over pairwise-fresh pairs appends them all in order. -/
theorem objFromPairs_fold (ms : List (String × PyJson)) :
    ∀ acc : List (String × PyJson),
    (∀ p ∈ ms, dmem seq acc p.fst = false) →
    jsonWFb.membersWFb ms = true →
    ms.foldl (fun d p => dset seq d p.fst p.snd) acc = acc ++ ms := by
  induction ms with
  | nil => intro acc _ _; simp
  | cons m ms ih =>
    intro acc hfresh hwf
    obtain ⟨k, v⟩ := m
    simp only [jsonWFb.membersWFb, Bool.and_eq_true, Bool.not_eq_true'] at hwf
    obtain ⟨⟨hnodup, _⟩, hwf'⟩ := hwf
    simp only [List.foldl_cons]
    rw [dset_notmem acc k v (hfresh (k, v) (by simp))]
    rw [ih (acc ++ [(k, v)]) ?_ hwf']
    · simp
    · intro p hp
      have h1 : dmem seq acc p.fst = false := hfresh p (by simp [hp])
      have h2 : ¬(p.fst == k) = true := by
        intro hek
        have : (ms.any fun q => q.fst == k) = true := by
          exact List.any_eq_true.mpr ⟨p, hp, hek⟩
        rw [hnodup] at this
        exact Bool.false_ne_true this
      unfold dmem at h1 ⊢
      simp only [List.any_append, List.any_cons, List.any_nil, Bool.or_eq_false_iff] at h1 ⊢
      refine ⟨h1, ?_, trivial⟩
      unfold seq
      refine Bool.eq_false_iff.mpr fun hkp => h2 ?_
      rw [beq_iff_eq] at hkp ⊢
      exact hkp.symm

/-- `dict(pairs)` is the identity on a duplicate-free pair list. -/
theorem objFromPairs_eq (ms : List (String × PyJson))
    (hwf : jsonWFb.membersWFb ms = true) :
    objFromPairs ms = ms := by
  unfold objFromPairs
  rw [objFromPairs_fold ms [] (fun p _ => rfl) hwf]
  rfl

/-- Every JSON value has positive size. -/
theorem jsize_pos (j : PyJson) : 1 ≤ jsize j := by
  cases j <;> simp [jsize]

/-- The rendering after the first member starts, once whitespace is
skipped, with the opening quote of its key. -/
theorem skipJWs_quote (cs : List Char) : skipJWs ('"' :: cs) = '"' :: cs :=
  skipJWs_not_ws _ _ (by decide)

/-- The rendering after the first member starts, once whitespace is
skipped, with the opening quote of its key. -/
theorem skipJWs_renderMembers_head (level : Nat) (k : String) (v : PyJson)
    (ms : List (String × PyJson)) (tail : List Char) :
    ∃ X, skipJWs (renderMembers level ((k, v) :: ms) ++ tail) = '"' :: X := by
  cases ms with
  | nil =>
    simp only [renderMembers, renderJString, List.append_assoc, List.cons_append,
      skipJWs_indent, skipJWs_quote]
    exact ⟨_, rfl⟩
  | cons m ms =>
    simp only [renderMembers, renderJString, List.append_assoc, List.cons_append,
      skipJWs_indent, skipJWs_quote]
    exact ⟨_, rfl⟩

/-- The rendering of a value is at least as long as its size (so the fuel
`json_loads` computes from the input length is always sufficient). -/
theorem render_length_ge (fuel : Nat) :
    (∀ j level, jsize j ≤ fuel → jsize j ≤ (renderJson level j).length) ∧
    (∀ ms level, jsize.msize ms ≤ fuel →
      jsize.msize ms ≤ (renderMembers level ms).length) := by
  induction fuel with
  | zero =>
    refine ⟨fun j level hsz => absurd hsz (by have := jsize_pos j; omega),
      fun ms level hsz => ?_⟩
    cases ms with
    | nil => simp [jsize.msize, renderMembers]
    | cons m ms =>
      obtain ⟨k, v⟩ := m
      have := jsize_pos v
      simp [jsize.msize] at hsz
  | succ f ih =>
    constructor
    · intro j level hsz
      match j with
      | .str s => simp [jsize, renderJson, renderJString]
      | .obj [] => simp [jsize, jsize.msize, renderJson]
      | .obj (m :: ms) =>
        have hmem : jsize.msize (m :: ms) ≤ (renderMembers level (m :: ms)).length := by
          apply ih.2
          simp [jsize] at hsz
          omega
        simp [jsize, renderJson]
        omega
    · intro ms level hsz
      match ms with
      | [] => simp [jsize.msize, renderMembers]
      | [(k, v)] =>
        have hv : jsize v ≤ (renderJson (level + 1) v).length := by
          apply ih.1
          simp [jsize.msize] at hsz
          omega
        simp [jsize.msize, renderMembers, renderJString]
        omega
      | (k, v) :: m2 :: ms' =>
        have hv : jsize v ≤ (renderJson (level + 1) v).length := by
          apply ih.1
          simp [jsize.msize] at hsz
          omega
        have hms : jsize.msize (m2 :: ms') ≤ (renderMembers level (m2 :: ms')).length := by
          apply ih.2
          have := jsize_pos v
          simp [jsize.msize] at hsz ⊢
          omega
        obtain ⟨k2, v2⟩ := m2
        simp [jsize.msize] at hms
        simp [jsize.msize, renderMembers, renderJString]
        omega

/-- The scanner of `json.loads` inverts `json.dumps(..., indent=2)` member
by member, for well-formed (duplicate-free) values, with any fuel at least
the value's size. -/
theorem render_parse_roundtrip (fuel : Nat) :
    (∀ j level rest, jsize j ≤ fuel → jsonWFb j = true →
      parseJValue fuel (renderJson level j ++ rest) = some (j, rest)) ∧
    (∀ ms level rest, jsize.msize ms ≤ fuel → jsonWFb.membersWFb ms = true →
      ms ≠ [] →
      parseJMembers fuel (renderMembers level ms ++ '\n' :: (jIndent level ++ '}' :: rest))
        = some (ms, rest)) := by
  induction fuel with
  | zero =>
    refine ⟨fun j level rest hsz _ => absurd hsz (by have := jsize_pos j; omega),
      fun ms level rest hsz _ hne => ?_⟩
    cases ms with
    | nil => exact absurd rfl hne
    | cons m ms =>
      obtain ⟨k, v⟩ := m
      have := jsize_pos v
      simp [jsize.msize] at hsz
  | succ f ih =>
    constructor
    · intro j level rest hsz hwf
      match j with
      | .str s =>
        have hx : renderJson level (.str s) ++ rest
            = '"' :: (escAll s.data ++ '"' :: rest) := by
          simp [renderJson, renderJString]
        rw [hx]
        unfold parseJValue
        rw [skipJWs_quote]
        simp [parseJStringBody_escAll]
      | .obj [] =>
        have hx : renderJson level (.obj []) ++ rest = '{' :: '}' :: rest := by
          simp [renderJson]
        have h1 : skipJWs ('{' :: '}' :: rest) = '{' :: '}' :: rest :=
          skipJWs_not_ws _ _ (by decide)
        have h2 : skipJWs ('}' :: rest) = '}' :: rest :=
          skipJWs_not_ws _ _ (by decide)
        rw [hx]
        unfold parseJValue
        rw [h1]
        simp [h2]
      | .obj (m :: ms) =>
        obtain ⟨k, v⟩ := m
        have hx : renderJson level (.obj ((k, v) :: ms)) ++ rest
            = '{' :: '\n' :: (renderMembers level ((k, v) :: ms) ++
                '\n' :: (jIndent level ++ '}' :: rest)) := by
          simp [renderJson]
        obtain ⟨X, hX⟩ := skipJWs_renderMembers_head level k v ms
          ('\n' :: (jIndent level ++ '}' :: rest))
        have h1 : skipJWs ('{' :: '\n' :: (renderMembers level ((k, v) :: ms) ++
              '\n' :: (jIndent level ++ '}' :: rest)))
            = '{' :: '\n' :: (renderMembers level ((k, v) :: ms) ++
              '\n' :: (jIndent level ++ '}' :: rest)) :=
          skipJWs_not_ws _ _ (by decide)
        have h2 : skipJWs ('\n' :: (renderMembers level ((k, v) :: ms) ++
              '\n' :: (jIndent level ++ '}' :: rest))) = '"' :: X := by
          rw [skipJWs_newline, hX]
        have hwf' : jsonWFb.membersWFb ((k, v) :: ms) = true := by
          simpa [jsonWFb] using hwf
        have hsz' : jsize.msize ((k, v) :: ms) ≤ f := by
          simp [jsize] at hsz
          omega
        have hcongr : parseJMembers f ('"' :: X)
            = parseJMembers f (renderMembers level ((k, v) :: ms) ++
                '\n' :: (jIndent level ++ '}' :: rest)) := by
          apply parseJMembers_congr
          rw [← hX, skipJWs_idem]
        rw [hx]
        unfold parseJValue
        rw [h1]
        simp only [h2]
        simp [hcongr, ih.2 ((k, v) :: ms) level rest hsz' hwf' (by simp),
          objFromPairs_eq _ hwf']
    · intro ms level rest hsz hwf hne
      match ms with
      | [] => exact absurd rfl hne
      | [(k, v)] =>
        simp only [jsonWFb.membersWFb, Bool.and_eq_true] at hwf
        have hwfv : jsonWFb v = true := hwf.1.2
        have hszv : jsize v ≤ f := by
          simp [jsize.msize] at hsz
          omega
        have hx : renderMembers level [(k, v)] ++ '\n' :: (jIndent level ++ '}' :: rest)
            = jIndent (level + 1) ++ ('"' :: (escAll k.data ++ '"' ::
                (':' :: ' ' :: (renderJson (level + 1) v ++
                  '\n' :: (jIndent level ++ '}' :: rest))))) := by
          simp [renderMembers, renderJString]
        have e1 : skipJWs (':' :: ' ' :: (renderJson (level + 1) v ++
              '\n' :: (jIndent level ++ '}' :: rest)))
            = ':' :: ' ' :: (renderJson (level + 1) v ++
              '\n' :: (jIndent level ++ '}' :: rest)) :=
          skipJWs_not_ws _ _ (by decide)
        have e2 : parseJValue f (' ' :: (renderJson (level + 1) v ++
              '\n' :: (jIndent level ++ '}' :: rest)))
            = some (v, '\n' :: (jIndent level ++ '}' :: rest)) := by
          rw [parseJValue_congr f _ (renderJson (level + 1) v ++
            '\n' :: (jIndent level ++ '}' :: rest)) (skipJWs_space _)]
          exact ih.1 v (level + 1) _ hszv hwfv
        have e3 : skipJWs ('\n' :: (jIndent level ++ '}' :: rest)) = '}' :: rest := by
          rw [skipJWs_newline, skipJWs_indent, skipJWs_not_ws _ _ (by decide)]
        rw [hx]
        unfold parseJMembers
        rw [skipJWs_indent, skipJWs_quote]
        simp [parseJStringBody_escAll, e1, e2, e3]
      | (k, v) :: m2 :: ms' =>
        simp only [jsonWFb.membersWFb, Bool.and_eq_true] at hwf
        have hwfv : jsonWFb v = true := hwf.1.2
        have hwfms : jsonWFb.membersWFb (m2 :: ms') = true := by
          have := hwf.2
          simp [jsonWFb.membersWFb] at this ⊢
          exact this
        have hszv : jsize v ≤ f := by
          simp [jsize.msize] at hsz
          omega
        have hszms : jsize.msize (m2 :: ms') ≤ f := by
          have := jsize_pos v
          simp [jsize.msize] at hsz ⊢
          omega
        have hx : renderMembers level ((k, v) :: m2 :: ms') ++
              '\n' :: (jIndent level ++ '}' :: rest)
            = jIndent (level + 1) ++ ('"' :: (escAll k.data ++ '"' ::
                (':' :: ' ' :: (renderJson (level + 1) v ++
                  ',' :: '\n' :: (renderMembers level (m2 :: ms') ++
                    '\n' :: (jIndent level ++ '}' :: rest)))))) := by
          simp [renderMembers, renderJString]
        have e1 : skipJWs (':' :: ' ' :: (renderJson (level + 1) v ++
              ',' :: '\n' :: (renderMembers level (m2 :: ms') ++
                '\n' :: (jIndent level ++ '}' :: rest))))
            = ':' :: ' ' :: (renderJson (level + 1) v ++
              ',' :: '\n' :: (renderMembers level (m2 :: ms') ++
                '\n' :: (jIndent level ++ '}' :: rest))) :=
          skipJWs_not_ws _ _ (by decide)
        have e2 : parseJValue f (' ' :: (renderJson (level + 1) v ++
              ',' :: '\n' :: (renderMembers level (m2 :: ms') ++
                '\n' :: (jIndent level ++ '}' :: rest))))
            = some (v, ',' :: '\n' :: (renderMembers level (m2 :: ms') ++
                '\n' :: (jIndent level ++ '}' :: rest))) := by
          rw [parseJValue_congr f _ (renderJson (level + 1) v ++
            ',' :: '\n' :: (renderMembers level (m2 :: ms') ++
              '\n' :: (jIndent level ++ '}' :: rest))) (skipJWs_space _)]
          exact ih.1 v (level + 1) _ hszv hwfv
        have e3 : skipJWs (',' :: '\n' :: (renderMembers level (m2 :: ms') ++
              '\n' :: (jIndent level ++ '}' :: rest)))
            = ',' :: '\n' :: (renderMembers level (m2 :: ms') ++
              '\n' :: (jIndent level ++ '}' :: rest)) :=
          skipJWs_not_ws _ _ (by decide)
        have e4 : parseJMembers f ('\n' :: (renderMembers level (m2 :: ms') ++
              '\n' :: (jIndent level ++ '}' :: rest)))
            = some (m2 :: ms', rest) := by
          rw [parseJMembers_congr f _ (renderMembers level (m2 :: ms') ++
            '\n' :: (jIndent level ++ '}' :: rest)) (skipJWs_newline _)]
          exact ih.2 (m2 :: ms') level rest hszms hwfms (by simp)
        rw [hx]
        unfold parseJMembers
        rw [skipJWs_indent, skipJWs_quote]
        simp [parseJStringBody_escAll, e1, e2, e3, e4]

/-- C9: for every catalog whose `_data` mapping has duplicate-free keys at
every level (true of every real Python dict), `Catalog.loads` applied to the
string `Catalog.dumps` produces recovers exactly the original package-name →
{versions, sources} mapping, structurally: `json.loads` of the
`json.dumps(self._data, indent=2)` output is the original data viewed as a
JSON value. -/
theorem C9_dumps_loads_roundtrip (data : CatalogData)
    (hwf : jsonWFb (catalogJson data) = true) :
    json_loads (catalog_dumps data) = some (catalogJson data) := by
  unfold json_loads catalog_dumps
  have hlen : jsize (catalogJson data) ≤ (renderJson 0 (catalogJson data)).length + 1 := by
    have := (render_length_ge (jsize (catalogJson data))).1 (catalogJson data) 0 le_rfl
    omega
  have h := (render_parse_roundtrip ((renderJson 0 (catalogJson data)).length + 1)).1
    (catalogJson data) 0 [] hlen hwf
  rw [List.append_nil] at h
  simp [h, skipJWs]

/-- C1 counterexample: in `{"latest": "L", "1.0": "A"}` the only
PEP-440-parseable label is `1.0`, whose URL is `A`; the claim says the
expansion maps `latest` to `A`, but `_prepare_versions` keeps the existing
`latest` entry `L` (`versions.get("latest", ...)` prefers it). -/
theorem C1_latest_counterexample :
    (string2version "latest").isSome = false ∧
    (string2version "1.0").isSome = true ∧
    dget seq (prepare_versions [("latest", "L"), ("1.0", "A")]) "latest" = some "L" ∧
    dget seq (prepare_versions [("latest", "L"), ("1.0", "A")]) "latest" ≠ some "A" := by
  refine ⟨rfl, rfl, rfl, ?_⟩
  intro h
  have h2 : ("L" : String) = "A" := Option.some.inj (rfl.trans h)
  have h3 : (['L'] : List Char) = ['A'] := congrArg String.data h2
  simp at h3

/-- C3 counterexample: `foo` is a key of the input mapping, but the
expansion `_prepare_versions` produces does not contain it (only parseable
labels, their synonyms and `latest`/`stable` are written to the result). -/
theorem C3_dropped_key_counterexample :
    dmem seq [("1.0", "A"), ("foo", "F")] "foo" = true ∧
    dmem seq (prepare_versions [("1.0", "A"), ("foo", "F")]) "foo" = false :=
  ⟨rfl, rfl⟩

/-- C5 counterexample: in `{"1.0": "A", "1.0.0": "B"}` both labels parse
(to equal versions), so the claimed ordering requires both of them, in
strictly decreasing parsed order, before the remaining labels — impossible,
because the two parsed versions are equal.  (Concretely the code keeps only
the representative `1.0.0` in the sorted segment and appends `1.0` behind
it via `retval.update`.) -/
theorem C5_order_counterexample :
    ¬ specReorderOrdering [("1.0", "A"), ("1.0.0", "B")] := by
  rintro ⟨ks, heq, hperm, hpw⟩
  have h1 : (PROTECTED.filter fun k =>
      dmem seq [(("1.0" : String), ("A" : String)), ("1.0.0", "B")] k) = [] := rfl
  have h2 : ((dkeys [(("1.0" : String), ("A" : String)), ("1.0.0", "B")]).filter fun k =>
      !(PROTECTED.contains k) && !(pep440Parse k).isSome) = [] := rfl
  have h3 : dkeys (reorder_versions [(("1.0" : String), ("A" : String)), ("1.0.0", "B")])
      = ["1.0.0", "1.0"] := rfl
  rw [h1, h2, h3, List.nil_append, List.append_nil] at heq
  subst heq
  have h4 : ((dkeys [(("1.0" : String), ("A" : String)), ("1.0.0", "B")]).filter fun k =>
      !(PROTECTED.contains k) && (pep440Parse k).isSome) = ["1.0", "1.0.0"] := rfl
  rw [h4] at hperm
  have h5 := hpw
  rw [List.pairwise_cons] at h5
  have h6 := h5.1 "1.0" (by simp)
  have h7 := h6 ⟨0, [1, 0, 0], none, none, none, none⟩ ⟨0, [1, 0], none, none, none, none⟩
    rfl rfl
  exact absurd h7 (by decide)

/-- The round trip evaluated on a concrete two-package catalog. -/
theorem C9_dumps_loads_roundtrip_witness :
    jsonWFb (catalogJson
      [("pkg", [("versions", [("1.0", "https://a/1.0")]), ("sources", [("pypi", "pkg")])]),
       ("b", [("versions", []), ("sources", [])])]) = true ∧
    json_loads (catalog_dumps
      [("pkg", [("versions", [("1.0", "https://a/1.0")]), ("sources", [("pypi", "pkg")])]),
       ("b", [("versions", []), ("sources", [])])])
      = some (catalogJson
      [("pkg", [("versions", [("1.0", "https://a/1.0")]), ("sources", [("pypi", "pkg")])]),
       ("b", [("versions", []), ("sources", [])])]) :=
  ⟨rfl, C9_dumps_loads_roundtrip _ rfl⟩

/-! ## Generic dictionary lemmas for the version-map folds -/

/-- A successful lookup comes from a pair of the dictionary. -/
theorem dget_mem {κ ν : Type} (eq : κ → κ → Bool) (d : List (κ × ν)) (k : κ) (v : ν)
    (h : dget eq d k = some v) : ∃ pr ∈ d, eq pr.fst k = true ∧ pr.snd = v := by
  induction d with
  | nil => simp [dget] at h
  | cons p d ih =>
    rw [dget_cons] at h
    by_cases hp : eq p.fst k
    · rw [if_pos hp] at h
      exact ⟨p, by simp, hp, Option.some.inj h⟩
    · rw [if_neg hp] at h
      obtain ⟨pr, hm, he, hv⟩ := ih h
      exact ⟨pr, by simp [hm], he, hv⟩

/-- A key of the association list is a member (reflexive equality). -/
theorem mem_dkeys_dmem {κ ν : Type} (eq : κ → κ → Bool) (d : List (κ × ν)) (k : κ)
    (hrefl : ∀ a, eq a a = true) (h : k ∈ dkeys d) : dmem eq d k = true := by
  unfold dkeys at h
  unfold dmem
  simp only [List.any_eq_true]
  obtain ⟨pr, hpr, hfst⟩ := List.mem_map.mp h
  exact ⟨pr, hpr, hfst ▸ hrefl _⟩

/-- For string keys membership is exactly key-list membership. -/
theorem dmem_mem_dkeys {ν : Type} (d : List (String × ν)) (k : String)
    (h : dmem seq d k = true) : k ∈ dkeys d := by
  unfold dmem at h
  simp only [List.any_eq_true] at h
  obtain ⟨pr, hpr, hk⟩ := h
  rw [seq_iff] at hk
  subst hk
  exact List.mem_map.mpr ⟨pr, hpr, rfl⟩

/-- Setting a fresh key appends the pair (generic key equality). -/
theorem dset_fresh {κ ν : Type} (eq : κ → κ → Bool) (d : List (κ × ν)) (k : κ) (v : ν)
    (h : dmem eq d k = false) : dset eq d k v = d ++ [(k, v)] := by
  simp [dset, h]

/-- Membership over list concatenation. -/
theorem dmem_append {κ ν : Type} (eq : κ → κ → Bool) (d e : List (κ × ν)) (k : κ) :
    dmem eq (d ++ e) k = (dmem eq d k || dmem eq e k) := by
  simp [dmem, List.any_append]

/-- A key found on the left is looked up on the left. -/
theorem dget_append_left {ν : Type} (d e : List (String × ν)) (k : String)
    (h : dmem seq d k = true) : dget seq (d ++ e) k = dget seq d k := by
  induction d with
  | nil => simp [dmem] at h
  | cons p d ih =>
    rw [List.cons_append, dget_cons, dget_cons]
    rw [dmem_cons] at h
    by_cases hp : seq p.fst k
    · simp [hp]
    · have hp' : seq p.fst k = false := Bool.eq_false_iff.mpr hp
      rw [hp', Bool.false_or] at h
      simp only [hp', Bool.false_eq_true, if_false]
      exact ih h

/-- A key absent on the left is looked up on the right. -/
theorem dget_append_right {ν : Type} (d e : List (String × ν)) (k : String)
    (h : dmem seq d k = false) : dget seq (d ++ e) k = dget seq e k := by
  induction d with
  | nil => rfl
  | cons p d ih =>
    rw [List.cons_append, dget_cons]
    rw [dmem_cons] at h
    simp only [Bool.or_eq_false_iff] at h
    rw [h.1]
    simp only [Bool.false_eq_true, if_false]
    exact ih h.2

/-- A fold whose every step leaves the entry at `key` untouched. -/
theorem foldl_dget_preserve {ν β : Type} (step : List (String × ν) → β → List (String × ν))
    (key : String) :
    ∀ (xs : List β),
    (∀ acc x, x ∈ xs → dget seq (step acc x) key = dget seq acc key) →
    ∀ acc, dget seq (xs.foldl step acc) key = dget seq acc key := by
  intro xs
  induction xs with
  | nil => intro _ acc; rfl
  | cons x xs ih =>
    intro hstep acc
    rw [List.foldl_cons, ih (fun a y hy => hstep a y (by simp [hy])) (step acc x),
      hstep acc x (by simp)]

/-- `d.update(e)` with keys of `e` all fresh and pairwise distinct appends
`e` verbatim. -/
theorem dupdate_fresh_append {ν : Type} :
    ∀ (e d : List (String × ν)),
    (∀ p ∈ e, dmem seq d p.fst = false) →
    DictWF seq e →
    dupdate seq d e = d ++ e := by
  intro e
  induction e with
  | nil => intro d _ _; simp [dupdate]
  | cons p e ih =>
    intro d hfresh hwf
    unfold dupdate at ih ⊢
    simp only [List.foldl_cons]
    rw [dset_fresh seq d p.fst p.snd (hfresh p (by simp))]
    rw [ih (d ++ [(p.fst, p.snd)]) ?_ ?_]
    · simp
    · intro q hq
      rw [dmem_append]
      have h1 : dmem seq d q.fst = false := hfresh q (by simp [hq])
      have h2 : dmem seq [(p.fst, p.snd)] q.fst = false := by
        unfold DictWF at hwf
        unfold dkeys at hwf
        simp only [List.map_cons, List.pairwise_cons] at hwf
        have := hwf.1 q.fst (List.mem_map.mpr ⟨q, hq, rfl⟩)
        simp [dmem, this]
      rw [h1, h2]
      rfl
    · unfold DictWF at hwf ⊢
      unfold dkeys at hwf ⊢
      simp only [List.map_cons, List.pairwise_cons] at hwf
      exact hwf.2

/-- `dset` preserves key-distinctness. -/
theorem DictWF_dset {κ ν : Type} (eq : κ → κ → Bool) (d : List (κ × ν)) (k : κ) (v : ν)
    (h : DictWF eq d) : DictWF eq (dset eq d k v) := by
  unfold DictWF
  rw [dkeys_dset]
  by_cases hm : dmem eq d k
  · simpa [hm] using h
  · rw [if_neg hm]
    rw [List.pairwise_append]
    refine ⟨h, by simp, ?_⟩
    intro a ha b hb
    simp only [List.mem_singleton] at hb
    subst hb
    obtain ⟨pr, hpr, hfst⟩ := List.mem_map.mp ha
    rw [← hfst]
    by_contra hc
    have hk : eq pr.fst b = true := by
      revert hc
      cases eq pr.fst b <;> simp
    exact hm (List.any_eq_true.mpr ⟨pr, hpr, hk⟩)

/-- `dset` never removes a key (generic key equality). -/
theorem dmem_dset_mono {κ ν : Type} (eq : κ → κ → Bool) (d : List (κ × ν))
    (k key : κ) (v : ν) (h : dmem eq d key = true) :
    dmem eq (dset eq d k v) key = true := by
  unfold dset
  by_cases hm : dmem eq d k
  · simp only [hm, if_true]
    unfold dmem at h ⊢
    simp only [List.any_eq_true] at h ⊢
    obtain ⟨pr, hpr, he⟩ := h
    by_cases hp : eq pr.fst k
    · exact ⟨(pr.fst, v), List.mem_map.mpr ⟨pr, hpr, by simp [hp]⟩, he⟩
    · refine ⟨pr, List.mem_map.mpr ⟨pr, hpr, by simp [hp]⟩, he⟩
  · simp only [hm, if_false, Bool.false_eq_true]
    rw [dmem_append, h]
    rfl

/-- After `d[k] = v` the key `k` is present (generic key equality). -/
theorem dmem_dset_self {κ ν : Type} (eq : κ → κ → Bool) (d : List (κ × ν))
    (k : κ) (v : ν) (hrefl : ∀ a, eq a a = true) :
    dmem eq (dset eq d k v) k = true := by
  unfold dset
  by_cases hm : dmem eq d k
  · simp only [hm, if_true]
    unfold dmem at hm ⊢
    simp only [List.any_eq_true] at hm ⊢
    obtain ⟨pr, hpr, he⟩ := hm
    by_cases hp : eq pr.fst k
    · exact ⟨(pr.fst, v), List.mem_map.mpr ⟨pr, hpr, by simp [hp]⟩, he⟩
    · exact absurd he hp
  · simp only [hm, if_false, Bool.false_eq_true]
    rw [dmem_append]
    have : dmem eq [(k, v)] k = true := by simp [dmem, hrefl]
    rw [this]
    simp

/-- Where the entries of `dset` come from. -/
theorem mem_dset {κ ν : Type} (eq : κ → κ → Bool) (d : List (κ × ν)) (k : κ) (v : ν)
    (pr : κ × ν) (h : pr ∈ dset eq d k v) :
    pr ∈ d ∨ (pr.snd = v ∧ (pr.fst = k ∨ eq pr.fst k = true)) := by
  unfold dset at h
  by_cases hm : dmem eq d k
  · simp only [hm, if_true] at h
    obtain ⟨q, hq, he⟩ := List.mem_map.mp h
    by_cases hp : eq q.fst k
    · rw [if_pos hp] at he
      right
      rw [← he]
      exact ⟨rfl, Or.inr hp⟩
    · rw [if_neg hp] at he
      exact Or.inl (he ▸ hq)
  · simp only [hm, if_false, Bool.false_eq_true] at h
    rcases List.mem_append.mp h with h1 | h1
    · exact Or.inl h1
    · simp only [List.mem_singleton] at h1
      subst h1
      exact Or.inr ⟨rfl, Or.inl rfl⟩

/-- The `buildMap` fold never loses a key. -/
theorem buildMap_dmem_mono {κ : Type} (eqk : κ → κ → Bool) (f : String → Option κ) :
    ∀ (ks : List String) (acc : List (κ × String)) (key : κ),
    dmem eqk acc key = true →
    dmem eqk (ks.foldl (fun acc k =>
      match f k with
      | some key => dset eqk acc key k
      | none => acc) acc) key = true := by
  intro ks
  induction ks with
  | nil => intro acc key h; exact h
  | cons k ks ih =>
    intro acc key h
    rw [List.foldl_cons]
    apply ih
    match hf : f k with
    | some key2 => exact dmem_dset_mono eqk acc key2 key k h
    | none => exact h

/-- Completeness of the version map: every parsed key is present. -/
theorem buildMap_mem {κ : Type} (eqk : κ → κ → Bool) (f : String → Option κ)
    (hrefl : ∀ a, eqk a a = true) :
    ∀ (ks : List String) (acc : List (κ × String)) (k : String) (key : κ),
    k ∈ ks → f k = some key →
    dmem eqk (ks.foldl (fun acc k =>
      match f k with
      | some key => dset eqk acc key k
      | none => acc) acc) key = true := by
  intro ks
  induction ks with
  | nil => intro _ _ _ h; simp at h
  | cons k0 ks ih =>
    intro acc k key hk hf
    rw [List.foldl_cons]
    rcases List.mem_cons.mp hk with rfl | hk'
    · rw [hf]
      exact buildMap_dmem_mono eqk f ks _ key
        (dmem_dset_self eqk acc key k hrefl)
    · exact ih _ k key hk' hf

/-- Soundness of the version map: every entry's value is one of the input
keys and parses to (an equal of) the entry's key. -/
theorem buildMap_entries {κ : Type} (eqk : κ → κ → Bool) (f : String → Option κ)
    (hrefl : ∀ a, eqk a a = true)
    (hsymm : ∀ a b, eqk a b = true → eqk b a = true) :
    ∀ (ks : List String) (acc : List (κ × String)) (pr : κ × String),
    pr ∈ ks.foldl (fun acc k =>
      match f k with
      | some key => dset eqk acc key k
      | none => acc) acc →
    pr ∈ acc ∨ (pr.snd ∈ ks ∧ ∃ key, f pr.snd = some key ∧ eqk key pr.fst = true) := by
  intro ks
  induction ks with
  | nil => intro acc pr h; exact Or.inl h
  | cons k ks ih =>
    intro acc pr h
    rw [List.foldl_cons] at h
    rcases ih _ pr h with h1 | h1
    · match hf : f k with
      | some key =>
        rw [hf] at h1
        rcases mem_dset eqk acc key k pr h1 with h2 | h2
        · exact Or.inl h2
        · right
          refine ⟨by simp [h2.1], key, by rw [h2.1, hf], ?_⟩
          rcases h2.2 with h3 | h3
          · rw [h3]; exact hrefl key
          · exact hsymm _ _ h3
      | none =>
        rw [hf] at h1
        exact Or.inl h1
    · exact Or.inr ⟨by simp [h1.1], h1.2⟩

/-- The version map has pairwise-distinct keys. -/
theorem buildMap_WF {κ : Type} (eqk : κ → κ → Bool) (f : String → Option κ) :
    ∀ (ks : List String) (acc : List (κ × String)),
    DictWF eqk acc →
    DictWF eqk (ks.foldl (fun acc k =>
      match f k with
      | some key => dset eqk acc key k
      | none => acc) acc) := by
  intro ks
  induction ks with
  | nil => intro acc h; exact h
  | cons k ks ih =>
    intro acc h
    rw [List.foldl_cons]
    apply ih
    match hf : f k with
    | some key => exact DictWF_dset eqk acc key k h
    | none => exact h

/-! ## Order-theoretic facts about `Version` comparison -/

theorem veq_iff {a b : PyVersion} : veq a b = true ↔ cmpkey a = cmpkey b := by
  simp [veq]

theorem veq_refl (a : PyVersion) : veq a a = true := veq_iff.mpr rfl

theorem veq_symm {a b : PyVersion} (h : veq a b = true) : veq b a = true :=
  veq_iff.mpr (veq_iff.mp h).symm

theorem veq_trans {a b c : PyVersion} (h1 : veq a b = true) (h2 : veq b c = true) :
    veq a c = true :=
  veq_iff.mpr ((veq_iff.mp h1).trans (veq_iff.mp h2))

theorem vle_refl (a : PyVersion) : vle a a := le_refl (cmpkey a)

theorem vle_trans {a b c : PyVersion} (h1 : vle a b) (h2 : vle b c) : vle a c :=
  le_trans h1 h2

theorem vle_congr_left {a a' b : PyVersion} (h : veq a a' = true) :
    vle a b ↔ vle a' b := by
  unfold vle
  rw [veq_iff.mp h]

theorem vle_congr_right {a b b' : PyVersion} (h : veq b b' = true) :
    vle a b ↔ vle a b' := by
  unfold vle
  rw [veq_iff.mp h]

theorem vlt_of_vle_not_veq {a b : PyVersion} (h1 : vle a b) (h2 : veq a b = false) :
    vlt a b := by
  unfold vlt
  rcases lt_or_eq_of_le h1 with h | h
  · exact h
  · exact absurd (veq_iff.mpr h) (by simp [h2])

theorem oveq_refl (a : Option PyVersion) : oveq a a = true := by
  cases a with
  | none => rfl
  | some v => exact veq_refl v

theorem oveq_some_iff {a : Option PyVersion} {b : PyVersion} :
    oveq a (some b) = true ↔ ∃ a', a = some a' ∧ veq a' b = true := by
  cases a with
  | none => simp [oveq]
  | some v => simp [oveq]

theorem oveq_some_some {a b : PyVersion} : oveq (some a) (some b) = veq a b := rfl

/-- The last element of a `vle`-sorted list bounds every element. -/
theorem sorted_getLast?_max :
    ∀ (l : List PyVersion) (m : PyVersion),
    l.Sorted vle → l.getLast? = some m → ∀ x ∈ l, vle x m := by
  intro l
  induction l with
  | nil => intro m _ h; simp at h
  | cons a l ih =>
    intro m hs hl x hx
    cases l with
    | nil =>
      simp at hl hx
      subst hl
      subst hx
      exact vle_refl _
    | cons b t =>
      have hl' : (b :: t).getLast? = some m := by
        rw [List.getLast?_cons_cons] at hl
        exact hl
      have hs' : (b :: t).Sorted vle := hs.of_cons
      rcases List.mem_cons.mp hx with rfl | hx'
      · have hab : vle x b := (List.pairwise_cons.mp hs).1 b (by simp)
        exact vle_trans hab (ih m hs' hl' b (by simp))
      · exact ih m hs' hl' x hx'

/-! ## The canonical version string never collides with an alias -/

theorem natToCharsAux_digits :
    ∀ (fuel n : Nat), ∀ c ∈ natToCharsAux fuel n, c.isDigit = true := by
  intro fuel
  induction fuel with
  | zero => intro n c hc; simp [natToCharsAux] at hc
  | succ f ih =>
    intro n c hc
    unfold natToCharsAux at hc
    by_cases hn : n = 0
    · simp [hn] at hc
    · rw [if_neg hn] at hc
      rcases List.mem_append.mp hc with h | h
      · exact ih _ c h
      · simp only [List.mem_singleton] at h
        subst h
        have h10 : n % 10 < 10 := by omega
        set r := n % 10 with hr
        interval_cases r <;> decide

theorem natToChars_ne_nil (n : Nat) : natToChars n ≠ [] := by
  unfold natToChars
  by_cases h : n = 0
  · simp [h]
  · rw [if_neg h]
    unfold natToCharsAux
    rw [if_neg h]
    simp

theorem natToChars_digits (n : Nat) : ∀ c ∈ natToChars n, c.isDigit = true := by
  intro c hc
  unfold natToChars at hc
  by_cases h : n = 0
  · rw [if_pos h] at hc
    simp only [List.mem_singleton] at hc
    subst hc
    decide
  · rw [if_neg h] at hc
    exact natToCharsAux_digits _ _ c hc

theorem joinDot_cons_head (x : List Char) (xs : List (List Char)) :
    ∃ t, joinDot (x :: xs) = x ++ t := by
  cases xs with
  | nil => exact ⟨[], by simp [joinDot]⟩
  | cons y ys => exact ⟨'.' :: joinDot (y :: ys), rfl⟩

/-- The first character of `Version.public` is a digit, a pre-release
letter (`a`, `b`, `r`) or a dot — never the `l` of `latest` nor the `s` of
`stable`. -/
theorem publicStr_head (v : PyVersion) :
    ∀ c cs, (publicStr v).data = c :: cs →
      c.isDigit = true ∨ c = 'a' ∨ c = 'b' ∨ c = 'r' ∨ c = '.' := by
  intro c cs h
  unfold publicStr at h
  simp only [String.data] at h
  by_cases he : v.epoch ≠ 0
  · rw [if_pos he] at h
    obtain ⟨d, ds, hd⟩ := List.exists_cons_of_ne_nil (natToChars_ne_nil v.epoch)
    rw [hd] at h
    simp only [List.cons_append, List.cons.injEq] at h
    exact Or.inl (h.1 ▸ natToChars_digits _ d (hd ▸ List.mem_cons_self d ds))
  · rw [if_neg he] at h
    rw [List.nil_append] at h
    match hr : v.release with
    | r :: rs =>
      rw [hr] at h
      simp only [List.map_cons] at h
      obtain ⟨t, ht⟩ := joinDot_cons_head (natToChars r) (rs.map natToChars)
      rw [ht] at h
      obtain ⟨d, ds, hd⟩ := List.exists_cons_of_ne_nil (natToChars_ne_nil r)
      rw [hd] at h
      simp only [List.cons_append, List.cons.injEq] at h
      exact Or.inl (h.1 ▸ natToChars_digits _ d (hd ▸ List.mem_cons_self d ds))
    | [] =>
      rw [hr] at h
      simp only [List.map_nil, joinDot, List.nil_append] at h
      match hp : v.pre with
      | some (l, n) =>
        rw [hp] at h
        match l with
        | 0 => simp only [letterChars, List.cons_append, List.cons.injEq] at h
               exact Or.inr (Or.inl h.1.symm)
        | 1 => simp only [letterChars, List.cons_append, List.cons.injEq] at h
               exact Or.inr (Or.inr (Or.inl h.1.symm))
        | _ + 2 => simp only [letterChars, List.cons_append, List.cons.injEq] at h
                   exact Or.inr (Or.inr (Or.inr (Or.inl h.1.symm)))
      | none =>
        rw [hp] at h
        simp only [List.nil_append] at h
        match hpo : v.post with
        | some n =>
          rw [hpo] at h
          simp only [List.cons_append, List.cons.injEq] at h
          exact Or.inr (Or.inr (Or.inr (Or.inr h.1.symm)))
        | none =>
          rw [hpo] at h
          simp only [List.nil_append] at h
          match hde : v.dev with
          | some n =>
            rw [hde] at h
            simp only [List.cons_append, List.cons.injEq] at h
            exact Or.inr (Or.inr (Or.inr (Or.inr h.1.symm)))
          | none =>
            rw [hde] at h
            simp at h

theorem publicStr_ne_latest (v : PyVersion) : publicStr v ≠ "latest" := by
  intro h
  have hd : (publicStr v).data = ['l', 'a', 't', 'e', 's', 't'] := by rw [h]
  rcases publicStr_head v 'l' _ hd with h1 | h1 | h1 | h1 | h1
  · simp at h1
  · simp at h1
  · simp at h1
  · simp at h1
  · simp at h1

theorem publicStr_ne_stable (v : PyVersion) : publicStr v ≠ "stable" := by
  intro h
  have hd : (publicStr v).data = ['s', 't', 'a', 'b', 'l', 'e'] := by rw [h]
  rcases publicStr_head v 's' _ hd with h1 | h1 | h1 | h1 | h1
  · simp at h1
  · simp at h1
  · simp at h1
  · simp at h1
  · simp at h1

/-! ## The `version_map` of `_prepare_versions` -/

theorem oveq_symm {a b : Option PyVersion} (h : oveq a b = true) : oveq b a = true := by
  cases a <;> cases b <;> simp [oveq] at h ⊢
  exact veq_symm h

theorem oveq_trans {a b c : Option PyVersion} (h1 : oveq a b = true)
    (h2 : oveq b c = true) : oveq a c = true := by
  cases a <;> cases b <;> cases c <;> simp [oveq] at h1 h2 ⊢
  exact veq_trans h1 h2

/-- Completeness: the class of every key of `V` is in the version map. -/
theorem prepVM_mem (V : VMap) (l : String) (hl : l ∈ dkeys V) :
    dmem oveq (prepVM V) (string2version l) = true :=
  buildMap_mem oveq (fun k => some (string2version k)) oveq_refl (dkeys V) [] l
    (string2version l) hl rfl

/-- Soundness: every entry's value is a key of `V` whose parse matches the
entry's key. -/
theorem prepVM_entries (V : VMap) (pr : Option PyVersion × String)
    (h : pr ∈ prepVM V) :
    pr.snd ∈ dkeys V ∧ oveq (string2version pr.snd) pr.fst = true := by
  have hb := buildMap_entries oveq (fun k => some (string2version k)) oveq_refl
    (fun a b => oveq_symm) (dkeys V) [] pr h
  rcases hb with h1 | h1
  · simp at h1
  · obtain ⟨hmem, key, hkey, heq⟩ := h1
    refine ⟨hmem, ?_⟩
    have : key = string2version pr.snd := (Option.some.inj hkey).symm
    rw [← this]
    exact heq

theorem prepVM_WF (V : VMap) : DictWF oveq (prepVM V) :=
  buildMap_WF oveq (fun k => some (string2version k)) (dkeys V) [] List.Pairwise.nil

/-- The label the loop looks up for class `k` parses to (an equal of) `k`. -/
theorem prepVM_label_parses (V : VMap) (k : PyVersion) (l : String)
    (h : dget oveq (prepVM V) (some k) = some l) :
    l ∈ dkeys V ∧ ∃ w, string2version l = some w ∧ veq w k = true := by
  obtain ⟨pr, hpr, heq, hval⟩ := dget_mem oveq (prepVM V) (some k) l h
  obtain ⟨hmem, hov⟩ := prepVM_entries V pr hpr
  subst hval
  have h2 : oveq (string2version pr.snd) (some k) = true := oveq_trans hov heq
  obtain ⟨w, hw, hveq⟩ := oveq_some_iff.mp h2
  exact ⟨hmem, w, hw, hveq⟩

/-- Every parseable key of `V` has a `veq`-equal element in
`sorted_versions`. -/
theorem prepSorted_covers (V : VMap) (l : String) (v : PyVersion)
    (hl : l ∈ dkeys V) (hp : string2version l = some v) :
    ∃ w ∈ prepSorted V, veq w v = true := by
  have hm := prepVM_mem V l hl
  rw [hp] at hm
  unfold dmem at hm
  simp only [List.any_eq_true] at hm
  obtain ⟨pr, hpr, hov⟩ := hm
  obtain ⟨w, hw, hveq⟩ := oveq_some_iff.mp (oveq_symm (oveq_symm hov))
  refine ⟨w, ?_, hveq⟩
  unfold prepSorted
  rw [(List.perm_insertionSort vle _).mem_iff]
  exact List.mem_filterMap.mpr ⟨pr.fst, List.mem_map.mpr ⟨pr, hpr, rfl⟩, by rw [hw]; rfl⟩

theorem prepSorted_sorted (V : VMap) : (prepSorted V).Sorted vle :=
  List.sorted_insertionSort vle _

/-- Every element of `sorted_versions` is the class of some key of `V`. -/
theorem prepSorted_mem (V : VMap) (w : PyVersion) (hw : w ∈ prepSorted V) :
    ∃ l ∈ dkeys V, ∃ u, string2version l = some u ∧ veq u w = true := by
  unfold prepSorted at hw
  rw [(List.perm_insertionSort vle _).mem_iff] at hw
  obtain ⟨a, ha, hid⟩ := List.mem_filterMap.mp hw
  obtain ⟨pr, hpr, hfst⟩ := List.mem_map.mp ha
  obtain ⟨hmem, hov⟩ := prepVM_entries V pr hpr
  have : oveq (string2version pr.snd) (some w) = true := by
    rw [hfst, (show a = some w from hid)] at hov
    exact hov
  obtain ⟨u, hu, hveq⟩ := oveq_some_iff.mp this
  exact ⟨pr.snd, hmem, u, hu, hveq⟩

/-- `_prepare_versions` when at least one label parses, as the explicit
fill-in fold (definitional characterisation). -/
theorem prepare_versions_eq_some (V : VMap) (hne : ¬ V = []) (latest : PyVersion)
    (hgl : (prepSorted V).getLast? = some latest) :
    prepare_versions V = (prepSorted V).reverse.foldl (prepStep V (prepVM V))
      (dset seq
        (dset seq [] "latest"
          (dgetD seq V "latest" (dgetD seq V (dgetD oveq (prepVM V) (some latest) "") "")))
        "stable"
        (dgetD seq V "stable" (dgetD seq V
          (dgetD oveq (prepVM V)
            (some (((prepSorted V).filter fun k =>
              !(isPrerelease k || isDevrelease k)).getLastD latest)) "") ""))) := by
  unfold prepSorted prepVM at hgl ⊢
  unfold prepare_versions prepStep
  rw [if_neg hne]
  simp only [hgl]

/-- Equal comparison keys have equal components. -/
theorem cmpkey_components {a b : PyVersion} (h : cmpkey a = cmpkey b) :
    a.epoch = b.epoch ∧ dropTrailingZeros a.release = dropTrailingZeros b.release ∧
    preKey a = preKey b ∧ postKey a = postKey b ∧ devKey a = devKey b ∧
    localKey a = localKey b := by
  unfold cmpkey at h
  simp only [toLex_inj, Prod.mk.injEq] at h
  exact ⟨h.1, h.2.1, h.2.2.1, h.2.2.2.1, h.2.2.2.2.1, h.2.2.2.2.2⟩

/-- `Version.__eq__` preserves pre-release and dev-release status (the
`_cmpkey` components record them). -/
theorem veq_release_status {a b : PyVersion} (h : veq a b = true) :
    isPrerelease a = isPrerelease b ∧ isDevrelease a = isDevrelease b := by
  obtain ⟨_, _, hpre, hpost, hdev, _⟩ := cmpkey_components (veq_iff.mp h)
  have hds : a.dev.isSome = b.dev.isSome := by
    unfold devKey at hdev
    cases ha : a.dev <;> cases hb : b.dev <;> rw [ha, hb] at hdev <;> simp at hdev ⊢
  have hps : a.pre.isSome = b.pre.isSome := by
    unfold preKey at hpre
    cases ha : a.pre with
    | some p =>
      obtain ⟨pl, pn⟩ := p
      cases hb : b.pre with
      | some q => simp
      | none =>
        rw [ha, hb] at hpre
        by_cases hc : (decide (b.post = none) && decide (b.dev ≠ none)) = true
        · rw [if_pos hc] at hpre
          exact absurd hpre (by simp)
        · rw [if_neg hc] at hpre
          exact absurd hpre (by simp)
    | none =>
      cases hb : b.pre with
      | some q =>
        obtain ⟨ql, qn⟩ := q
        rw [ha, hb] at hpre
        by_cases hc : (decide (a.post = none) && decide (a.dev ≠ none)) = true
        · rw [if_pos hc] at hpre
          exact absurd hpre (by simp)
        · rw [if_neg hc] at hpre
          exact absurd hpre (by simp)
      | none => simp
  unfold isPrerelease isDevrelease
  rw [hds, hps]
  exact ⟨rfl, rfl⟩

/-- The fill-in loop of `_prepare_versions` never writes to an alias key
that does not parse (in particular `latest` and `stable`). -/
theorem prepStep_preserve (V : VMap) (key : String)
    (h1 : string2version key = none) (h2 : pep440Parse key = none)
    (h3 : key ≠ "") (hpub : ∀ w : PyVersion, publicStr w ≠ key) :
    ∀ (acc : VMap) (k : PyVersion),
    dget seq (prepStep V (prepVM V) acc k) key = dget seq acc key := by
  intro acc k
  unfold prepStep
  cases hl : dget oveq (prepVM V) (some k) with
  | none =>
    have hlabel : dgetD oveq (prepVM V) (some k) "" = "" := by simp [dgetD, hl]
    simp only [hlabel]
    have hdx : hasDotX ("" : String).data = false := rfl
    rw [hdx]
    simp only [Bool.false_eq_true, if_false]
    by_cases hp : publicStr k ≠ ""
    · rw [if_pos hp, dget_dset_ne_seq _ _ _ _ (by intro hk; exact hpub k hk.symm),
        dget_dset_ne_seq _ _ _ _ h3]
    · rw [if_neg hp, dget_dset_ne_seq _ _ _ _ h3]
  | some l =>
    have hlabel : dgetD oveq (prepVM V) (some k) "" = l := by simp [dgetD, hl]
    simp only [hlabel]
    obtain ⟨_, w, hw, _⟩ := prepVM_label_parses V k l hl
    have hkl : key ≠ l := by
      intro he
      rw [← he, h1] at hw
      exact Option.noConfusion hw
    by_cases hdx : hasDotX l.data
    · rw [if_pos hdx]
      have hsyn : key ≠ (⟨replaceDotX l.data⟩ : String) := by
        intro he
        unfold string2version at hw
        rw [← he, h2] at hw
        exact Option.noConfusion hw
      rw [dget_dset_ne_seq _ _ _ _ hsyn, dget_dset_ne_seq _ _ _ _ hkl]
    · rw [if_neg hdx]
      by_cases hp : publicStr k ≠ l
      · rw [if_pos hp, dget_dset_ne_seq _ _ _ _ (by intro hk; exact hpub k hk.symm),
          dget_dset_ne_seq _ _ _ _ hkl]
      · rw [if_neg hp, dget_dset_ne_seq _ _ _ _ hkl]

/-- The `latest`/`stable` entry of the prepared mapping, for a class taken
from `sorted_versions`. -/
theorem prepare_alias_value (V : VMap) (hne : ¬ V = []) (latest : PyVersion)
    (hgl : (prepSorted V).getLast? = some latest) :
    dget seq (prepare_versions V) "latest"
      = some (dgetD seq V "latest"
          (dgetD seq V (dgetD oveq (prepVM V) (some latest) "") "")) ∧
    dget seq (prepare_versions V) "stable"
      = some (dgetD seq V "stable" (dgetD seq V
          (dgetD oveq (prepVM V)
            (some (((prepSorted V).filter fun k =>
              !(isPrerelease k || isDevrelease k)).getLastD latest)) "") "")) := by
  rw [prepare_versions_eq_some V hne latest hgl]
  constructor
  · rw [foldl_dget_preserve (prepStep V (prepVM V)) "latest" ((prepSorted V).reverse)
      (fun acc x _ => prepStep_preserve V "latest" rfl rfl (by decide)
        publicStr_ne_latest acc x)]
    rw [dget_dset_ne_seq _ _ _ _ (by decide : ("latest" : String) ≠ "stable")]
    exact dget_dset_self seq [] "latest" _ (seq_refl _)
  · rw [foldl_dget_preserve (prepStep V (prepVM V)) "stable" ((prepSorted V).reverse)
      (fun acc x _ => prepStep_preserve V "stable" rfl rfl (by decide)
        publicStr_ne_stable acc x)]
    exact dget_dset_self seq _ "stable" _ (seq_refl _)

/-- C1 (amended): for every version mapping with a PEP-440-parseable label,
`_prepare_versions` maps `latest` to `versions.get("latest", U)` where `U`
is the URL of a maximal-version parseable label — an existing `latest` entry
wins over the computed one; `stable` likewise uses
`versions.get("stable", U')` where `U'` is the URL of a maximal
non-prerelease/non-dev label when one exists, and otherwise the same
maximal-version URL fallback that `latest` used (not the final `latest`
entry itself). -/
theorem C1_prepare_latest_stable_amended (V : VMap) (l0 : String) (v0 : PyVersion)
    (hmem0 : dmem seq V l0 = true) (hp0 : string2version l0 = some v0) :
    ∃ lmax vmax, dmem seq V lmax = true ∧ string2version lmax = some vmax ∧
      (∀ l v, dmem seq V l = true → string2version l = some v → vle v vmax) ∧
      dget seq (prepare_versions V) "latest"
        = some (dgetD seq V "latest" (dgetD seq V lmax "")) ∧
      ((∃ ls vs, dmem seq V ls = true ∧ string2version ls = some vs ∧
          (isPrerelease vs || isDevrelease vs) = false) →
        ∃ lst vst, dmem seq V lst = true ∧ string2version lst = some vst ∧
          (isPrerelease vst || isDevrelease vst) = false ∧
          (∀ l v, dmem seq V l = true → string2version l = some v →
            (isPrerelease v || isDevrelease v) = false → vle v vst) ∧
          dget seq (prepare_versions V) "stable"
            = some (dgetD seq V "stable" (dgetD seq V lst ""))) ∧
      ((¬ ∃ ls vs, dmem seq V ls = true ∧ string2version ls = some vs ∧
          (isPrerelease vs || isDevrelease vs) = false) →
        dget seq (prepare_versions V) "stable"
          = some (dgetD seq V "stable" (dgetD seq V lmax ""))) := by
  have hne : ¬ V = [] := by
    intro h
    rw [h] at hmem0
    simp [dmem] at hmem0
  have hl0k : l0 ∈ dkeys V := dmem_mem_dkeys V l0 hmem0
  obtain ⟨w0, hw0, hw0v⟩ := prepSorted_covers V l0 v0 hl0k hp0
  have hsne : prepSorted V ≠ [] := by
    intro h
    rw [h] at hw0
    exact List.not_mem_nil w0 hw0
  obtain ⟨latest, hgl⟩ : ∃ m, (prepSorted V).getLast? = some m := by
    cases hq : (prepSorted V).getLast? with
    | some m => exact ⟨m, rfl⟩
    | none => exact absurd (List.getLast?_eq_none_iff.mp hq) hsne
  obtain ⟨hlatval, hstabval⟩ := prepare_alias_value V hne latest hgl
  have hlmem : latest ∈ prepSorted V := List.mem_of_mem_getLast? hgl
  have hlmm : dmem oveq (prepVM V) (some latest) = true := by
    apply mem_dkeys_dmem oveq _ _ oveq_refl
    unfold prepSorted at hlmem
    rw [(List.perm_insertionSort vle _).mem_iff] at hlmem
    obtain ⟨a, ha, hid⟩ := List.mem_filterMap.mp hlmem
    rw [show a = some latest from hid] at ha
    exact ha
  obtain ⟨lmax, hlg⟩ : ∃ l, dget oveq (prepVM V) (some latest) = some l := by
    have := (dmem_iff_dget oveq (prepVM V) (some latest)).mp hlmm
    cases hq : dget oveq (prepVM V) (some latest) with
    | some l => exact ⟨l, rfl⟩
    | none => rw [hq] at this; simp at this
  obtain ⟨hlmaxk, vmax, hvmax, hveqmax⟩ := prepVM_label_parses V latest lmax hlg
  have hlab : dgetD oveq (prepVM V) (some latest) "" = lmax := by
    simp [dgetD, hlg]
  have hmax : ∀ l v, dmem seq V l = true → string2version l = some v → vle v vmax := by
    intro l v hm hp
    obtain ⟨w, hw, hweq⟩ := prepSorted_covers V l v (dmem_mem_dkeys V l hm) hp
    have h1 : vle w latest :=
      sorted_getLast?_max (prepSorted V) latest (prepSorted_sorted V) hgl w hw
    unfold vle at h1 ⊢
    rw [← veq_iff.mp hweq, veq_iff.mp hveqmax]
    exact h1
  refine ⟨lmax, vmax, mem_dkeys_dmem seq V lmax seq_refl hlmaxk, hvmax, hmax, ?_, ?_, ?_⟩
  · rw [hlatval, hlab]
  · -- a non-prerelease parseable label exists: the stable filter is non-empty
    rintro ⟨ls, vs, hlsm, hlsp, hlsnp⟩
    obtain ⟨ws, hws, hwseq⟩ := prepSorted_covers V ls vs (dmem_mem_dkeys V ls hlsm) hlsp
    have hwsP : (!(isPrerelease ws || isDevrelease ws)) = true := by
      obtain ⟨e1, e2⟩ := veq_release_status hwseq
      rw [e1, e2]
      simpa using hlsnp
    have hwsf : ws ∈ (prepSorted V).filter fun k => !(isPrerelease k || isDevrelease k) :=
      List.mem_filter.mpr ⟨hws, hwsP⟩
    have hfne : ((prepSorted V).filter fun k => !(isPrerelease k || isDevrelease k)) ≠ [] := by
      intro h
      rw [h] at hwsf
      exact List.not_mem_nil ws hwsf
    obtain ⟨sv, hsv⟩ : ∃ m, ((prepSorted V).filter fun k =>
        !(isPrerelease k || isDevrelease k)).getLast? = some m := by
      cases hq : ((prepSorted V).filter fun k =>
          !(isPrerelease k || isDevrelease k)).getLast? with
      | some m => exact ⟨m, rfl⟩
      | none => exact absurd (List.getLast?_eq_none_iff.mp hq) hfne
    have hsvd : ((prepSorted V).filter fun k =>
        !(isPrerelease k || isDevrelease k)).getLastD latest = sv := by
      rw [List.getLastD_eq_getLast?, hsv]
      rfl
    have hsvmem : sv ∈ (prepSorted V).filter fun k =>
        !(isPrerelease k || isDevrelease k) := List.mem_of_mem_getLast? hsv
    have hsvsorted : sv ∈ prepSorted V := (List.mem_filter.mp hsvmem).1
    have hsvP : (!(isPrerelease sv || isDevrelease sv)) = true :=
      (List.mem_filter.mp hsvmem).2
    have hsvmm : dmem oveq (prepVM V) (some sv) = true := by
      apply mem_dkeys_dmem oveq _ _ oveq_refl
      unfold prepSorted at hsvsorted
      rw [(List.perm_insertionSort vle _).mem_iff] at hsvsorted
      obtain ⟨a, ha, hid⟩ := List.mem_filterMap.mp hsvsorted
      rw [show a = some sv from hid] at ha
      exact ha
    obtain ⟨lst, hstg⟩ : ∃ l, dget oveq (prepVM V) (some sv) = some l := by
      have := (dmem_iff_dget oveq (prepVM V) (some sv)).mp hsvmm
      cases hq : dget oveq (prepVM V) (some sv) with
      | some l => exact ⟨l, rfl⟩
      | none => rw [hq] at this; simp at this
    obtain ⟨hlstk, vst, hvst, hveqst⟩ := prepVM_label_parses V sv lst hstg
    have hstlab : dgetD oveq (prepVM V) (some sv) "" = lst := by
      simp [dgetD, hstg]
    have hvstP : (isPrerelease vst || isDevrelease vst) = false := by
      obtain ⟨e1, e2⟩ := veq_release_status hveqst
      rw [e1, e2]
      simpa using hsvP
    refine ⟨lst, vst, mem_dkeys_dmem seq V lst seq_refl hlstk, hvst, hvstP, ?_, ?_⟩
    · intro l v hm hp hnp
      obtain ⟨w, hw, hweq⟩ := prepSorted_covers V l v (dmem_mem_dkeys V l hm) hp
      have hwP : (!(isPrerelease w || isDevrelease w)) = true := by
        obtain ⟨e1, e2⟩ := veq_release_status hweq
        rw [e1, e2]
        simpa using hnp
      have hwf : w ∈ (prepSorted V).filter fun k =>
          !(isPrerelease k || isDevrelease k) := List.mem_filter.mpr ⟨hw, hwP⟩
      have h1 : vle w sv :=
        sorted_getLast?_max _ sv ((prepSorted_sorted V).filter _) hsv w hwf
      unfold vle at h1 ⊢
      rw [← veq_iff.mp hweq, veq_iff.mp hveqst]
      exact h1
    · rw [hstabval, hsvd, hstlab]
  · -- no non-prerelease label: the filter is empty, stable falls back to
    -- the maximal-version label
    intro hno
    have hfe : ((prepSorted V).filter fun k =>
        !(isPrerelease k || isDevrelease k)) = [] := by
      by_contra hfne
      obtain ⟨w, hwmem⟩ := List.exists_mem_of_ne_nil _ hfne
      have hwsorted : w ∈ prepSorted V := (List.mem_filter.mp hwmem).1
      have hwP : (!(isPrerelease w || isDevrelease w)) = true :=
        (List.mem_filter.mp hwmem).2
      obtain ⟨l, hlk, u, hu, hueq⟩ := prepSorted_mem V w hwsorted
      refine hno ⟨l, u, mem_dkeys_dmem seq V l seq_refl hlk, hu, ?_⟩
      obtain ⟨e1, e2⟩ := veq_release_status hueq
      rw [e1, e2]
      simpa using hwP
    rw [hstabval, hfe]
    simp only [List.getLastD]
    rw [hlab]

/-- The amended C1 theorem evaluated on `{"latest": "L", "1.0": "A"}`: the
existing `latest` entry wins. -/
theorem C1_prepare_latest_stable_amended_witness :
    dmem seq [("latest", "L"), ("1.0", "A")] "1.0" = true ∧
    string2version "1.0" = some ⟨0, [1, 0], none, none, none, none⟩ ∧
    dget seq (prepare_versions [("latest", "L"), ("1.0", "A")]) "latest"
      = some "L" := by
  refine ⟨rfl, rfl, ?_⟩
  obtain ⟨lmax, vmax, hm, hp, hmax, hlat, _, _⟩ :=
    C1_prepare_latest_stable_amended [("latest", "L"), ("1.0", "A")] "1.0"
      ⟨0, [1, 0], none, none, none, none⟩ rfl rfl
  rw [hlat]
  rfl

/-! ## Per-label behaviour of `_prepare_versions` (claim C3) -/

/-- The key list of the fold only grows. -/
theorem buildMap_dkeys_mono {κ : Type} (eqk : κ → κ → Bool) (f : String → Option κ) :
    ∀ (ks : List String) (acc : List (κ × String)) (key : κ),
    key ∈ dkeys acc →
    key ∈ dkeys (ks.foldl (fun acc k =>
      match f k with
      | some key => dset eqk acc key k
      | none => acc) acc) := by
  intro ks
  induction ks with
  | nil => intro acc key h; exact h
  | cons k0 ks ih =>
    intro acc key h
    rw [List.foldl_cons]
    apply ih
    match hf : f k0 with
    | none => exact h
    | some key0 =>
      rw [dkeys_dset]
      by_cases hm : dmem eqk acc key0
      · rw [if_pos hm]; exact h
      · rw [if_neg hm]; exact List.mem_append_left _ h

/-- Key provenance: every key of the version map is the parse of some input
key. -/
theorem buildMap_keys {κ : Type} (eqk : κ → κ → Bool) (f : String → Option κ) :
    ∀ (ks : List String) (acc : List (κ × String)) (key : κ),
    key ∈ dkeys (ks.foldl (fun acc k =>
      match f k with
      | some key => dset eqk acc key k
      | none => acc) acc) →
    key ∈ dkeys acc ∨ ∃ l ∈ ks, f l = some key := by
  intro ks
  induction ks with
  | nil => intro acc key h; exact Or.inl h
  | cons k0 ks ih =>
    intro acc key h
    rw [List.foldl_cons] at h
    rcases ih _ key h with h1 | h1
    · match hf : f k0 with
      | none =>
        rw [hf] at h1
        exact Or.inl h1
      | some key0 =>
        rw [hf] at h1
        rw [dkeys_dset] at h1
        by_cases hm : dmem eqk acc key0
        · rw [if_pos hm] at h1
          exact Or.inl h1
        · rw [if_neg hm] at h1
          rcases List.mem_append.mp h1 with h2 | h2
          · exact Or.inl h2
          · simp only [List.mem_singleton] at h2
            exact Or.inr ⟨k0, by simp, h2 ▸ hf⟩
    · obtain ⟨l, hl, hfl⟩ := h1
      exact Or.inr ⟨l, by simp [hl], hfl⟩

/-- When every input key of the same class parses to exactly `key`, the
class's dictionary key is `key` itself. -/
theorem buildMap_keys_mem {κ : Type} (eqk : κ → κ → Bool) (f : String → Option κ)
    (hrefl : ∀ a, eqk a a = true) :
    ∀ (ks : List String) (acc : List (κ × String)) (l : String) (key : κ),
    l ∈ ks → f l = some key →
    (∀ key' ∈ dkeys acc, eqk key' key = false) →
    (∀ l' ∈ ks, ∀ key', f l' = some key' → eqk key' key = true → key' = key) →
    key ∈ dkeys (ks.foldl (fun acc k =>
      match f k with
      | some key => dset eqk acc key k
      | none => acc) acc) := by
  intro ks
  induction ks with
  | nil => intro acc l key h; simp at h
  | cons k0 ks ih =>
    intro acc l key hl hf hdisj hcls
    rw [List.foldl_cons]
    have haccfresh : dmem eqk acc key = false := by
      cases hm : dmem eqk acc key with
      | false => rfl
      | true =>
        unfold dmem at hm
        simp only [List.any_eq_true] at hm
        obtain ⟨pr, hpr, he⟩ := hm
        have := hdisj pr.fst (List.mem_map.mpr ⟨pr, hpr, rfl⟩)
        rw [this] at he
        exact absurd he (by simp)
    rcases List.mem_cons.mp hl with rfl | hl'
    · rw [hf]
      apply buildMap_dkeys_mono
      rw [dkeys_dset, if_neg (by simp [haccfresh])]
      exact List.mem_append_right _ (by simp)
    · have hcls' : ∀ l' ∈ ks, ∀ key', f l' = some key' → eqk key' key = true →
          key' = key := fun l' hml' => hcls l' (by simp [hml'])
      match hf0 : f k0 with
      | none => exact ih acc l key hl' hf hdisj hcls'
      | some key0 =>
        by_cases hek : eqk key0 key = true
        · have : key0 = key := hcls k0 (by simp) key0 hf0 hek
          subst this
          apply buildMap_dkeys_mono
          rw [dkeys_dset, if_neg (by simp [haccfresh])]
          exact List.mem_append_right _ (by simp)
        · apply ih _ l key hl' hf ?_ hcls'
          intro key' hkey'
          rw [dkeys_dset] at hkey'
          by_cases hm : dmem eqk acc key0
          · rw [if_pos hm] at hkey'
            exact hdisj key' hkey'
          · rw [if_neg hm] at hkey'
            rcases List.mem_append.mp hkey' with h2 | h2
            · exact hdisj key' h2
            · simp only [List.mem_singleton] at h2
              subst h2
              exact Bool.eq_false_iff.mpr hek

/-- Distinct elements of `sorted_versions` are in distinct `veq` classes. -/
theorem prepSorted_pairwise (V : VMap) :
    (prepSorted V).Pairwise fun a b => veq a b = false := by
  have h1 : (dkeys (prepVM V)).Pairwise (fun a b => oveq a b = false) := prepVM_WF V
  have h2 : ((dkeys (prepVM V)).filterMap id).Pairwise
      (fun a b : PyVersion => veq a b = false) := by
    refine List.Pairwise.filterMap id ?_ h1
    intro a a' hr b hb b' hb'
    simp only [id, Option.mem_def] at hb hb'
    subst hb
    subst hb'
    exact hr
  have hsym : ∀ {x y : PyVersion}, veq x y = false → veq y x = false := by
    intro x y h
    cases hq : veq y x with
    | false => rfl
    | true => rw [veq_symm hq] at h; exact absurd h (by simp)
  exact ((List.perm_insertionSort vle _).pairwise_iff hsym).mpr h2

/-- Every element of `sorted_versions` is literally the parse of some input
key. -/
theorem prepSorted_key_provenance (V : VMap) (x : PyVersion)
    (hx : x ∈ prepSorted V) : ∃ l ∈ dkeys V, string2version l = some x := by
  unfold prepSorted at hx
  rw [(List.perm_insertionSort vle _).mem_iff] at hx
  obtain ⟨a, ha, hid⟩ := List.mem_filterMap.mp hx
  rw [show a = some x from hid] at ha
  have := buildMap_keys oveq (fun k => some (string2version k)) (dkeys V) [] (some x) ha
  rcases this with h1 | h1
  · simp [dkeys] at h1
  · obtain ⟨l, hl, hfl⟩ := h1
    exact ⟨l, hl, Option.some.inj hfl⟩

/-- A label whose `veq` class contains no other input label contributes its
own parse as a `sorted_versions` element. -/
theorem prepSorted_mem_exact (V : VMap) (l : String) (v : PyVersion)
    (hl : l ∈ dkeys V) (hp : string2version l = some v)
    (hsing : ∀ l' v', dmem seq V l' = true → string2version l' = some v' →
      veq v' v = true → l' = l) :
    v ∈ prepSorted V := by
  have hkey : (some v : Option PyVersion) ∈ dkeys (prepVM V) := by
    apply buildMap_keys_mem oveq (fun k => some (string2version k)) oveq_refl
      (dkeys V) [] l (some v) hl (by simp [hp]) (by simp [dkeys])
    intro l' hml' key' hfl' hek
    have hkey' : key' = string2version l' := (Option.some.inj hfl').symm
    rw [hkey'] at hek ⊢
    obtain ⟨u, hu, huv⟩ := oveq_some_iff.mp hek
    have : l' = l := hsing l' u (mem_dkeys_dmem seq V l' seq_refl hml') hu huv
    rw [this, hp]
  unfold prepSorted
  rw [(List.perm_insertionSort vle _).mem_iff]
  exact List.mem_filterMap.mpr ⟨some v, hkey, rfl⟩

/-- The loop step writes the looked-up label's entry. -/
theorem prepStep_sets (V : VMap) (vm : List (Option PyVersion × String))
    (acc : VMap) (k : PyVersion) (l : String)
    (hlab : dgetD oveq vm (some k) "" = l) :
    dget seq (prepStep V vm acc k) l = some (dgetD seq V l "") := by
  unfold prepStep
  simp only [hlab]
  by_cases hdx : hasDotX l.data
  · rw [if_pos hdx]
    by_cases hsynl : (⟨replaceDotX l.data⟩ : String) = l
    · rw [hsynl]
      exact dget_dset_self seq _ l _ (seq_refl l)
    · rw [dget_dset_ne_seq _ _ _ _ (fun h => hsynl h.symm)]
      exact dget_dset_self seq _ l _ (seq_refl l)
  · rw [if_neg hdx]
    by_cases hpub : publicStr k ≠ l
    · rw [if_pos hpub]
      rw [dget_dset_ne_seq _ _ _ _ (fun h => hpub h.symm)]
      exact dget_dset_self seq _ l _ (seq_refl l)
    · rw [if_neg hpub]
      exact dget_dset_self seq _ l _ (seq_refl l)

/-- The loop step never removes a key. -/
theorem prepStep_dmem_mono (V : VMap) (vm : List (Option PyVersion × String))
    (acc : VMap) (k : PyVersion) (key : String)
    (h : dmem seq acc key = true) :
    dmem seq (prepStep V vm acc k) key = true := by
  unfold prepStep
  by_cases hdx : hasDotX (dgetD oveq vm (some k) "").data
  · rw [if_pos hdx]
    exact dmem_dset_mono seq _ _ _ _ (dmem_dset_mono seq _ _ _ _ h)
  · rw [if_neg hdx]
    by_cases hpub : publicStr k ≠ dgetD oveq vm (some k) ""
    · rw [if_pos hpub]
      exact dmem_dset_mono seq _ _ _ _ (dmem_dset_mono seq _ _ _ _ h)
    · rw [if_neg hpub]
      exact dmem_dset_mono seq _ _ _ _ h

/-- The fill-in fold never removes a key. -/
theorem prepFold_dmem_mono (V : VMap) (vm : List (Option PyVersion × String)) :
    ∀ (xs : List PyVersion) (acc : VMap) (key : String),
    dmem seq acc key = true →
    dmem seq (xs.foldl (prepStep V vm) acc) key = true := by
  intro xs
  induction xs with
  | nil => intro acc key h; exact h
  | cons x xs ih =>
    intro acc key h
    rw [List.foldl_cons]
    exact ih _ key (prepStep_dmem_mono V vm acc x key h)

/-- The loop step for a class different from `v` leaves the entry of a
label `l` of class `v` untouched (under the no-collision hypotheses of the
amended C3). -/
theorem prepStep_preserve_at (V : VMap) (l : String) (v : PyVersion)
    (hp : string2version l = some v)
    (hsyn : ∀ l' v', dmem seq V l' = true → string2version l' = some v' → l' ≠ l →
      publicStr v' ≠ l ∧ (⟨replaceDotX l'.data⟩ : String) ≠ l)
    (x : PyVersion) (hx : x ∈ prepSorted V) (hxv : veq x v = false)
    (acc : VMap) :
    dget seq (prepStep V (prepVM V) acc x) l = dget seq acc l := by
  obtain ⟨l0, hl0, hpl0⟩ := prepSorted_key_provenance V x hx
  have hl0ne : l0 ≠ l := by
    intro he
    rw [he, hp] at hpl0
    have : x = v := (Option.some.inj hpl0).symm
    rw [this, veq_refl] at hxv
    exact absurd hxv (by simp)
  have hpubx : publicStr x ≠ l :=
    (hsyn l0 x (mem_dkeys_dmem seq V l0 seq_refl hl0) hpl0 hl0ne).1
  unfold prepStep
  cases hlk : dget oveq (prepVM V) (some x) with
  | none =>
    have hlabel : dgetD oveq (prepVM V) (some x) "" = "" := by simp [dgetD, hlk]
    simp only [hlabel]
    have hemp : l ≠ "" := by
      intro he
      rw [he] at hp
      exact Option.noConfusion ((rfl : string2version "" = none) ▸ hp)
    have hdx : hasDotX ("" : String).data = false := rfl
    rw [hdx]
    simp only [Bool.false_eq_true, if_false]
    by_cases hpub : publicStr x ≠ ""
    · rw [if_pos hpub, dget_dset_ne_seq _ _ _ _ (fun h => hpubx h.symm),
        dget_dset_ne_seq _ _ _ _ hemp]
    · rw [if_neg hpub, dget_dset_ne_seq _ _ _ _ hemp]
  | some lab =>
    have hlabel : dgetD oveq (prepVM V) (some x) "" = lab := by simp [dgetD, hlk]
    simp only [hlabel]
    obtain ⟨hlabk, w, hw, hweq⟩ := prepVM_label_parses V x lab hlk
    have hlabne : lab ≠ l := by
      intro he
      rw [he, hp] at hw
      have hwv : w = v := (Option.some.inj hw).symm
      rw [hwv] at hweq
      have : veq x v = true := veq_symm hweq
      rw [this] at hxv
      exact absurd hxv (by simp)
    obtain ⟨hpubW, hrepl⟩ :=
      hsyn lab w (mem_dkeys_dmem seq V lab seq_refl hlabk) hw hlabne
    by_cases hdx : hasDotX lab.data
    · rw [if_pos hdx, dget_dset_ne_seq _ _ _ _ (fun h => hrepl h.symm),
        dget_dset_ne_seq _ _ _ _ (fun h => hlabne h.symm)]
    · rw [if_neg hdx]
      by_cases hpub : publicStr x ≠ lab
      · rw [if_pos hpub, dget_dset_ne_seq _ _ _ _ (fun h => hpubx h.symm),
          dget_dset_ne_seq _ _ _ _ (fun h => hlabne h.symm)]
      · rw [if_neg hpub, dget_dset_ne_seq _ _ _ _ (fun h => hlabne h.symm)]

/-- A class of `sorted_versions` always looks up successfully. -/
theorem prepSorted_lookup (V : VMap) (x : PyVersion) (hx : x ∈ prepSorted V) :
    ∃ lab, dget oveq (prepVM V) (some x) = some lab := by
  have hdm : dmem oveq (prepVM V) (some x) = true := by
    apply mem_dkeys_dmem oveq _ _ oveq_refl
    unfold prepSorted at hx
    rw [(List.perm_insertionSort vle _).mem_iff] at hx
    obtain ⟨a, ha, hid⟩ := List.mem_filterMap.mp hx
    rw [show a = some x from hid] at ha
    exact ha
  have hsome := (dmem_iff_dget oveq (prepVM V) (some x)).mp hdm
  cases hq : dget oveq (prepVM V) (some x) with
  | some lab => exact ⟨lab, rfl⟩
  | none => rw [hq] at hsome; simp at hsome

/-- The loop step writes the `.x`-stripped synonym with the label's URL. -/
theorem prepStep_sets_dotx (V : VMap) (vm : List (Option PyVersion × String))
    (acc : VMap) (k : PyVersion) (l : String)
    (hlab : dgetD oveq vm (some k) "" = l) (hdx : hasDotX l.data = true) :
    dget seq (prepStep V vm acc k) (⟨replaceDotX l.data⟩ : String)
      = some (dgetD seq V l "") := by
  unfold prepStep
  simp only [hlab]
  rw [if_pos hdx]
  exact dget_dset_self seq _ _ _ (seq_refl _)

/-- The loop step writes the canonical synonym with the label's URL. -/
theorem prepStep_sets_pub (V : VMap) (vm : List (Option PyVersion × String))
    (acc : VMap) (k : PyVersion) (l : String)
    (hlab : dgetD oveq vm (some k) "" = l) (hdx : hasDotX l.data = false)
    (hpub : publicStr k ≠ l) :
    dget seq (prepStep V vm acc k) (publicStr k) = some (dgetD seq V l "") := by
  unfold prepStep
  simp only [hlab]
  rw [if_neg (by simp [hdx]), if_pos hpub]
  exact dget_dset_self seq _ _ _ (seq_refl _)

/-- The loop step for a class different from `v` leaves a synonym key of
`l` untouched, provided no other label, canonical form or stripped form
collides with that key. -/
theorem prepStep_preserve_syn (V : VMap) (l : String) (v : PyVersion) (S : String)
    (hp : string2version l = some v)
    (hS : ∀ l' v', dmem seq V l' = true → string2version l' = some v' → l' ≠ l →
      l' ≠ S ∧ publicStr v' ≠ S ∧ (⟨replaceDotX l'.data⟩ : String) ≠ S)
    (x : PyVersion) (hx : x ∈ prepSorted V) (hxv : veq x v = false) (acc : VMap) :
    dget seq (prepStep V (prepVM V) acc x) S = dget seq acc S := by
  obtain ⟨l0, hl0, hpl0⟩ := prepSorted_key_provenance V x hx
  have hl0ne : l0 ≠ l := by
    intro he
    rw [he, hp] at hpl0
    have hxv2 : x = v := (Option.some.inj hpl0).symm
    rw [hxv2, veq_refl] at hxv
    exact absurd hxv (by simp)
  have hpubx : publicStr x ≠ S :=
    (hS l0 x (mem_dkeys_dmem seq V l0 seq_refl hl0) hpl0 hl0ne).2.1
  obtain ⟨lab, hlk⟩ := prepSorted_lookup V x hx
  have hlabel : dgetD oveq (prepVM V) (some x) "" = lab := by simp [dgetD, hlk]
  obtain ⟨hlabk, w, hw, hweq⟩ := prepVM_label_parses V x lab hlk
  have hlabne : lab ≠ l := by
    intro he
    rw [he, hp] at hw
    have hwv : w = v := (Option.some.inj hw).symm
    rw [hwv] at hweq
    have hxv2 : veq x v = true := veq_symm hweq
    rw [hxv2] at hxv
    exact absurd hxv (by simp)
  obtain ⟨hlabS, hpubW, hreplS⟩ :=
    hS lab w (mem_dkeys_dmem seq V lab seq_refl hlabk) hw hlabne
  unfold prepStep
  simp only [hlabel]
  by_cases hdx : hasDotX lab.data
  · rw [if_pos hdx, dget_dset_ne_seq _ _ _ _ (fun h => hreplS h.symm),
      dget_dset_ne_seq _ _ _ _ (fun h => hlabS h.symm)]
  · rw [if_neg hdx]
    by_cases hpub : publicStr x ≠ lab
    · rw [if_pos hpub, dget_dset_ne_seq _ _ _ _ (fun h => hpubx h.symm),
        dget_dset_ne_seq _ _ _ _ (fun h => hlabS h.symm)]
    · rw [if_neg hpub, dget_dset_ne_seq _ _ _ _ (fun h => hlabS h.symm)]

/-- `_prepare_versions` when no label parses: only the alias fallbacks
(definitional characterisation). -/
theorem prepare_versions_eq_none (V : VMap) (hne : ¬ V = [])
    (hgl : (prepSorted V).getLast? = none) :
    prepare_versions V =
      dset seq (dset seq [] "latest"
        (pyOr (dget seq V "latest") (pyOr (dget seq V "stable")
          (pyOr (dget seq V "master") (pyOr (dget seq V "main") "")))))
        "stable"
        (pyOr (dget seq V "stable") (pyOr (dget seq V "latest")
          (pyOr (dget seq V "master") (pyOr (dget seq V "main") "")))) := by
  unfold prepSorted prepVM at hgl
  unfold prepare_versions
  rw [if_neg hne]
  simp only [hgl]

/-- C3 (amended): the expansion always contains `latest` and `stable`; a
parseable label whose `veq` class contains no other input label, and onto
whose name and synonym keys no other label, canonical form or `.x`-stripped
form collides, keeps its original entry; its `.x`-stripped synonym (when
the label contains `.x`) or canonical synonym (when the canonical spelling
differs) is registered with the same URL as the label.  Unparseable labels
other than the aliases, and non-last labels of a shared class, are dropped
(see the counterexample). -/
theorem C3_prepare_amended (V : VMap) (hne : ¬ V = []) :
    dmem seq (prepare_versions V) "latest" = true ∧
    dmem seq (prepare_versions V) "stable" = true ∧
    (∀ l v, dmem seq V l = true → string2version l = some v →
      (∀ l' v', dmem seq V l' = true → string2version l' = some v' →
        veq v' v = true → l' = l) →
      (∀ l' v', dmem seq V l' = true → string2version l' = some v' → l' ≠ l →
        (publicStr v' ≠ l ∧ (⟨replaceDotX l'.data⟩ : String) ≠ l) ∧
        ∀ S, S = (⟨replaceDotX l.data⟩ : String) ∨ S = publicStr v →
          l' ≠ S ∧ publicStr v' ≠ S ∧ (⟨replaceDotX l'.data⟩ : String) ≠ S) →
      dget seq (prepare_versions V) l = dget seq V l ∧
      (hasDotX l.data = true →
        dget seq (prepare_versions V) (⟨replaceDotX l.data⟩ : String)
          = dget seq V l) ∧
      (hasDotX l.data = false → publicStr v ≠ l →
        dget seq (prepare_versions V) (publicStr v) = dget seq V l)) := by
  have hmemLatest : dmem seq (prepare_versions V) "latest" = true := by
    cases hgl : (prepSorted V).getLast? with
    | some latest =>
      obtain ⟨h1, _⟩ := prepare_alias_value V hne latest hgl
      rw [dmem_iff_dget, h1]
      rfl
    | none =>
      rw [prepare_versions_eq_none V hne hgl]
      exact dmem_dset_mono seq _ _ _ _ (dmem_dset_self seq _ _ _ seq_refl)
  have hmemStable : dmem seq (prepare_versions V) "stable" = true := by
    cases hgl : (prepSorted V).getLast? with
    | some latest =>
      obtain ⟨_, h2⟩ := prepare_alias_value V hne latest hgl
      rw [dmem_iff_dget, h2]
      rfl
    | none =>
      rw [prepare_versions_eq_none V hne hgl]
      exact dmem_dset_self seq _ _ _ seq_refl
  refine ⟨hmemLatest, hmemStable, ?_⟩
  intro l v hm hp hsing hsyn
  have hsynL : ∀ l' v', dmem seq V l' = true → string2version l' = some v' →
      l' ≠ l → publicStr v' ≠ l ∧ (⟨replaceDotX l'.data⟩ : String) ≠ l :=
    fun l' v' h1 h2 h3 => (hsyn l' v' h1 h2 h3).1
  have hlk : l ∈ dkeys V := dmem_mem_dkeys V l hm
  have hvmem : v ∈ prepSorted V := prepSorted_mem_exact V l v hlk hp hsing
  have hsne : prepSorted V ≠ [] := by
    intro h
    rw [h] at hvmem
    exact List.not_mem_nil v hvmem
  obtain ⟨latest, hgl⟩ : ∃ m, (prepSorted V).getLast? = some m := by
    cases hq : (prepSorted V).getLast? with
    | some m => exact ⟨m, rfl⟩
    | none => exact absurd (List.getLast?_eq_none_iff.mp hq) hsne
  have hPE := prepare_versions_eq_some V hne latest hgl
  have hlabv : dget oveq (prepVM V) (some v) = some l := by
    have hdm : dmem oveq (prepVM V) (some v) = true := by
      have h0 := prepVM_mem V l hlk
      rw [hp] at h0
      exact h0
    obtain ⟨lab, hlab⟩ : ∃ lab, dget oveq (prepVM V) (some v) = some lab := by
      have := (dmem_iff_dget oveq (prepVM V) (some v)).mp hdm
      cases hq : dget oveq (prepVM V) (some v) with
      | some lab => exact ⟨lab, rfl⟩
      | none => rw [hq] at this; simp at this
    obtain ⟨hlabk, w, hw, hweq⟩ := prepVM_label_parses V v lab hlab
    have : lab = l := hsing lab w (mem_dkeys_dmem seq V lab seq_refl hlabk) hw hweq
    rw [← this]
    exact hlab
  have hlabD : dgetD oveq (prepVM V) (some v) "" = l := by simp [dgetD, hlabv]
  have hvrev : v ∈ (prepSorted V).reverse := List.mem_reverse.mpr hvmem
  obtain ⟨A, B, hAB⟩ := List.append_of_mem hvrev
  have hsymF : ∀ {a b : PyVersion}, veq a b = false → veq b a = false := by
    intro a b h
    cases hq : veq b a with
    | false => rfl
    | true => rw [veq_symm hq] at h; exact absurd h (by simp)
  have hpw : ((prepSorted V).reverse).Pairwise (fun a b => veq a b = false) := by
    rw [List.pairwise_reverse]
    exact (prepSorted_pairwise V).imp fun h => hsymF h
  have hBne : ∀ x ∈ B, veq x v = false := by
    rw [hAB] at hpw
    have h1 := (List.pairwise_append.mp hpw).2.1
    have h2 := (List.pairwise_cons.mp h1).1
    intro x hx
    exact hsymF (h2 x hx)
  have hBmem : ∀ x ∈ B, x ∈ prepSorted V := by
    intro x hx
    apply List.mem_reverse.mp
    rw [hAB]
    exact List.mem_append_right _ (List.mem_cons_of_mem _ hx)
  have hurl : ∀ R0 : VMap,
      dget seq ((prepSorted V).reverse.foldl (prepStep V (prepVM V)) R0) l
        = some (dgetD seq V l "") := by
    intro R0
    rw [hAB, List.foldl_append, List.foldl_cons]
    rw [foldl_dget_preserve (prepStep V (prepVM V)) l B
      (fun acc x hx => prepStep_preserve_at V l v hp hsynL x (hBmem x hx)
        (hBne x hx) acc)]
    exact prepStep_sets V (prepVM V) (A.foldl (prepStep V (prepVM V)) R0) v l hlabD
  obtain ⟨u, hu⟩ : ∃ u, dget seq V l = some u := by
    have := (dmem_iff_dget seq V l).mp hm
    cases hq : dget seq V l with
    | some u => exact ⟨u, rfl⟩
    | none => rw [hq] at this; simp at this
  refine ⟨?_, ?_, ?_⟩
  · rw [hPE, hurl, hu]
    simp [dgetD, hu]
  · intro hdx
    have hS : ∀ l' v', dmem seq V l' = true → string2version l' = some v' →
        l' ≠ l → l' ≠ (⟨replaceDotX l.data⟩ : String) ∧
          publicStr v' ≠ (⟨replaceDotX l.data⟩ : String) ∧
          (⟨replaceDotX l'.data⟩ : String) ≠ (⟨replaceDotX l.data⟩ : String) :=
      fun l' v' h1 h2 h3 => (hsyn l' v' h1 h2 h3).2 _ (Or.inl rfl)
    rw [hPE, hAB, List.foldl_append, List.foldl_cons]
    rw [foldl_dget_preserve (prepStep V (prepVM V)) (⟨replaceDotX l.data⟩ : String)
      B (fun acc x hx => prepStep_preserve_syn V l v _ hp hS x (hBmem x hx)
        (hBne x hx) acc)]
    rw [prepStep_sets_dotx V (prepVM V) _ v l hlabD hdx, hu]
    simp [dgetD, hu]
  · intro hdx hpubne
    have hS : ∀ l' v', dmem seq V l' = true → string2version l' = some v' →
        l' ≠ l → l' ≠ publicStr v ∧ publicStr v' ≠ publicStr v ∧
          (⟨replaceDotX l'.data⟩ : String) ≠ publicStr v :=
      fun l' v' h1 h2 h3 => (hsyn l' v' h1 h2 h3).2 _ (Or.inr rfl)
    rw [hPE, hAB, List.foldl_append, List.foldl_cons]
    rw [foldl_dget_preserve (prepStep V (prepVM V)) (publicStr v) B
      (fun acc x hx => prepStep_preserve_syn V l v _ hp hS x (hBmem x hx)
        (hBne x hx) acc)]
    rw [prepStep_sets_pub V (prepVM V) _ v l hlabD hdx hpubne, hu]
    simp [dgetD, hu]

/-- The amended C3 theorem evaluated on `{"v1.0": "A"}`: the label keeps its
entry and the canonical synonym `1.0` is registered with the same URL. -/
theorem C3_prepare_amended_witness :
    ¬ ([("v1.0", "A")] : VMap) = [] ∧
    dget seq (prepare_versions [("v1.0", "A")]) "v1.0"
      = dget seq [("v1.0", "A")] "v1.0" ∧
    dget seq (prepare_versions [("v1.0", "A")]) "1.0"
      = dget seq [("v1.0", "A")] "v1.0" := by
  have h := C3_prepare_amended [("v1.0", "A")] (by simp)
  have h4 := h.2.2 "v1.0" ⟨0, [1, 0], none, none, none, none⟩ rfl rfl
    (by
      intro l' v' hm _ _
      unfold dmem at hm
      simp [seq] at hm
      exact hm.symm)
    (by
      intro l' v' hm _ hneq
      exfalso
      unfold dmem at hm
      simp [seq] at hm
      exact hneq hm.symm)
  exact ⟨by simp, h4.1, h4.2.2 rfl (by decide)⟩

/-! ## `_reorder_versions` (claim C5) -/

/-- Folds with pointwise-equal step functions agree. -/
theorem foldl_congr_fun {α β : Type} (f g : α → β → α) (h : ∀ a b, f a b = g a b) :
    ∀ (l : List β) (a : α), l.foldl f a = l.foldl g a := by
  intro l
  induction l with
  | nil => intro a; rfl
  | cons x l ih =>
    intro a
    rw [List.foldl_cons, List.foldl_cons, h, ih]

/-- `_reorder_versions` as the explicit three phases (definitional
characterisation). -/
theorem reorder_versions_eq (V : VMap) :
    reorder_versions V =
      dupdate seq
        ((reordSorted V).foldl (reordStep V (reordVM V)) (protFold V))
        (V.filter fun p => !(dmem seq
          ((reordSorted V).foldl (reordStep V (reordVM V)) (protFold V)) p.fst)) := rfl

/-- The reorder version-map fold in `buildMap` form. -/
theorem reordVM_eq_buildMap (V : VMap) :
    reordVM V = buildMap veq reordParse (dkeys V) := by
  unfold reordVM buildMap reordParse
  apply foldl_congr_fun
  intro acc k
  by_cases hp : k ∈ PROTECTED
  · simp [hp]
  · simp [hp]
    cases pep440Parse k <;> rfl

theorem reordVM_entries (V : VMap) (pr : PyVersion × String) (h : pr ∈ reordVM V) :
    pr.snd ∈ dkeys V ∧ PROTECTED.contains pr.snd = false ∧
    ∃ w, pep440Parse pr.snd = some w ∧ veq w pr.fst = true := by
  rw [reordVM_eq_buildMap] at h
  have hb := buildMap_entries veq reordParse veq_refl
    (fun a b => veq_symm) (dkeys V) [] pr h
  rcases hb with h1 | h1
  · simp at h1
  · obtain ⟨hmem, key, hkey, heq⟩ := h1
    unfold reordParse at hkey
    cases hc : PROTECTED.contains pr.snd with
    | true =>
      rw [hc] at hkey
      simp at hkey
    | false =>
      rw [hc] at hkey
      simp only [Bool.false_eq_true, if_false] at hkey
      exact ⟨hmem, rfl, key, hkey, heq⟩

theorem reordVM_mem (V : VMap) (l : String) (v : PyVersion) (hl : l ∈ dkeys V)
    (hprot : PROTECTED.contains l = false) (hp : pep440Parse l = some v) :
    dmem veq (reordVM V) v = true := by
  rw [reordVM_eq_buildMap]
  refine buildMap_mem veq reordParse veq_refl (dkeys V) [] l v hl ?_
  unfold reordParse
  rw [hprot]
  simpa using hp

theorem reordVM_WF (V : VMap) : DictWF veq (reordVM V) := by
  rw [reordVM_eq_buildMap]
  exact buildMap_WF veq reordParse (dkeys V) [] List.Pairwise.nil

theorem reordSorted_mem_iff (V : VMap) (w : PyVersion) :
    w ∈ reordSorted V ↔ w ∈ dkeys (reordVM V) := by
  unfold reordSorted
  rw [List.mem_reverse, (List.perm_insertionSort vle _).mem_iff]

theorem reordSorted_pairwise (V : VMap) :
    (reordSorted V).Pairwise fun a b => veq a b = false := by
  have hsymF : ∀ {a b : PyVersion}, veq a b = false → veq b a = false := by
    intro a b h
    cases hq : veq b a with
    | false => rfl
    | true => rw [veq_symm hq] at h; exact absurd h (by simp)
  unfold reordSorted
  rw [List.pairwise_reverse]
  refine (((List.perm_insertionSort vle _).pairwise_iff ?_).mpr (reordVM_WF V)).imp ?_
  · intro x y h
    exact hsymF h
  · intro a b h
    exact hsymF h

/-- `sorted(..., reverse=True)` of the distinct classes is strictly
decreasing. -/
theorem reordSorted_desc (V : VMap) :
    (reordSorted V).Pairwise fun a b => vlt b a := by
  have hs : (List.insertionSort vle (dkeys (reordVM V))).Pairwise vle :=
    List.sorted_insertionSort vle _
  have hd : (List.insertionSort vle (dkeys (reordVM V))).Pairwise
      (fun a b => veq a b = false) := by
    refine ((List.perm_insertionSort vle _).pairwise_iff ?_).mpr (reordVM_WF V)
    intro x y h
    cases hq : veq y x with
    | false => rfl
    | true => rw [veq_symm hq] at h; exact absurd h (by simp)
  unfold reordSorted
  rw [List.pairwise_reverse]
  exact (hs.and hd).imp fun h => vlt_of_vle_not_veq h.1 h.2

/-- Looking up a class of `sorted_versions` yields a label of `V` that
parses into that class. -/
theorem reordSorted_label (V : VMap) (ver : PyVersion) (hver : ver ∈ reordSorted V) :
    ∃ lab, dget veq (reordVM V) ver = some lab ∧ lab ∈ dkeys V ∧
      PROTECTED.contains lab = false ∧
      ∃ w, pep440Parse lab = some w ∧ veq w ver = true := by
  have hdm : dmem veq (reordVM V) ver = true :=
    mem_dkeys_dmem veq _ ver veq_refl ((reordSorted_mem_iff V ver).mp hver)
  obtain ⟨lab, hlab⟩ : ∃ lab, dget veq (reordVM V) ver = some lab := by
    have := (dmem_iff_dget veq (reordVM V) ver).mp hdm
    cases hq : dget veq (reordVM V) ver with
    | some lab => exact ⟨lab, rfl⟩
    | none => rw [hq] at this; simp at this
  obtain ⟨pr, hpr, heq, hval⟩ := dget_mem veq (reordVM V) ver lab hlab
  obtain ⟨hmem, hprot, w, hw, hweq⟩ := reordVM_entries V pr hpr
  subst hval
  exact ⟨pr.snd, hlab, hmem, hprot, w, hw, veq_trans hweq heq⟩

/-- Keys never written by the protected fold stay absent. -/
theorem protFold_dget_not_mem (V : VMap) (key : String) (h : ¬ key ∈ PROTECTED) :
    dget seq (protFold V) key = none := by
  unfold protFold
  rw [foldl_dget_preserve _ key PROTECTED ?_ []]
  · rfl
  · intro acc x hx
    by_cases hm : dmem seq V x
    · rw [if_pos hm]
      exact dget_dset_ne_seq _ _ _ _ (fun he => h (by rw [he]; exact hx))
    · rw [if_neg hm]

/-- A protected key present in `V` gets its `V` value. -/
theorem protFold_dget_mem (V : VMap) (key : String) (hkey : key ∈ PROTECTED)
    (hm : dmem seq V key = true) :
    dget seq (protFold V) key = some (dgetD seq V key "") := by
  suffices h : ∀ (ps : List String), ps.Pairwise (fun a b => a ≠ b) → key ∈ ps →
      ∀ acc : VMap, dget seq (ps.foldl (fun acc key =>
        if dmem seq V key then dset seq acc key (dgetD seq V key "") else acc) acc) key
        = some (dgetD seq V key "") by
    exact h PROTECTED (by decide) hkey []
  intro ps
  induction ps with
  | nil => intro _ h; simp at h
  | cons p ps ih =>
    intro hpw hmem acc
    rw [List.foldl_cons]
    rcases List.mem_cons.mp hmem with rfl | hmem'
    · rw [if_pos hm]
      rw [foldl_dget_preserve _ key ps ?_ _]
      · exact dget_dset_self seq acc key _ (seq_refl key)
      · intro acc' x hx
        have hne : key ≠ x := (List.pairwise_cons.mp hpw).1 x hx
        by_cases hmx : dmem seq V x
        · rw [if_pos hmx]
          exact dget_dset_ne_seq _ _ _ _ hne
        · rw [if_neg hmx]
    · exact ih (List.pairwise_cons.mp hpw).2 hmem' _

/-- The protected fold writes exactly the protected keys present in `V`,
in the fixed order. -/
theorem protFold_dkeys (V : VMap) :
    dkeys (protFold V) = PROTECTED.filter fun k => dmem seq V k := by
  suffices h : ∀ (ps : List String), ps.Pairwise (fun a b => a ≠ b) →
      ∀ acc : VMap, (∀ p ∈ ps, dmem seq acc p = false) →
      dkeys (ps.foldl (fun acc key =>
        if dmem seq V key then dset seq acc key (dgetD seq V key "") else acc) acc)
        = dkeys acc ++ ps.filter (fun k => dmem seq V k) by
    simpa using h PROTECTED (by decide) [] (fun p _ => rfl)
  intro ps
  induction ps with
  | nil => intro _ acc _; simp
  | cons p ps ih =>
    intro hpw acc hfresh
    rw [List.foldl_cons]
    by_cases hm : dmem seq V p
    · rw [if_pos hm]
      rw [ih (List.pairwise_cons.mp hpw).2 _ ?_]
      · rw [dkeys_dset, if_neg (by simp [hfresh p (by simp)])]
        simp [List.filter_cons, hm]
      · intro q hq
        rw [dmem_dset_seq, hfresh q (by simp [hq])]
        have hne : p ≠ q := (List.pairwise_cons.mp hpw).1 q hq
        have : seq p q = false := by
          cases hs : seq p q with
          | false => rfl
          | true => exact absurd (seq_iff.mp hs) hne
        rw [this]
        rfl
    · rw [if_neg hm]
      rw [ih (List.pairwise_cons.mp hpw).2 acc (fun q hq => hfresh q (by simp [hq]))]
      simp [List.filter_cons, hm]

/-- Filtering with a predicate that keeps every pair at `key` does not
change the lookup. -/
theorem dget_filter_of_kept {ν : Type} (d : List (String × ν)) (p : String × ν → Bool)
    (key : String) (h : ∀ pr ∈ d, seq pr.fst key = true → p pr = true) :
    dget seq (d.filter p) key = dget seq d key := by
  induction d with
  | nil => rfl
  | cons q d ih =>
    rw [List.filter_cons]
    by_cases hq : p q = true
    · rw [if_pos hq, dget_cons, dget_cons]
      by_cases hs : seq q.fst key
      · simp [hs]
      · simp only [hs, Bool.false_eq_true, if_false]
        exact ih fun pr hpr hseq => h pr (by simp [hpr]) hseq
    · rw [if_neg hq, dget_cons]
      have hs : seq q.fst key = false := by
        cases hs : seq q.fst key with
        | false => rfl
        | true => exact absurd (h q (by simp) hs) hq
      rw [hs]
      simp only [Bool.false_eq_true, if_false]
      exact ih fun pr hpr hseq => h pr (by simp [hpr]) hseq

/-- Filtering preserves key-distinctness. -/
theorem DictWF_filter {ν : Type} (d : List (String × ν)) (p : String × ν → Bool)
    (h : DictWF seq d) : DictWF seq (d.filter p) := by
  unfold DictWF dkeys at h ⊢
  exact h.sublist ((List.filter_sublist d).map Prod.fst)

/-- Distinct classes of `sorted_versions` have distinct representative
labels. -/
theorem reordLabel_inj (V : VMap) (x y : PyVersion) (hx : x ∈ reordSorted V)
    (hy : y ∈ reordSorted V) (hne : veq x y = false) :
    dgetD veq (reordVM V) x "" ≠ dgetD veq (reordVM V) y "" := by
  obtain ⟨labx, hlabx, _, _, wx, hwx, hwxeq⟩ := reordSorted_label V x hx
  obtain ⟨laby, hlaby, _, _, wy, hwy, hwyeq⟩ := reordSorted_label V y hy
  rw [show dgetD veq (reordVM V) x "" = labx from by simp [dgetD, hlabx],
    show dgetD veq (reordVM V) y "" = laby from by simp [dgetD, hlaby]]
  intro he
  rw [he, hwy] at hwx
  have hww : wy = wx := Option.some.inj hwx
  have : veq x y = true := by
    rw [veq_iff]
    calc cmpkey x = cmpkey wx := (veq_iff.mp hwxeq).symm
    _ = cmpkey wy := by rw [hww]
    _ = cmpkey y := veq_iff.mp hwyeq
  rw [this] at hne
  exact absurd hne (by simp)

/-- The release loop appends one fresh representative label per class. -/
theorem reordFold_dkeys (V : VMap) :
    dkeys ((reordSorted V).foldl (reordStep V (reordVM V)) (protFold V))
      = (PROTECTED.filter fun k => dmem seq V k) ++
        (reordSorted V).map (fun ver => dgetD veq (reordVM V) ver "") := by
  rw [← protFold_dkeys V]
  suffices h : ∀ (xs : List PyVersion), xs.Pairwise (fun a b => veq a b = false) →
      (∀ x ∈ xs, x ∈ reordSorted V) →
      ∀ acc : VMap, (∀ x ∈ xs, dmem seq acc (dgetD veq (reordVM V) x "") = false) →
      dkeys (xs.foldl (reordStep V (reordVM V)) acc)
        = dkeys acc ++ xs.map (fun ver => dgetD veq (reordVM V) ver "") by
    apply h (reordSorted V) (reordSorted_pairwise V) (fun x hx => hx) (protFold V) ?_
    intro x hx
    obtain ⟨lab, hlab, hmem, hprot, _⟩ := reordSorted_label V x hx
    rw [show dgetD veq (reordVM V) x "" = lab from by simp [dgetD, hlab]]
    cases hq : dmem seq (protFold V) lab with
    | false => rfl
    | true =>
      exfalso
      have h1 := dmem_mem_dkeys _ lab hq
      rw [protFold_dkeys] at h1
      have h2 := (List.mem_filter.mp h1).1
      have h3 : PROTECTED.contains lab = true := List.elem_eq_true_of_mem h2
      rw [h3] at hprot
      exact absurd hprot (by simp)
  intro xs
  induction xs with
  | nil => intro _ _ acc _; simp
  | cons x xs ih =>
    intro hpw hsub acc hfresh
    rw [List.foldl_cons]
    have hstep : reordStep V (reordVM V) acc x
        = dset seq acc (dgetD veq (reordVM V) x "")
            (dgetD seq V (dgetD veq (reordVM V) x "") "") := rfl
    rw [hstep]
    rw [ih (List.pairwise_cons.mp hpw).2 (fun z hz => hsub z (by simp [hz])) _ ?_]
    · rw [dkeys_dset, if_neg (by simp [hfresh x (by simp)])]
      simp
    · intro y hy
      rw [dmem_dset_seq, hfresh y (by simp [hy])]
      have hnex := reordLabel_inj V x y (hsub x (by simp)) (hsub y (by simp [hy]))
        ((List.pairwise_cons.mp hpw).1 y hy)
      cases hs : seq (dgetD veq (reordVM V) x "") (dgetD veq (reordVM V) y "") with
      | false => rfl
      | true => exact absurd (seq_iff.mp hs) hnex

/-- The release loop leaves protected entries untouched. -/
theorem reordFold_preserves_protected (V : VMap) (key : String)
    (hkey : key ∈ PROTECTED) (acc : VMap) :
    dget seq ((reordSorted V).foldl (reordStep V (reordVM V)) acc) key
      = dget seq acc key := by
  rw [foldl_dget_preserve (reordStep V (reordVM V)) key (reordSorted V) ?_ acc]
  intro acc' x hx
  obtain ⟨lab, hlab, hmem, hprot, _⟩ := reordSorted_label V x hx
  have hstep : reordStep V (reordVM V) acc' x
      = dset seq acc' (dgetD veq (reordVM V) x "")
          (dgetD seq V (dgetD veq (reordVM V) x "") "") := rfl
  rw [hstep, show dgetD veq (reordVM V) x "" = lab from by simp [dgetD, hlab]]
  apply dget_dset_ne_seq
  intro he
  rw [← he] at hprot
  have h3 : PROTECTED.contains key = true := List.elem_eq_true_of_mem hkey
  rw [h3] at hprot
  exact absurd hprot (by simp)

/-- After the release loop, every representative label carries its `V`
URL. -/
theorem reordFold_dget_label (V : VMap) (ver0 : PyVersion)
    (h0 : ver0 ∈ reordSorted V) (acc : VMap) :
    dget seq ((reordSorted V).foldl (reordStep V (reordVM V)) acc)
        (dgetD veq (reordVM V) ver0 "")
      = some (dgetD seq V (dgetD veq (reordVM V) ver0 "") "") := by
  obtain ⟨A, B, hAB⟩ := List.append_of_mem h0
  have hpw := reordSorted_pairwise V
  rw [hAB] at hpw
  have hB : ∀ y ∈ B, veq ver0 y = false := (List.pairwise_cons.mp
    (List.pairwise_append.mp hpw).2.1).1
  have hBmem : ∀ y ∈ B, y ∈ reordSorted V := by
    intro y hy
    rw [hAB]
    exact List.mem_append_right _ (List.mem_cons_of_mem _ hy)
  rw [hAB, List.foldl_append, List.foldl_cons]
  rw [foldl_dget_preserve (reordStep V (reordVM V)) (dgetD veq (reordVM V) ver0 "") B ?_]
  · have hstep : reordStep V (reordVM V) (A.foldl (reordStep V (reordVM V)) acc) ver0
        = dset seq (A.foldl (reordStep V (reordVM V)) acc)
            (dgetD veq (reordVM V) ver0 "")
            (dgetD seq V (dgetD veq (reordVM V) ver0 "") "") := rfl
    rw [hstep]
    exact dget_dset_self seq _ _ _ (seq_refl _)
  · intro acc' y hy
    have hstep : reordStep V (reordVM V) acc' y
        = dset seq acc' (dgetD veq (reordVM V) y "")
            (dgetD seq V (dgetD veq (reordVM V) y "") "") := rfl
    rw [hstep]
    apply dget_dset_ne_seq
    exact reordLabel_inj V ver0 y h0 (hBmem y hy) (hB y hy)

/-- Keys of a filter by a key predicate. -/
theorem dkeys_filter_fst {ν : Type} (d : List (String × ν)) (q : String → Bool) :
    dkeys (d.filter fun p => q p.fst) = (dkeys d).filter q := by
  induction d with
  | nil => rfl
  | cons p d ih =>
    rw [List.filter_cons]
    by_cases hp : q p.fst = true
    · rw [if_pos hp]
      unfold dkeys at ih ⊢
      rw [List.map_cons, List.map_cons, List.filter_cons, if_pos hp, ih]
    · rw [if_neg hp]
      unfold dkeys at ih ⊢
      rw [List.map_cons, List.filter_cons, if_neg hp, ih]

/-- The final `retval.update(...)` of `_reorder_versions` appends exactly
the keys not already placed. -/
theorem reorder_versions_append (V : VMap) (hwf : DictWF seq V) :
    reorder_versions V
      = ((reordSorted V).foldl (reordStep V (reordVM V)) (protFold V)) ++
        (V.filter fun p => !(dmem seq
          ((reordSorted V).foldl (reordStep V (reordVM V)) (protFold V)) p.fst)) := by
  rw [reorder_versions_eq]
  apply dupdate_fresh_append
  · intro p hp
    have h1 := (List.mem_filter.mp hp).2
    simpa using h1
  · exact DictWF_filter V _ hwf

/-- `_reorder_versions` preserves every entry (same keys, same values). -/
theorem reorder_dget (V : VMap) (hwf : DictWF seq V) (key : String) :
    dget seq (reorder_versions V) key = dget seq V key := by
  rw [reorder_versions_append V hwf]
  by_cases hmem : dmem seq ((reordSorted V).foldl (reordStep V (reordVM V))
      (protFold V)) key
  · rw [dget_append_left _ _ _ hmem]
    have hk := dmem_mem_dkeys _ key hmem
    rw [reordFold_dkeys] at hk
    rcases List.mem_append.mp hk with hk1 | hk1
    · have hp1 := List.mem_filter.mp hk1
      rw [reordFold_preserves_protected V key hp1.1,
        protFold_dget_mem V key hp1.1 hp1.2]
      obtain ⟨u, hu⟩ : ∃ u, dget seq V key = some u := by
        have := (dmem_iff_dget seq V key).mp hp1.2
        cases hq : dget seq V key with
        | some u => exact ⟨u, rfl⟩
        | none => rw [hq] at this; simp at this
      rw [hu]
      simp [dgetD, hu]
    · obtain ⟨ver0, hver0, hlab⟩ := List.mem_map.mp hk1
      rw [← hlab, reordFold_dget_label V ver0 hver0]
      obtain ⟨lab, hlabg, hmemV, _, _⟩ := reordSorted_label V ver0 hver0
      have heq2 : dgetD veq (reordVM V) ver0 "" = lab := by simp [dgetD, hlabg]
      rw [heq2]
      have hdm : dmem seq V lab = true := mem_dkeys_dmem seq V lab seq_refl hmemV
      obtain ⟨u, hu⟩ : ∃ u, dget seq V lab = some u := by
        have := (dmem_iff_dget seq V lab).mp hdm
        cases hq : dget seq V lab with
        | some u => exact ⟨u, rfl⟩
        | none => rw [hq] at this; simp at this
      rw [hu]
      simp [dgetD, hu]
  · rw [dget_append_right _ _ _ (Bool.eq_false_iff.mpr hmem)]
    apply dget_filter_of_kept
    intro pr hpr hseq
    have hfst : pr.fst = key := seq_iff.mp hseq
    rw [hfst]
    have hfalse : dmem seq ((reordSorted V).foldl (reordStep V (reordVM V))
        (protFold V)) key = false := Bool.eq_false_iff.mpr hmem
    rw [hfalse]
    rfl

/-- `_reorder_versions` keeps keys pairwise distinct. -/
theorem reorder_WF (V : VMap) (hwf : DictWF seq V) :
    DictWF seq (reorder_versions V) := by
  rw [reorder_versions_append V hwf]
  unfold DictWF
  rw [show dkeys ((reordSorted V).foldl (reordStep V (reordVM V)) (protFold V) ++
      V.filter fun p => !(dmem seq ((reordSorted V).foldl (reordStep V (reordVM V))
        (protFold V)) p.fst))
    = dkeys ((reordSorted V).foldl (reordStep V (reordVM V)) (protFold V)) ++
      dkeys (V.filter fun p => !(dmem seq ((reordSorted V).foldl
        (reordStep V (reordVM V)) (protFold V)) p.fst)) from by simp [dkeys]]
  rw [List.pairwise_append]
  have hconv : ∀ {a b : String}, a ≠ b → seq a b = false := by
    intro a b h
    cases hs : seq a b with
    | false => rfl
    | true => exact absurd (seq_iff.mp hs) h
  refine ⟨?_, ?_, ?_⟩
  · rw [reordFold_dkeys]
    rw [List.pairwise_append]
    refine ⟨?_, ?_, ?_⟩
    · have hP : PROTECTED.Pairwise (fun a b : String => a ≠ b) := by decide
      exact (List.Pairwise.sublist (List.filter_sublist PROTECTED) hP).imp
        fun h => hconv h
    · rw [List.pairwise_map]
      refine (reordSorted_pairwise V).imp_of_mem ?_
      intro x y hx hy hne
      exact hconv (reordLabel_inj V x y hx hy hne)
    · intro a ha b hb
      obtain ⟨ver, hver, hlb⟩ := List.mem_map.mp hb
      obtain ⟨lab, hlabg, _, hprot, _⟩ := reordSorted_label V ver hver
      have hlabD : dgetD veq (reordVM V) ver "" = lab := by simp [dgetD, hlabg]
      rw [← hlb, hlabD]
      apply hconv
      intro he
      have h3 : PROTECTED.contains a = true :=
        List.elem_eq_true_of_mem (List.mem_filter.mp ha).1
      rw [← he] at hprot
      rw [h3] at hprot
      exact absurd hprot (by simp)
  · exact DictWF_filter V _ hwf
  · intro a ha b hb
    have hda : dmem seq ((reordSorted V).foldl (reordStep V (reordVM V))
        (protFold V)) a = true := mem_dkeys_dmem seq _ a seq_refl ha
    obtain ⟨pr, hpr, hfst⟩ := List.mem_map.mp hb
    have hcond := (List.mem_filter.mp hpr).2
    cases hs : seq a b with
    | false => rfl
    | true =>
      exfalso
      have hab : a = b := seq_iff.mp hs
      rw [hfst, ← hab] at hcond
      rw [hda] at hcond
      simp at hcond

/-- C5 (amended): `_reorder_versions` preserves every entry (hence is
idempotent under Python dictionary equality, which ignores order) and
orders its keys as: protected labels in the fixed order, then ONE
representative label per distinct parsed-version class in strictly
decreasing version order, then every remaining label — including parseable
labels whose class already has a representative — in insertion order. -/
theorem C5_reorder_amended (V : VMap) (hwf : DictWF seq V) :
    (∀ k, dget seq (reorder_versions V) k = dget seq V k) ∧
    DictWF seq (reorder_versions V) ∧
    (∀ k, dget seq (reorder_versions (reorder_versions V)) k
        = dget seq (reorder_versions V) k) ∧
    ∃ reps : List String,
      dkeys (reorder_versions V)
        = (PROTECTED.filter fun k => dmem seq V k) ++ reps ++
          ((dkeys V).filter fun k =>
            !(PROTECTED.contains k) && !(reps.contains k)) ∧
      (∀ r ∈ reps, dmem seq V r = true ∧ PROTECTED.contains r = false ∧
        (pep440Parse r).isSome = true) ∧
      reps.Pairwise (fun a b => ∀ va vb, pep440Parse a = some va →
        pep440Parse b = some vb → vlt vb va) ∧
      (∀ l v, dmem seq V l = true → PROTECTED.contains l = false →
        pep440Parse l = some v →
        ∃ r ∈ reps, ∃ vr, pep440Parse r = some vr ∧ veq vr v = true) := by
  refine ⟨reorder_dget V hwf, reorder_WF V hwf,
    reorder_dget (reorder_versions V) (reorder_WF V hwf), ?_⟩
  refine ⟨(reordSorted V).map (fun ver => dgetD veq (reordVM V) ver ""),
    ?_, ?_, ?_, ?_⟩
  · rw [reorder_versions_append V hwf]
    rw [show ∀ X Y : VMap, dkeys (X ++ Y) = dkeys X ++ dkeys Y from
      fun X Y => by simp [dkeys]]
    rw [reordFold_dkeys, dkeys_filter_fst V (fun k => !(dmem seq
      ((reordSorted V).foldl (reordStep V (reordVM V)) (protFold V)) k))]
    congr 1
    apply List.filter_congr
    intro k hk
    have hdmV : dmem seq V k = true := mem_dkeys_dmem seq V k seq_refl hk
    cases hd : dmem seq ((reordSorted V).foldl (reordStep V (reordVM V))
        (protFold V)) k with
    | true =>
      have hkk := dmem_mem_dkeys _ k hd
      rw [reordFold_dkeys] at hkk
      rcases List.mem_append.mp hkk with h1 | h1
      · have h2 : PROTECTED.contains k = true :=
          List.elem_eq_true_of_mem (List.mem_filter.mp h1).1
        rw [h2]
        rfl
      · have h2 : ((reordSorted V).map
            (fun ver => dgetD veq (reordVM V) ver "")).contains k = true :=
          List.elem_eq_true_of_mem h1
        rw [h2]
        simp
    | false =>
      have hn : ¬ k ∈ dkeys ((reordSorted V).foldl (reordStep V (reordVM V))
          (protFold V)) := by
        intro hmm
        rw [mem_dkeys_dmem seq _ k seq_refl hmm] at hd
        simp at hd
      rw [reordFold_dkeys] at hn
      have h1 : PROTECTED.contains k = false := by
        cases hc : PROTECTED.contains k with
        | false => rfl
        | true =>
          exact absurd (List.mem_append_left _
            (List.mem_filter.mpr ⟨List.mem_of_elem_eq_true hc, hdmV⟩)) hn
      have h2 : ((reordSorted V).map
          (fun ver => dgetD veq (reordVM V) ver "")).contains k = false := by
        cases hc : ((reordSorted V).map
            (fun ver => dgetD veq (reordVM V) ver "")).contains k with
        | false => rfl
        | true =>
          exact absurd (List.mem_append_right _ (List.mem_of_elem_eq_true hc)) hn
      rw [h1, h2]
      rfl
  · intro r hr
    obtain ⟨ver, hver, heq⟩ := List.mem_map.mp hr
    obtain ⟨lab, hlabg, hmemV, hprot, w, hw, _⟩ := reordSorted_label V ver hver
    have hlabD : dgetD veq (reordVM V) ver "" = lab := by simp [dgetD, hlabg]
    rw [← heq, hlabD]
    exact ⟨mem_dkeys_dmem seq V lab seq_refl hmemV, hprot, by rw [hw]; rfl⟩
  · rw [List.pairwise_map]
    refine (reordSorted_desc V).imp_of_mem ?_
    intro x y hx hy hlt
    intro va vb hva hvb
    obtain ⟨labx, hlabgx, _, _, wx, hwx, hwxeq⟩ := reordSorted_label V x hx
    obtain ⟨laby, hlabgy, _, _, wy, hwy, hwyeq⟩ := reordSorted_label V y hy
    have hlabDx : dgetD veq (reordVM V) x "" = labx := by simp [dgetD, hlabgx]
    have hlabDy : dgetD veq (reordVM V) y "" = laby := by simp [dgetD, hlabgy]
    rw [hlabDx, hwx] at hva
    rw [hlabDy, hwy] at hvb
    have hwa : wx = va := Option.some.inj hva
    have hwb : wy = vb := Option.some.inj hvb
    unfold vlt at hlt ⊢
    rw [← hwa, ← hwb, veq_iff.mp hwxeq, veq_iff.mp hwyeq]
    exact hlt
  · intro l v hm hprot hp
    have hdm := reordVM_mem V l v (dmem_mem_dkeys V l hm) hprot hp
    unfold dmem at hdm
    simp only [List.any_eq_true] at hdm
    obtain ⟨pr, hpr, hveq⟩ := hdm
    have hsort : pr.fst ∈ reordSorted V :=
      (reordSorted_mem_iff V pr.fst).mpr (List.mem_map.mpr ⟨pr, hpr, rfl⟩)
    obtain ⟨lab, hlabg, _, _, w, hw, hweq⟩ := reordSorted_label V pr.fst hsort
    have hlabD : dgetD veq (reordVM V) pr.fst "" = lab := by simp [dgetD, hlabg]
    refine ⟨dgetD veq (reordVM V) pr.fst "", List.mem_map.mpr ⟨pr.fst, hsort, rfl⟩,
      w, by rw [hlabD]; exact hw, veq_trans hweq hveq⟩

/-- The amended C5 theorem evaluated on a mixed four-entry mapping. -/
theorem C5_reorder_amended_witness :
    DictWF seq [("2.0", "B"), ("stable", "S"), ("1.0", "A"), ("foo", "F")] ∧
    dget seq (reorder_versions
        [("2.0", "B"), ("stable", "S"), ("1.0", "A"), ("foo", "F")]) "foo"
      = dget seq [("2.0", "B"), ("stable", "S"), ("1.0", "A"), ("foo", "F")] "foo" ∧
    dkeys (reorder_versions
        [("2.0", "B"), ("stable", "S"), ("1.0", "A"), ("foo", "F")])
      = ["stable", "2.0", "1.0", "foo"] := by
  have hwf : DictWF seq [("2.0", "B"), ("stable", "S"), ("1.0", "A"), ("foo", "F")] := by
    unfold DictWF dkeys
    decide
  exact ⟨hwf, (C5_reorder_amended _ hwf).1 "foo", rfl⟩

end AutoIntersphinx
